import Mathlib

/-!
# gomibako: request inboxes with bounded history, live feeds and a TTL sweep

A shallow embedding of `lib/gomibako.go` (the repository of inboxes, its
broker loop and its truncater) and of the repository that `main.go` declares
for the HTTP server, followed by the properties proved about them.

Conventions of the embedding

* Times are `Int` nanoseconds; `time.Since(t)` at clock value `now` is
  `now - t`.
* A channel is a handle (`Chan`, a natural number).  The state records which
  handles have been closed (`closeLog`, one entry per successful `close`) and
  every completed send (`delivered`).  `close` of a closed channel and a send
  on a closed channel panic, as in Go.  A send is taken to be received at
  once (the consumer drains its feed).
* A Go map is an association list read through `Registry.get` (first binding
  wins); ranging over the map visits every bound key once.  The set
  `map[chan]bool` is a list read through membership; ranging over it visits
  every member once.
* Every exported call is one atomic step, run with the lock it asks for
  granted.  The registry lock is visible only as the reader count `readers`,
  moved by `RLock` and `RUnlock`; the write lock and the lock of each inbox
  are taken and given back inside one step and leave no trace.
* A call ends in an `Outcome`: it returns, it panics, or it is suspended on
  a channel operation (`AddRequest` on a full queue, the broker on an empty
  one).
-/

namespace GomibakoLib

/-! ## Data model (lib/gomibako.go) -/

/-- Duration of one hour in nanoseconds (`time.Hour`). -/
def Hour : Int := 3600000000000

/-- The constant `ttlInHours = 7 * 24`. -/
def ttlInHours : Int := 7 * 24

/-- Capacity of the broker queue, `make(chan *GomibakoRequest, 100)`. -/
def brokerCap : Nat := 100

abbrev GomibakoKey := String

/-- Channel handle: the identity of one `chan *GomibakoRequest`. -/
abbrev Chan := Nat

structure GomibakoRequest where
  Key : GomibakoKey
  Timestamp : Int
  Method : String
  URL : String
  Headers : List (String × List String)
  Body : String
  ContentLength : Int
deriving DecidableEq, Repr

structure Gomibako where
  Key : GomibakoKey
  timestamp : Int
  reqs : List GomibakoRequest
  chs : List Chan
deriving DecidableEq, Repr

namespace Gomibako

/-- Method `addCh`: `g.chs[ch] = true`. -/
def addCh (g : Gomibako) (ch : Chan) : Gomibako :=
  if ch ∈ g.chs then g else { g with chs := g.chs ++ [ch] }

/-- Method `releaseCh`: `delete(g.chs, ch)`. -/
def releaseCh (g : Gomibako) (ch : Chan) : Gomibako :=
  { g with chs := g.chs.filter (fun c => decide (c ≠ ch)) }

/-- Method `addRequest`: push at the back, then drop the front element when
the list has grown past ten. -/
def addRequest (g : Gomibako) (greq : GomibakoRequest) : Gomibako :=
  if (g.reqs ++ [greq]).length > 10 then { g with reqs := (g.reqs ++ [greq]).tail }
  else { g with reqs := g.reqs ++ [greq] }

/-- Method `Requests`: walk the list front to back, appending each element to
a fresh slice. -/
def Requests (g : Gomibako) : List GomibakoRequest :=
  g.reqs.foldl (fun reqs r => reqs ++ [r]) []

/-- Method `channels`: range over the feed set, appending each member to a
fresh slice. -/
def channels (g : Gomibako) : List Chan :=
  g.chs.dedup.foldl (fun chs ch => chs ++ [ch]) []

end Gomibako

/-- Inbox as `AddGomibako` builds it: no requests, no feeds. -/
def newGomibako (key : GomibakoKey) (now : Int) : Gomibako :=
  { Key := key, timestamp := now, reqs := [], chs := [] }

/-- Request whose only interesting field is its body. -/
def mkReq (key : GomibakoKey) (body : String) : GomibakoRequest :=
  { Key := key, Timestamp := 0, Method := "POST", URL := "/g/" ++ key,
    Headers := [], Body := body, ContentLength := 0 }

/-! ## The registry map -/

/-- Contents of `map[GomibakoKey]*Gomibako`. -/
abbrev Registry := List (GomibakoKey × Gomibako)

namespace Registry

/-- Map read `m[key]`. -/
def lookup : Registry → GomibakoKey → Option Gomibako
  | [], _ => none
  | (k, g) :: m, key => if k = key then some g else lookup m key

/-- Map removal `delete(m, key)`. -/
def remove (m : Registry) (key : GomibakoKey) : Registry :=
  m.filter (fun p => decide (p.1 ≠ key))

/-- Map write `m[key] = g`. -/
def store (m : Registry) (key : GomibakoKey) (g : Gomibako) : Registry :=
  (key, g) :: remove m key

/-- Keys visited by `for gk := range m`. -/
def keys (m : Registry) : List GomibakoKey :=
  (m.map Prod.fst).dedup

end Registry

/-! ## Repository state and call outcomes -/

/-- State of a `GomibakoRepository` together with the channels it refers to:
the map, the contents of the buffered `broker` channel (front first), the
number of goroutines holding the read lock of `mutex`, the next handle
`make(chan)` returns, the channels closed so far and the sends completed so
far. -/
structure GomibakoRepository where
  gomibakos : Registry
  broker : List GomibakoRequest
  readers : Nat
  nextCh : Chan
  closeLog : List Chan
  delivered : List (Chan × GomibakoRequest)
deriving DecidableEq, Repr

/-- How a call ends: it returns `val`, it panics, or it is suspended on a
channel operation; each with the state it leaves behind. -/
inductive Outcome (α : Type) where
  | ret (val : α) (gr : GomibakoRepository)
  | panic (msg : String) (gr : GomibakoRepository)
  | blocked (gr : GomibakoRepository)
deriving DecidableEq, Repr

namespace Outcome

/-- State in which the call ended. -/
def state {α : Type} : Outcome α → GomibakoRepository
  | ret _ gr => gr
  | panic _ gr => gr
  | blocked gr => gr

/-- Whether the call ended in a panic. -/
def isPanic {α : Type} : Outcome α → Bool
  | panic _ _ => true
  | _ => false

/-- Whether the call ran to its return statement. -/
def isRet {α : Type} : Outcome α → Bool
  | ret _ _ => true
  | _ => false

/-- Message of the panic the call ended in, if it did. -/
def panicMsg {α : Type} : Outcome α → Option String
  | panic msg _ => some msg
  | _ => none

end Outcome

/-- The error text of `errors.New("no gomibako found")`. -/
def errNotFound : String := "no gomibako found"

/-- Test `d.Hours() > ttlInHours` for a duration `d` in nanoseconds.
`Hours` is `float64(d / Hour) + float64(d % Hour) / 3.6e12`; the sum exceeds
168 exactly when `d` exceeds 168 hours, since an excess of one nanosecond
(2.7e-13 h) is more than the spacing of `float64` at 168 (2.9e-14). -/
def exceedsTTL (d : Int) : Bool :=
  decide (d > ttlInHours * Hour)

namespace GomibakoRepository

/-- Function `NewGomibakoRepository`. -/
def NewGomibakoRepository : GomibakoRepository :=
  { gomibakos := [], broker := [], readers := 0, nextCh := 0, closeLog := [], delivered := [] }

/-- Read lock of `gr.mutex` taken. -/
def RLock (gr : GomibakoRepository) : GomibakoRepository :=
  { gr with readers := gr.readers + 1 }

/-- Read lock of `gr.mutex` given back. -/
def RUnlock (gr : GomibakoRepository) : GomibakoRepository :=
  { gr with readers := gr.readers - 1 }

/-- Builtin `close(ch)`. -/
def closeCh (gr : GomibakoRepository) (ch : Chan) : Outcome Unit :=
  if ch ∈ gr.closeLog then .panic "close of closed channel" gr
  else .ret () { gr with closeLog := gr.closeLog ++ [ch] }

/-- Statement `ch <- greq` with a consumer waiting on `ch`. -/
def send (gr : GomibakoRepository) (ch : Chan) (greq : GomibakoRequest) : Outcome Unit :=
  if ch ∈ gr.closeLog then .panic "send on closed channel" gr
  else .ret () { gr with delivered := gr.delivered ++ [(ch, greq)] }

/-- Loop `for ch := range g.chs { close(ch) }`. -/
def closeEach : List Chan → GomibakoRepository → Outcome Unit
  | [], gr => .ret () gr
  | ch :: chs, gr =>
    match closeCh gr ch with
    | .ret _ gr1 => closeEach chs gr1
    | .panic msg gr1 => .panic msg gr1
    | .blocked gr1 => .blocked gr1

/-- Method `releaseChAll` of the inbox `g` registered under `key`: close every
feed, then replace the feed set by an empty one. -/
def releaseChAll (gr : GomibakoRepository) (key : GomibakoKey) (g : Gomibako) : Outcome Unit :=
  match closeEach g.chs.dedup gr with
  | .ret _ gr1 =>
    .ret () { gr1 with gomibakos := Registry.store gr1.gomibakos key { g with chs := [] } }
  | .panic msg gr1 => .panic msg gr1
  | .blocked gr1 => .blocked gr1

/-- Method `AddGomibako`; `rand` is what `strrand.RandomString` returns and
`now` what `time.Now()` returns. -/
def AddGomibako (gr : GomibakoRepository) (rand : Except String String) (now : Int) :
    Outcome (Except String Gomibako) :=
  match rand with
  | .error err => .ret (.error err) gr
  | .ok str =>
    .ret (.ok (newGomibako str now))
      { gr with gomibakos := Registry.store gr.gomibakos str (newGomibako str now) }

/-- Method `AddRequest`; the returned value is the `error` (`none` for nil).
The send on the buffered `broker` channel suspends the call when 100
requests are waiting. -/
def AddRequest (gr : GomibakoRepository) (greq : GomibakoRequest) : Outcome (Option String) :=
  match Registry.lookup gr.gomibakos greq.Key with
  | none => .ret (some errNotFound) gr
  | some g =>
    if gr.broker.length < brokerCap then
      .ret none { gr with
        gomibakos := Registry.store gr.gomibakos greq.Key (g.addRequest greq),
        broker := gr.broker ++ [greq] }
    else
      .blocked { gr with
        gomibakos := Registry.store gr.gomibakos greq.Key (g.addRequest greq) }

/-- Method `Get`. -/
def Get (gr : GomibakoRepository) (key : GomibakoKey) : Outcome (Except String Gomibako) :=
  match Registry.lookup gr.RLock.gomibakos key with
  | none => .ret (.error errNotFound) gr.RLock.RUnlock
  | some g => .ret (.ok g) gr.RLock.RUnlock

/-- Method `GetWithCh`: `Get`, then `make(chan)` and `g.addCh(ch)`. -/
def GetWithCh (gr : GomibakoRepository) (key : GomibakoKey) :
    Outcome (Except String (Gomibako × Chan)) :=
  match Get gr key with
  | .ret (.error err) gr1 => .ret (.error err) gr1
  | .ret (.ok g) gr1 =>
    .ret (.ok (g.addCh gr1.nextCh, gr1.nextCh))
      { gr1 with
        nextCh := gr1.nextCh + 1,
        gomibakos := Registry.store gr1.gomibakos key (g.addCh gr1.nextCh) }
  | .panic msg gr1 => .panic msg gr1
  | .blocked gr1 => .blocked gr1

/-- Method `Release`; the deferred `RUnlock` also runs when `close` panics. -/
def Release (gr : GomibakoRepository) (key : GomibakoKey) (ch : Chan) : Outcome (Option String) :=
  match Registry.lookup gr.RLock.gomibakos key with
  | none => .ret (some errNotFound) gr.RLock.RUnlock
  | some g =>
    match closeCh { gr.RLock with
        gomibakos := Registry.store gr.RLock.gomibakos key (g.releaseCh ch) } ch with
    | .ret _ gr1 => .ret none gr1.RUnlock
    | .panic msg gr1 => .panic msg gr1.RUnlock
    | .blocked gr1 => .blocked gr1

/-- Loop of `Truncate` over the keys still to visit; `ids` collects the keys
that are kept. -/
def truncateLoop (now : Int) :
    List GomibakoKey → List String → GomibakoRepository → Outcome (List String)
  | [], ids, gr => .ret ids gr
  | gk :: rest, ids, gr =>
    match Registry.lookup gr.gomibakos gk with
    | none => truncateLoop now rest ids gr
    | some g =>
      if exceedsTTL (now - g.timestamp) then
        match releaseChAll gr gk g with
        | .ret _ gr1 =>
          truncateLoop now rest ids { gr1 with gomibakos := Registry.remove gr1.gomibakos gk }
        | .panic msg gr1 => .panic msg gr1
        | .blocked gr1 => .blocked gr1
      else truncateLoop now rest (ids ++ [gk]) gr

/-- Method `Truncate` at clock value `now`; the returned list is the one
logged as the current gomibakos. -/
def Truncate (gr : GomibakoRepository) (now : Int) : Outcome (List String) :=
  truncateLoop now (Registry.keys gr.gomibakos) [] gr

/-- Loop `for _, ch := range g.channels() { ch <- newGreq }`. -/
def fanOut (newGreq : GomibakoRequest) : List Chan → GomibakoRepository → Outcome Unit
  | [], gr => .ret () gr
  | ch :: chs, gr =>
    match send gr ch newGreq with
    | .ret _ gr1 => fanOut newGreq chs gr1
    | .panic msg gr1 => .panic msg gr1
    | .blocked gr1 => .blocked gr1

/-- Body of the loop of `RunBroker` for the dequeued request `newGreq`:
`RLock`, the lookup, `continue` when the inbox is gone, else the fan-out and
`RUnlock`. -/
def RunBrokerBody (gr : GomibakoRepository) (newGreq : GomibakoRequest) : Outcome Unit :=
  match Registry.lookup gr.RLock.gomibakos newGreq.Key with
  | none => .ret () gr.RLock
  | some g =>
    match fanOut newGreq g.channels gr.RLock with
    | .ret _ gr1 => .ret () gr1.RUnlock
    | .panic msg gr1 => .panic msg gr1
    | .blocked gr1 => .blocked gr1

/-- One iteration of `RunBroker`: receive from `broker` (suspended while it
is empty), then run the body. -/
def RunBrokerStep (gr : GomibakoRepository) : Outcome Unit :=
  match gr.broker with
  | [] => .blocked gr
  | newGreq :: queue => RunBrokerBody { gr with broker := queue } newGreq

/-- Sends completed on `ch`, oldest first. -/
def deliveriesOn (gr : GomibakoRepository) (ch : Chan) : List GomibakoRequest :=
  (gr.delivered.filter (fun p => decide (p.1 = ch))).map Prod.snd

end GomibakoRepository

/-- Feeds that the sweep at `now` closes while it visits the keys `ks`, in
the order it closes them: the feed sets of the inboxes older than the TTL. -/
def sweptFeedsOf (now : Int) (m : Registry) : List GomibakoKey → List Chan
  | [] => []
  | gk :: rest =>
    (match Registry.lookup m gk with
      | some g => if exceedsTTL (now - g.timestamp) then g.chs.dedup else []
      | none => []) ++ sweptFeedsOf now m rest

/-- Feeds that `Truncate` at `now` closes. -/
def sweptFeeds (now : Int) (gr : GomibakoRepository) : List Chan :=
  sweptFeedsOf now gr.gomibakos (Registry.keys gr.gomibakos)

/-- No feed registered on an inbox older than the TTL at `now` is closed. -/
def ExpiredFeedsOpen (now : Int) (gr : GomibakoRepository) : Prop :=
  ∀ k g, Registry.lookup gr.gomibakos k = some g → exceedsTTL (now - g.timestamp) = true →
    ∀ c ∈ g.chs, c ∉ gr.closeLog

/-- No feed is registered on two inboxes older than the TTL at `now`. -/
def ExpiredFeedsApart (now : Int) (gr : GomibakoRepository) : Prop :=
  ∀ k1 k2 g1 g2, k1 ≠ k2 → Registry.lookup gr.gomibakos k1 = some g1 →
    Registry.lookup gr.gomibakos k2 = some g2 → exceedsTTL (now - g1.timestamp) = true →
    exceedsTTL (now - g2.timestamp) = true → ∀ c ∈ g1.chs, c ∉ g2.chs

/-- Invariant of the feeds, on the map `m`, the close log `cl` and the next
channel handle `n`: a registered feed is open, is registered on one inbox
only and has been handed out by `make`; no channel is in the close log twice
and every closed channel has been handed out by `make`. -/
structure InvOn (m : Registry) (cl : List Chan) (n : Chan) : Prop where
  feedsOpen : ∀ k g, Registry.lookup m k = some g → ∀ c ∈ g.chs, c ∉ cl
  feedsApart : ∀ k1 k2 g1 g2, k1 ≠ k2 → Registry.lookup m k1 = some g1 →
    Registry.lookup m k2 = some g2 → ∀ c ∈ g1.chs, c ∉ g2.chs
  feedsMade : ∀ k g, Registry.lookup m k = some g → ∀ c ∈ g.chs, c < n
  closedOnce : cl.Nodup
  closedMade : ∀ c ∈ cl, c < n

/-- Invariant of the feeds in a repository state. -/
def Inv (gr : GomibakoRepository) : Prop :=
  InvOn gr.gomibakos gr.closeLog gr.nextCh

/-! ## Calls run back to back -/

/-- One call on the repository, with what the environment supplies to it. -/
inductive Action where
  | addGomibako (rand : Except String String) (now : Int)
  | addRequest (greq : GomibakoRequest)
  | getWithCh (key : GomibakoKey)
  | release (key : GomibakoKey) (ch : Chan)
  | truncate (now : Int)
  | broker

/-- Outcome of one action, its return value dropped. -/
def discard {α : Type} : Outcome α → Outcome Unit
  | .ret _ gr => .ret () gr
  | .panic msg gr => .panic msg gr
  | .blocked gr => .blocked gr

open GomibakoRepository in
/-- The call an action stands for, run from its first line to its last with
no other goroutine in between (for `broker`: one whole iteration of the
loop).  The interleavings of the goroutines are those of `cstep` below. -/
def step (gr : GomibakoRepository) : Action → Outcome Unit
  | .addGomibako rand now => discard (AddGomibako gr rand now)
  | .addRequest greq => discard (AddRequest gr greq)
  | .getWithCh key => discard (GetWithCh gr key)
  | .release key ch => discard (Release gr key ch)
  | .truncate now => discard (Truncate gr now)
  | .broker => RunBrokerStep gr

/-- Run the calls back to back, each one finished before the next starts;
the run stops at the first call that does not return. -/
def exec : GomibakoRepository → List Action → Outcome Unit
  | gr, [] => .ret () gr
  | gr, a :: rest =>
    match step gr a with
    | .ret _ gr1 => exec gr1 rest
    | .panic msg gr1 => .panic msg gr1
    | .blocked gr1 => .blocked gr1

/-- Requests of `rs` that belong to the inbox `k`, in the order of `rs`. -/
def forKey (k : GomibakoKey) (rs : List GomibakoRequest) : List GomibakoRequest :=
  rs.filter (fun r => decide (r.Key = k))

/-! ## Interleaved goroutines

The broker goroutine, the truncater and the callers of the repository run
concurrently.  A step of the system is one stretch of code that the locks
and the channel operations make indivisible:

* `AddGomibako`, `Truncate`: the whole call (write lock of `gr.mutex`);
* `AddRequest`: the whole call (write lock), or the call up to its send on
  the full `broker` channel, where it waits with the write lock held, and
  later the send;
* `GetWithCh`: first `Get` (read lock), later `make(chan)` and `g.addCh(ch)`
  on the inbox `Get` returned (lock of the inbox only);
* `Release`: first the lookup and `g.releaseCh(ch)`, later `close(ch)` and
  the deferred `RUnlock`; the read lock is held in between;
* `RunBroker`: the receive from `broker` (no lock); then `RLock`, the lookup
  and `g.channels()`; then each send `ch <- newGreq`; then `RUnlock`.

The write lock is free when no call waits in `AddRequest` and the reader
count is 0; the read lock is free when no call waits in `AddRequest`.  A
label stands for a step at the moment the goroutine takes it; a call that
waits for a lock is not part of the state.  In Go a `Lock` call that waits
also holds back the `RLock` calls that come after it: this takes schedules
away and adds none, so what is proved of every schedule of `crun` holds of
those that remain; that a step is enabled means below that no channel and no
holder of the lock refuses it. -/

/-- Where the broker goroutine stands in `RunBroker`: at the receive; with
`newGreq` received and `RLock` still to take; or inside the loop over
`g.channels()` with the channels `chs` still to send to. -/
inductive BrokerPC where
  | idle
  | holding (newGreq : GomibakoRequest)
  | sending (newGreq : GomibakoRequest) (chs : List Chan)
deriving DecidableEq, Repr

namespace BrokerPC

/-- Channels the broker has yet to send the request in its hand to. -/
def remaining : BrokerPC → List Chan
  | sending _ chs => chs
  | _ => []

/-- Request the broker has received and whose feed set it has yet to read. -/
def unread : BrokerPC → List GomibakoRequest
  | holding newGreq => [newGreq]
  | _ => []

end BrokerPC

/-- State of the running system: the repository and its channels; the
broker goroutine; the `GetWithCh` calls between `Get` and `addCh`, each with
its key and whether the inbox `Get` returned is still the one the map holds
under that key; the channels of the `Release` calls between `releaseCh` and
`close`; the request of an `AddRequest` waiting to send with the write lock
held; the panic that ended the process, if any. -/
structure Sys where
  gr : GomibakoRepository
  pc : BrokerPC
  subscribing : List (GomibakoKey × Bool)
  closing : List Chan
  writer : Option GomibakoRequest
  crashed : Option String
deriving DecidableEq, Repr

/-- One indivisible step of one goroutine. -/
inductive Label where
  | addGomibako (rand : Except String String) (now : Int)
  | addRequest (greq : GomibakoRequest)
  | sendDone
  | getBegin (key : GomibakoKey)
  | getEnd (i : Nat)
  | release (key : GomibakoKey) (ch : Chan)
  | releaseEnd (ch : Chan)
  | truncate (now : Int)
  | broker

namespace Sys

/-- The system at process start: `NewGomibakoRepository()`, the broker at its
receive. -/
def init : Sys :=
  { gr := GomibakoRepository.NewGomibakoRepository, pc := .idle, subscribing := [],
    closing := [], writer := none, crashed := none }

/-- A `GetWithCh` call in flight loses its inbox when the map entry of its
key is overwritten. -/
def orphanKey (key : GomibakoKey) (e : GomibakoKey × Bool) : GomibakoKey × Bool :=
  if e.1 = key then (e.1, false) else e

/-- A `GetWithCh` call in flight loses its inbox when the sweep removes it. -/
def orphanGone (m : Registry) (e : GomibakoKey × Bool) : GomibakoKey × Bool :=
  match Registry.lookup m e.1 with
  | none => (e.1, false)
  | some _ => e

open GomibakoRepository in
/-- Step `AddGomibako`, under the write lock. -/
def addGomibako (s : Sys) (rand : Except String String) (now : Int) : Option Sys :=
  if s.writer = none ∧ s.gr.readers = 0 then
    some { s with
      gr := (AddGomibako s.gr rand now).state,
      subscribing :=
        match rand with
        | .ok str => s.subscribing.map (orphanKey str)
        | .error _ => s.subscribing }
  else none

open GomibakoRepository in
/-- Step `AddRequest`, under the write lock; when the queue is full the call
stays in `writer`, the write lock held. -/
def addRequest (s : Sys) (greq : GomibakoRequest) : Option Sys :=
  if s.writer = none ∧ s.gr.readers = 0 then
    match AddRequest s.gr greq with
    | .ret _ gr1 => some { s with gr := gr1 }
    | .blocked gr1 => some { s with gr := gr1, writer := some greq }
    | .panic msg gr1 => some { s with gr := gr1, crashed := some msg }
  else none

/-- Step of the waiting `AddRequest`: the send `gr.broker <- greq` once the
queue has room, then the write lock is given back. -/
def sendDone (s : Sys) : Option Sys :=
  match s.writer with
  | none => none
  | some greq =>
    if s.gr.broker.length < brokerCap then
      some { s with gr := { s.gr with broker := s.gr.broker ++ [greq] }, writer := none }
    else none

open GomibakoRepository in
/-- First step of `GetWithCh`: the call of `Get`. -/
def getBegin (s : Sys) (key : GomibakoKey) : Option Sys :=
  if s.writer = none then
    match Get s.gr key with
    | .ret (.ok _) gr1 => some { s with gr := gr1, subscribing := s.subscribing ++ [(key, true)] }
    | .ret (.error _) gr1 => some { s with gr := gr1 }
    | .panic msg gr1 => some { s with gr := gr1, crashed := some msg }
    | .blocked _ => none
  else none

/-- Second step of the `GetWithCh` call number `i`: `make(chan)` and
`g.addCh(ch)`.  The map changes only when `g` is still the inbox it holds. -/
def getEnd (s : Sys) (i : Nat) : Option Sys :=
  match s.subscribing[i]? with
  | none => none
  | some (key, live) =>
    some { s with
      gr := { s.gr with
        nextCh := s.gr.nextCh + 1,
        gomibakos :=
          match live, Registry.lookup s.gr.gomibakos key with
          | true, some g => Registry.store s.gr.gomibakos key (g.addCh s.gr.nextCh)
          | _, _ => s.gr.gomibakos },
      subscribing := s.subscribing.eraseIdx i }

open GomibakoRepository in
/-- First step of `Release`: `RLock`, the lookup and `g.releaseCh(ch)`; a
call that finds no inbox returns here. -/
def release (s : Sys) (key : GomibakoKey) (ch : Chan) : Option Sys :=
  if s.writer = none then
    match Registry.lookup s.gr.RLock.gomibakos key with
    | none => some { s with gr := s.gr.RLock.RUnlock }
    | some g =>
      some { s with
        gr := { s.gr.RLock with
          gomibakos := Registry.store s.gr.RLock.gomibakos key (g.releaseCh ch) },
        closing := s.closing ++ [ch] }
  else none

open GomibakoRepository in
/-- Second step of a `Release` of `ch`: `close(ch)` and the deferred
`RUnlock`. -/
def releaseEnd (s : Sys) (ch : Chan) : Option Sys :=
  if ch ∈ s.closing then
    match closeCh s.gr ch with
    | .ret _ gr1 => some { s with gr := gr1.RUnlock, closing := s.closing.erase ch }
    | .panic msg gr1 =>
      some { s with gr := gr1.RUnlock, closing := s.closing.erase ch, crashed := some msg }
    | .blocked _ => none
  else none

open GomibakoRepository in
/-- Step `Truncate`, under the write lock. -/
def truncate (s : Sys) (now : Int) : Option Sys :=
  if s.writer = none ∧ s.gr.readers = 0 then
    match Truncate s.gr now with
    | .ret _ gr1 =>
      some { s with gr := gr1, subscribing := s.subscribing.map (orphanGone gr1.gomibakos) }
    | .panic msg gr1 => some { s with gr := gr1, crashed := some msg }
    | .blocked _ => none
  else none

open GomibakoRepository in
/-- Step of the broker goroutine, by where it stands: the receive; `RLock`,
the lookup and `g.channels()` (or `continue`, the read lock kept); one send;
`RUnlock` after the last send. -/
def broker (s : Sys) : Option Sys :=
  match s.pc with
  | .idle =>
    match s.gr.broker with
    | [] => none
    | newGreq :: queue =>
      some { s with gr := { s.gr with broker := queue }, pc := .holding newGreq }
  | .holding newGreq =>
    if s.writer = none then
      match Registry.lookup s.gr.RLock.gomibakos newGreq.Key with
      | none => some { s with gr := s.gr.RLock, pc := .idle }
      | some g => some { s with gr := s.gr.RLock, pc := .sending newGreq g.channels }
    else none
  | .sending _ [] => some { s with gr := s.gr.RUnlock, pc := .idle }
  | .sending newGreq (ch :: chs) =>
    match send s.gr ch newGreq with
    | .ret _ gr1 => some { s with gr := gr1, pc := .sending newGreq chs }
    | .panic msg gr1 => some { s with gr := gr1, crashed := some msg }
    | .blocked _ => none

end Sys

/-- Step relation of the system: the state after the step `l`, or `none`
when the goroutine cannot take it now (it waits, or the process has
panicked). -/
def cstep (s : Sys) (l : Label) : Option Sys :=
  match s.crashed with
  | some _ => none
  | none =>
    match l with
    | .addGomibako rand now => s.addGomibako rand now
    | .addRequest greq => s.addRequest greq
    | .sendDone => s.sendDone
    | .getBegin key => s.getBegin key
    | .getEnd i => s.getEnd i
    | .release key ch => s.release key ch
    | .releaseEnd ch => s.releaseEnd ch
    | .truncate now => s.truncate now
    | .broker => s.broker

/-- Run a schedule: each label in turn takes its step when it can and is
passed over when it cannot. -/
def crun : Sys → List Label → Sys
  | s, [] => s
  | s, l :: ls =>
    match cstep s l with
    | some s1 => crun s1 ls
    | none => crun s ls

/-- Number of broker steps that make up the next iteration of `RunBroker`:
none while the queue is empty; the receive and the failed lookup; or the
receive, the lookup, one send per channel and `RUnlock`. -/
def iterationSteps (gr : GomibakoRepository) : Nat :=
  match gr.broker with
  | [] => 0
  | newGreq :: _ =>
    match Registry.lookup gr.gomibakos newGreq.Key with
    | none => 2
    | some g => g.channels.length + 3

/-- A `Release` is matched when, at its first step, its key is unknown or its
feed is registered on the inbox of its key; every other label is matched. -/
def Label.matched (s : Sys) : Label → Bool
  | .release key ch =>
    match Registry.lookup s.gr.gomibakos key with
    | none => true
    | some g => decide (ch ∈ g.chs)
  | _ => true

/-- A `Release` is apart from the broker when its feed is not among the
channels the broker has yet to send to; every other label is. -/
def Label.apart (s : Sys) : Label → Bool
  | .release _ ch => decide (ch ∉ s.pc.remaining)
  | _ => true

/-- Every `Release` of the schedule is matched in the state it starts in. -/
def matchedRun : Sys → List Label → Bool
  | _, [] => true
  | s, l :: ls =>
    match cstep s l with
    | some s1 => l.matched s && matchedRun s1 ls
    | none => matchedRun s ls

/-- Every `Release` of the schedule is apart from the broker in the state it
starts in. -/
def apartRun : Sys → List Label → Bool
  | _, [] => true
  | s, l :: ls =>
    match cstep s l with
    | some s1 => l.apart s && apartRun s1 ls
    | none => apartRun s ls

/-- Request ingested by one step: the argument of an `AddRequest` that gets
the write lock and finds its inbox. -/
def ingestedBy (s : Sys) : Label → List GomibakoRequest
  | .addRequest greq =>
    match cstep s (.addRequest greq), Registry.lookup s.gr.gomibakos greq.Key with
    | some _, some _ => [greq]
    | _, _ => []
  | _ => []

/-- Requests ingested during the schedule, in the order of ingestion. -/
def ingested : Sys → List Label → List GomibakoRequest
  | _, [] => []
  | s, l :: ls =>
    match cstep s l with
    | some s1 => ingestedBy s l ++ ingested s1 ls
    | none => ingested s ls

/-- Steps of `AddRequest` calls and of the broker. -/
def Label.isIngestOrDeliver : Label → Bool
  | .addRequest _ => true
  | .sendDone => true
  | .broker => true
  | _ => false

/-- Requests that were ingested and have not reached the feed-set lookup of
the broker: in the broker's hand, in the queue, or with a waiting
`AddRequest`; in the order in which the broker will look them up. -/
def Sys.pending (s : Sys) : List GomibakoRequest :=
  s.pc.unread ++ s.gr.broker ++ s.writer.toList

/-- Requests for `k` that the feed `ch` has yet to be sent: the request the
broker is sending when `ch` is among the channels still to send to, then
the pending requests for `k`. -/
def Sys.owed (s : Sys) (k : GomibakoKey) (ch : Chan) : List GomibakoRequest :=
  (match s.pc with
    | .sending newGreq chs => if ch ∈ chs then [newGreq] else []
    | _ => []) ++ forKey k s.pending

/-- The broker has drained the queue: it waits at the receive, the queue is
empty and no `AddRequest` waits to send. -/
def Sys.drained (s : Sys) : Prop :=
  s.pc = .idle ∧ s.gr.broker = [] ∧ s.writer = none

/-- No feed registered on an inbox and no channel the broker has yet to send
to is closed, and the process has not panicked. -/
def Sys.FeedsLive (s : Sys) : Prop :=
  (∀ k g, Registry.lookup s.gr.gomibakos k = some g → ∀ c ∈ g.chs, c ∉ s.gr.closeLog) ∧
  (∀ c ∈ s.pc.remaining, c ∉ s.gr.closeLog) ∧
  s.crashed = none

/-- The channel that `make` returns next is new: registered on no inbox, not
among the channels the broker has yet to send to, and not closed. -/
def Sys.NextChNew (s : Sys) : Prop :=
  (∀ k g, Registry.lookup s.gr.gomibakos k = some g → s.gr.nextCh ∉ g.chs) ∧
  s.gr.nextCh ∉ s.pc.remaining ∧
  s.gr.nextCh ∉ s.gr.closeLog

/-- Steps of `AddRequest` calls, of `GetWithCh` calls and of the broker. -/
def Label.isFeedStep : Label → Bool
  | .addRequest _ => true
  | .sendDone => true
  | .getBegin _ => true
  | .getEnd _ => true
  | .broker => true
  | _ => false

/-- What bounds the requests sent to the feed `ch` of inbox `k`: the feed is
registered on no other inbox and was handed out by `make`; the pending
requests are in `pool`; the request the broker is sending, when `ch` is
still to be sent to, is a request for `k` in `pool`; and the requests sent
to `ch` beyond `base` are requests for `k` in `pool`. -/
structure FeedBound (s : Sys) (k : GomibakoKey) (ch : Chan)
    (base pool : List GomibakoRequest) : Prop where
  only : ∀ k2 g2, Registry.lookup s.gr.gomibakos k2 = some g2 → ch ∈ g2.chs → k2 = k
  made : ch < s.gr.nextCh
  pendingIn : ∀ r ∈ s.pending, r ∈ pool
  sendingIn : ∀ r rem, s.pc = .sending r rem → ch ∈ rem → r.Key = k ∧ r ∈ pool
  sent : ∃ new, s.gr.deliveriesOn ch = base ++ new ∧ ∀ R ∈ new, R.Key = k ∧ R ∈ pool

/-- What makes the feed `ch` of inbox `k` receive every request for `k`: the
feed is registered on the inbox of `k` and on no other; no registered feed
and no channel the broker has yet to send to is closed; and when the broker
still has to send to `ch`, the request in its hand is for `k` and the
channels it has yet to send to are distinct. -/
structure FeedFlow (s : Sys) (k : GomibakoKey) (ch : Chan) : Prop where
  reg : ∃ g, Registry.lookup s.gr.gomibakos k = some g ∧ ch ∈ g.chs
  only : ∀ k2 g2, Registry.lookup s.gr.gomibakos k2 = some g2 → ch ∈ g2.chs → k2 = k
  live : s.FeedsLive
  sendingOk : ∀ r rem, s.pc = .sending r rem → ch ∈ rem → r.Key = k ∧ rem.Nodup

/-- Read locks the broker holds by where it stands (the lock it keeps after
`continue` is not counted). -/
def BrokerPC.locks : BrokerPC → Nat
  | .sending _ _ => 1
  | _ => 0

/-- Invariant of the feeds with `Release` calls in flight: the invariant
`InvOn` of the registered feeds, and every channel between `releaseCh` and
`close` is open, was handed out by `make`, is registered on no inbox and is
there once. -/
structure PendingOn (m : Registry) (cl : List Chan) (n : Chan) (closing : List Chan) :
    Prop where
  feeds : InvOn m cl n
  closingOpen : ∀ c ∈ closing, c ∉ cl
  closingMade : ∀ c ∈ closing, c < n
  closingGone : ∀ c ∈ closing, ∀ k g, Registry.lookup m k = some g → c ∉ g.chs
  closingOnce : closing.Nodup

/-- Invariant of the running system under matched `Release` calls: the
invariant of the feeds, and the only panic that can have ended the process
is a send on a closed channel. -/
def SysInv (s : Sys) : Prop :=
  PendingOn s.gr.gomibakos s.gr.closeLog s.gr.nextCh s.closing ∧
  (s.crashed = none ∨ s.crashed = some "send on closed channel")

/-- Invariant of the broker while no `Release` names a channel it has yet to
send to: these channels are open and no `Release` in flight is about to
close one; the read locks of the `Release` calls in flight and of the broker
are counted in `readers`. -/
structure CalmOn (pc : BrokerPC) (cl : List Chan) (closing : List Chan) (readers : Nat) :
    Prop where
  remainingOpen : ∀ c ∈ pc.remaining, c ∉ cl
  remainingKept : ∀ c ∈ pc.remaining, c ∉ closing
  readersHeld : closing.length + pc.locks ≤ readers

/-- Invariant of the running system in which, besides, no `Release` has
named a channel the broker had yet to send to: no panic has happened. -/
def SysCalm (s : Sys) : Prop :=
  CalmOn s.pc s.gr.closeLog s.closing s.gr.readers ∧ s.crashed = none

/-! ## The repository of main.go -/

namespace Main

abbrev gomibakoKey := String

structure gomibakoRequest where
  timestamp : Int
  method : String
  url : String
  headers : List (String × List String)
  body : String
  contentLength : Int
deriving DecidableEq, Repr

structure gomibako where
  key : gomibakoKey
  requests : List gomibakoRequest
deriving DecidableEq, Repr

/-- Map read `m[key]` on `map[gomibakoKey]*gomibako`. -/
def lookup : List (gomibakoKey × gomibako) → gomibakoKey → Option gomibako
  | [], _ => none
  | (k, g) :: m, key => if k = key then some g else lookup m key

/-- Map write `m[key] = g`. -/
def store (m : List (gomibakoKey × gomibako)) (key : gomibakoKey) (g : gomibako) :
    List (gomibakoKey × gomibako) :=
  (key, g) :: m.filter (fun p => decide (p.1 ≠ key))

structure gomibakoRepository where
  gomibakos : List (gomibakoKey × gomibako)
deriving DecidableEq, Repr

namespace gomibakoRepository

/-- Function `newGomibakoRepository`. -/
def newGomibakoRepository : gomibakoRepository :=
  { gomibakos := [] }

/-- Method `AddGomibako` of main.go; `rand` is what `strrand.RandomString`
returns. -/
def AddGomibako (gr : gomibakoRepository) (rand : Except String String) :
    Except String gomibako × gomibakoRepository :=
  match rand with
  | .error err => (.error err, gr)
  | .ok str =>
    (.ok { key := str, requests := [] },
      { gr with gomibakos := store gr.gomibakos str { key := str, requests := [] } })

/-- Method `AddRequest` of main.go: `g.requests = append(g.requests, greq)`;
the first component is the returned `error` (`none` for nil). -/
def AddRequest (gr : gomibakoRepository) (key : gomibakoKey) (greq : gomibakoRequest) :
    Option String × gomibakoRepository :=
  match lookup gr.gomibakos key with
  | none => (some "no gomibako found", gr)
  | some g =>
    (none, { gr with gomibakos := store gr.gomibakos key { g with requests := g.requests ++ [greq] } })

/-- Method `Get` of main.go. -/
def Get (gr : gomibakoRepository) (key : gomibakoKey) : Except String gomibako :=
  match lookup gr.gomibakos key with
  | none => .error "no gomibako found"
  | some g => .ok g

/-- Request list the inspect handler hands to its template: slot
`(len - 1) - i` holds the rendering of request `i`; `none` stands for the 404
answer.  `view` is `newViewableGomibakoRequest`. -/
def inspect {β : Type} (view : gomibakoRequest → β) (gr : gomibakoRepository)
    (key : gomibakoKey) : Option (List β) :=
  match Get gr key with
  | .error _ => none
  | .ok g => some (g.requests.map view).reverse

/-- The calls `gr.AddRequest(key, greq)` of `recordReq`, one per request. -/
def record (gr : gomibakoRepository) (key : gomibakoKey) (greqs : List gomibakoRequest) :
    gomibakoRepository :=
  greqs.foldl (fun r greq => (AddRequest r key greq).2) gr

end gomibakoRepository

/-- Request of main.go whose only interesting field is its body. -/
def mkReq (body : String) : gomibakoRequest :=
  { timestamp := 0, method := "POST", url := "/g/bin", headers := [], body := body,
    contentLength := 0 }

end Main

/-! ## Concrete scenarios -/

/-- Clock value one nanosecond past the TTL of an inbox created at 0. -/
def pastTTL : Int := ttlInHours * Hour + 1

/-- An inbox "bin" created at 0 that holds one request and one feed. -/
def busyRepo : GomibakoRepository :=
  (exec GomibakoRepository.NewGomibakoRepository
    [.addGomibako (.ok "bin") 0, .addRequest (mkReq "bin" "x"), .getWithCh "bin"]).state

/-- A request for "bin" waits in the queue after "bin" has been swept. -/
def orphanRepo : GomibakoRepository :=
  (exec GomibakoRepository.NewGomibakoRepository
    [.addGomibako (.ok "bin") 0, .addRequest (mkReq "bin" "x"), .truncate pastTTL]).state

/-- Two inboxes are created, a feed is subscribed to "a" and then released
through the key "b". -/
def staleFeedRun : List Action :=
  [.addGomibako (.ok "a") 0, .addGomibako (.ok "b") 0, .getWithCh "a", .release "b" 0]

/-- Feed 0 is registered on "a" and has been closed through the key "b". -/
def staleFeedRepo : GomibakoRepository :=
  (exec GomibakoRepository.NewGomibakoRepository staleFeedRun).state

/-- Three inboxes: "old" created at 0 with one feed, "edge" created at 1,
"new" created at 5. -/
def sweepRepo : GomibakoRepository :=
  (exec GomibakoRepository.NewGomibakoRepository
    [.addGomibako (.ok "old") 0, .getWithCh "old", .addGomibako (.ok "edge") 1,
      .addGomibako (.ok "new") 5]).state

/-- An inbox "bin" without requests or feeds. -/
def emptyBin : GomibakoRepository :=
  (exec GomibakoRepository.NewGomibakoRepository [.addGomibako (.ok "bin") 0]).state

/-- A matched `Release` between the broker's `channels()` and its send: feed
0 is subscribed to "a", "x" is ingested, the broker receives it and reads
the feed set, then `Release("a", 0)` runs to its end, then the broker sends. -/
def raceRun : List Label :=
  [.addGomibako (.ok "a") 0, .getBegin "a", .getEnd 0, .addRequest (mkReq "a" "x"),
    .broker, .broker, .release "a" 0, .releaseEnd 0, .broker]

/-- A schedule in which every `Release` is matched and apart from the broker:
two subscriptions on "a", a delivery to both, a release while the broker
holds the next request, a sweep that removes "a" while a subscription is in
flight, a release after the sweep, a delivery on "b". -/
def tidyRun : List Label :=
  [.addGomibako (.ok "a") 0, .getBegin "a", .getBegin "a", .getEnd 0, .getEnd 0,
    .addRequest (mkReq "a" "x"), .addRequest (mkReq "a" "y"), .broker, .broker, .broker,
    .broker, .broker, .broker, .release "a" 0, .broker, .releaseEnd 0, .broker, .broker,
    .getBegin "a", .addGomibako (.ok "b") 3, .getBegin "b", .getEnd 1, .truncate pastTTL,
    .getEnd 0, .release "a" 1, .addRequest (mkReq "b" "z"), .broker, .broker, .broker,
    .broker, .release "b" 2, .releaseEnd 2]

/-- The broker holds "x", ingested into "bin" and already received from the
queue, and has yet to take the read lock; the queue is empty. -/
def heldSys : Sys :=
  crun Sys.init [.addGomibako (.ok "bin") 0, .addRequest (mkReq "bin" "x"), .broker]

/-- A `GetWithCh("bin")` is between `Get` and `addCh` while the broker holds
"w", received from the queue, and "v" waits in the queue. -/
def lateSys : Sys :=
  crun Sys.init [.addGomibako (.ok "bin") 0, .addRequest (mkReq "bin" "w"),
    .addRequest (mkReq "bin" "v"), .broker, .getBegin "bin"]

/-- The state `lateSys` after that `GetWithCh` has registered feed 0. -/
def lateSysFeed : Sys :=
  crun lateSys [.getEnd 0]

/-- The broker reads the feed set and sends "w", then delivers "v"; "x" is
ingested and delivered. -/
def lateRun : List Label :=
  [.broker, .broker, .broker, .broker, .broker, .broker, .broker,
    .addRequest (mkReq "bin" "x"), .broker, .broker, .broker, .broker]

/-- Inboxes "bin" (feed 0) and "other" (feed 1); "w", ingested into "bin",
waits in the queue; a `GetWithCh("bin")` is between `Get` and `addCh`. -/
def feedSys : Sys :=
  crun Sys.init [.addGomibako (.ok "bin") 0, .addGomibako (.ok "other") 0, .getBegin "bin",
    .getEnd 0, .getBegin "other", .getEnd 0, .addRequest (mkReq "bin" "w"), .getBegin "bin"]

/-- The state `feedSys` after that `GetWithCh` has registered feed 2 on
"bin". -/
def feedSysFeed : Sys :=
  crun feedSys [.getEnd 0]

/-- Ingest "x" into "bin", let the broker deliver "w", ingest "y" into
"other" and "z" into "bin", then let the broker run until the queue is
drained. -/
def feedRun : List Label :=
  [.addRequest (mkReq "bin" "x"), .broker, .broker, .broker, .broker, .broker,
    .addRequest (mkReq "other" "y"), .addRequest (mkReq "bin" "z"),
    .broker, .broker, .broker, .broker, .broker, .broker, .broker, .broker, .broker,
    .broker, .broker, .broker, .broker, .broker, .broker, .broker]

/-! ## Lemmas on the inbox -/

theorem foldl_snoc_eq {α : Type} (xs acc : List α) :
    xs.foldl (fun a x => a ++ [x]) acc = acc ++ xs := by
  induction xs generalizing acc with
  | nil => simp
  | cons x xs ih => simp [ih]

theorem Gomibako.Requests_eq (g : Gomibako) : g.Requests = g.reqs := by
  simp [Gomibako.Requests, foldl_snoc_eq]

theorem Gomibako.channels_eq (g : Gomibako) : g.channels = g.chs.dedup := by
  simp [Gomibako.channels, foldl_snoc_eq]

theorem Gomibako.addRequest_reqs (g : Gomibako) (r : GomibakoRequest) :
    (g.addRequest r).reqs =
      if (g.reqs ++ [r]).length > 10 then (g.reqs ++ [r]).tail else g.reqs ++ [r] := by
  unfold Gomibako.addRequest
  split <;> rfl

theorem Gomibako.addRequest_chs (g : Gomibako) (r : GomibakoRequest) :
    (g.addRequest r).chs = g.chs := by
  unfold Gomibako.addRequest
  split <;> rfl

theorem Gomibako.addRequest_timestamp (g : Gomibako) (r : GomibakoRequest) :
    (g.addRequest r).timestamp = g.timestamp := by
  unfold Gomibako.addRequest
  split <;> rfl

/-- Ingesting `rs` one after another keeps the last ten of old history plus
`rs`. -/
theorem foldl_addRequest_reqs (rs : List GomibakoRequest) (g : Gomibako)
    (hg : g.reqs.length ≤ 10) :
    (rs.foldl Gomibako.addRequest g).reqs =
      (g.reqs ++ rs).drop ((g.reqs ++ rs).length - 10) := by
  induction rs generalizing g with
  | nil =>
    have h0 : g.reqs.length - 10 = 0 := by omega
    simp [h0]
  | cons r rs ih =>
    have hlen : (g.addRequest r).reqs.length ≤ 10 := by
      rw [Gomibako.addRequest_reqs]
      by_cases h : (g.reqs ++ [r]).length > 10
      · simp only [h, if_true, List.length_tail]
        simp only [List.length_append, List.length_singleton]
        omega
      · simp only [h, if_false]
        omega
    rw [List.foldl_cons, ih _ hlen, Gomibako.addRequest_reqs]
    by_cases h : (g.reqs ++ [r]).length > 10
    · simp only [h, if_true]
      have hl : g.reqs.length = 10 := by
        simp only [List.length_append, List.length_singleton] at h
        omega
      cases hreqs : g.reqs with
      | nil => simp [hreqs] at hl
      | cons x xs =>
        have hxs : xs.length = 9 := by simpa [hreqs] using hl
        have e1 : (xs ++ [r] ++ rs).length - 10 = rs.length := by
          simp only [List.length_append, List.length_singleton]
          omega
        have e2 : (x :: (xs ++ r :: rs)).length - 10 = rs.length + 1 := by
          simp only [List.length_append, List.length_cons]
          omega
        simp only [List.cons_append, List.tail_cons]
        rw [e1, e2, List.drop_succ_cons]
        simp [List.append_assoc]
    · simp only [h, if_false]
      simp [List.append_assoc]

/-! ## C1 -/

/-- C1: after requests `rs` have been passed one after another to
`addRequest` on a freshly created inbox, `Requests` returns `min N 10`
entries, namely the last `min N 10` elements of `rs` in arrival order; with
the twelve bodies r0 .. r11 the snapshot bodies are exactly r2 .. r11. -/
theorem C1_bounded_history :
    (∀ (key : GomibakoKey) (now : Int) (rs : List GomibakoRequest),
      ((rs.foldl Gomibako.addRequest (newGomibako key now)).Requests).length
          = min rs.length 10 ∧
      (rs.foldl Gomibako.addRequest (newGomibako key now)).Requests
          = rs.drop (rs.length - min rs.length 10)) ∧
    (((["r0", "r1", "r2", "r3", "r4", "r5", "r6", "r7", "r8", "r9", "r10", "r11"].map
        (mkReq "bin")).foldl Gomibako.addRequest (newGomibako "bin" 0)).Requests.map
          (fun r => r.Body)
      = ["r2", "r3", "r4", "r5", "r6", "r7", "r8", "r9", "r10", "r11"]) := by
  refine ⟨?_, ?_⟩
  · intro key now rs
    have h := foldl_addRequest_reqs rs (newGomibako key now) (by simp [newGomibako])
    rw [Gomibako.Requests_eq, h]
    simp only [newGomibako, List.nil_append]
    have hm : rs.length - min rs.length 10 = rs.length - 10 := by omega
    refine ⟨?_, by rw [hm]⟩
    rw [List.length_drop]
    omega
  · simp [Gomibako.Requests_eq, Gomibako.addRequest, newGomibako, mkReq]


/-! ## Lemmas on the registry map -/

theorem Registry.lookup_remove_self (m : Registry) (k : GomibakoKey) :
    Registry.lookup (Registry.remove m k) k = none := by
  induction m with
  | nil => rfl
  | cons p m ih =>
    obtain ⟨k1, g1⟩ := p
    by_cases h : k1 = k
    · simpa [Registry.remove, List.filter_cons, h] using ih
    · simpa [Registry.remove, List.filter_cons, h, Registry.lookup] using ih

theorem Registry.lookup_remove_ne (m : Registry) (k k2 : GomibakoKey) (hne : k2 ≠ k) :
    Registry.lookup (Registry.remove m k) k2 = Registry.lookup m k2 := by
  induction m with
  | nil => rfl
  | cons p m ih =>
    obtain ⟨k1, g1⟩ := p
    unfold Registry.remove at ih ⊢
    by_cases h : k1 = k
    · subst h
      have h2 : ¬ k1 = k2 := fun e => hne e.symm
      simp only [List.filter_cons, ne_eq, not_true_eq_false, decide_False, Bool.false_eq_true,
        if_false, Registry.lookup, h2]
      exact ih
    · by_cases h3 : k1 = k2
      · subst h3
        simp [List.filter_cons, h, Registry.lookup]
      · simp only [List.filter_cons, ne_eq, h, not_false_eq_true, decide_True, if_true,
          Registry.lookup, h3, if_false]
        exact ih

theorem Registry.lookup_store_self (m : Registry) (k : GomibakoKey) (g : Gomibako) :
    Registry.lookup (Registry.store m k g) k = some g := by
  simp [Registry.store, Registry.lookup]

theorem Registry.lookup_store_ne (m : Registry) (k k2 : GomibakoKey) (g : Gomibako)
    (hne : k2 ≠ k) :
    Registry.lookup (Registry.store m k g) k2 = Registry.lookup m k2 := by
  have h : k ≠ k2 := fun e => hne e.symm
  simp [Registry.store, Registry.lookup, h, Registry.lookup_remove_ne m k k2 hne]

theorem Registry.lookup_isSome_iff (m : Registry) (k : GomibakoKey) :
    (∃ g, Registry.lookup m k = some g) ↔ k ∈ m.map Prod.fst := by
  induction m with
  | nil => simp [Registry.lookup]
  | cons p m ih =>
    obtain ⟨k1, g1⟩ := p
    by_cases h : k1 = k
    · simp [Registry.lookup, h]
    · have h2 : ¬ k = k1 := fun e => h e.symm
      simpa [Registry.lookup, h, h2] using ih

theorem Registry.mem_keys (m : Registry) (k : GomibakoKey) :
    k ∈ Registry.keys m ↔ ∃ g, Registry.lookup m k = some g := by
  rw [Registry.lookup_isSome_iff]
  simp [Registry.keys]

theorem Registry.keys_nodup (m : Registry) : (Registry.keys m).Nodup := by
  simp [Registry.keys, List.nodup_dedup]

theorem GomibakoRepository.RLock_RUnlock (gr : GomibakoRepository) : gr.RLock.RUnlock = gr := by
  cases gr
  simp [GomibakoRepository.RLock, GomibakoRepository.RUnlock]


/-! ## C2 -/

open GomibakoRepository in
/-- C2: each of `AddRequest`, `Get`, `GetWithCh` and `Release` returns the
error "no gomibako found" exactly when the key is absent from the registry
map, and a call that returns it ends in the state it started in. -/
theorem C2_not_found_iff_absent (gr : GomibakoRepository) (key : GomibakoKey)
    (greq : GomibakoRequest) (ch : Chan) :
    (((∃ gr1, AddRequest gr greq = .ret (some errNotFound) gr1)
        ↔ Registry.lookup gr.gomibakos greq.Key = none) ∧
      (∀ gr1, AddRequest gr greq = .ret (some errNotFound) gr1 → gr1 = gr)) ∧
    (((∃ gr1, Get gr key = .ret (.error errNotFound) gr1)
        ↔ Registry.lookup gr.gomibakos key = none) ∧
      (∀ gr1, Get gr key = .ret (.error errNotFound) gr1 → gr1 = gr)) ∧
    (((∃ gr1, GetWithCh gr key = .ret (.error errNotFound) gr1)
        ↔ Registry.lookup gr.gomibakos key = none) ∧
      (∀ gr1, GetWithCh gr key = .ret (.error errNotFound) gr1 → gr1 = gr)) ∧
    (((∃ gr1, Release gr key ch = .ret (some errNotFound) gr1)
        ↔ Registry.lookup gr.gomibakos key = none) ∧
      (∀ gr1, Release gr key ch = .ret (some errNotFound) gr1 → gr1 = gr)) := by
  have hR : gr.RLock.gomibakos = gr.gomibakos := rfl
  refine ⟨?_, ?_, ?_, ?_⟩
  · unfold AddRequest
    cases h : Registry.lookup gr.gomibakos greq.Key with
    | none => simp
    | some g => by_cases hq : gr.broker.length < brokerCap <;> simp [hq]
  · unfold Get
    rw [hR, RLock_RUnlock]
    cases h : Registry.lookup gr.gomibakos key with
    | none => simp
    | some g => simp
  · unfold GetWithCh Get
    rw [hR, RLock_RUnlock]
    cases h : Registry.lookup gr.gomibakos key with
    | none => simp
    | some g => simp
  · unfold Release
    rw [hR, RLock_RUnlock]
    cases h : Registry.lookup gr.gomibakos key with
    | none => simp
    | some g =>
      simp only [closeCh]
      split <;> simp

/-! ## C8 -/

open GomibakoRepository in
/-- C8 (amended): `AddGomibako` returns an error only when the key generator
does, and then the state is unchanged; when the generator returns `s` the
call returns an inbox with key `s`, no history and no feeds, the registry
maps `s` to it, and every inbox registered under a key other than `s` is
registered as before (an inbox that was registered under `s` is replaced). -/
theorem C8_add_gomibako (gr : GomibakoRepository) (now : Int) :
    (∀ err, AddGomibako gr (.error err) now = .ret (.error err) gr) ∧
    (∀ s, ∃ g gr1, AddGomibako gr (.ok s) now = .ret (.ok g) gr1 ∧
      g.Key = s ∧ g.reqs = [] ∧ g.chs = [] ∧
      Registry.lookup gr1.gomibakos s = some g ∧
      (∀ k, k ≠ s → Registry.lookup gr1.gomibakos k = Registry.lookup gr.gomibakos k) ∧
      gr1.broker = gr.broker ∧ gr1.closeLog = gr.closeLog ∧ gr1.delivered = gr.delivered) := by
  refine ⟨fun err => rfl, fun s => ?_⟩
  refine ⟨newGomibako s now, _, rfl, rfl, rfl, rfl, ?_, ?_, rfl, rfl, rfl⟩
  · exact Registry.lookup_store_self _ _ _
  · intro k hk
    exact Registry.lookup_store_ne _ _ _ _ hk

open GomibakoRepository in
/-- C8 fails as stated: "bin" is registered with one request and one feed;
when the key generator returns "bin" again, `AddGomibako` succeeds and the
inbox registered before is no longer registered: "bin" now maps to an empty
inbox. -/
theorem C8_collision_replaces_inbox :
    Registry.lookup busyRepo.gomibakos "bin"
      = some { Key := "bin", timestamp := 0, reqs := [mkReq "bin" "x"], chs := [0] } ∧
    Registry.lookup (AddGomibako busyRepo (.ok "bin") 7).state.gomibakos "bin"
      = some { Key := "bin", timestamp := 7, reqs := [], chs := [] } := by
  constructor <;> decide

/-! ## C10 -/

open GomibakoRepository in
/-- Reader count across the body of the broker loop: when the inbox of the
dequeued request is not in the registry, the body returns with one more
reader than before (the read lock it took is not given back); when the inbox
is there and the fan-out completes, the reader count is what it was. -/
theorem RunBrokerBody_readers (gr : GomibakoRepository) (newGreq : GomibakoRequest) :
    (Registry.lookup gr.gomibakos newGreq.Key = none →
      ∃ gr1, RunBrokerBody gr newGreq = .ret () gr1 ∧ gr1.readers = gr.readers + 1) ∧
    (∀ gr1, Registry.lookup gr.gomibakos newGreq.Key ≠ none →
      RunBrokerBody gr newGreq = .ret () gr1 → gr1.readers = gr.readers) := by
  have hR : gr.RLock.gomibakos = gr.gomibakos := rfl
  have hfan : ∀ (chs : List Chan) (a b : GomibakoRepository),
      fanOut newGreq chs a = .ret () b → b.readers = a.readers := by
    intro chs
    induction chs with
    | nil =>
      intro a b h
      simp only [fanOut, Outcome.ret.injEq, true_and] at h
      rw [h]
    | cons c chs ih =>
      intro a b h
      unfold fanOut send at h
      by_cases hc : c ∈ a.closeLog
      · simp [hc] at h
      · simp only [hc, if_false] at h
        have h2 := ih _ _ h
        simpa using h2
  refine ⟨?_, ?_⟩
  · intro h
    refine ⟨gr.RLock, ?_, rfl⟩
    unfold RunBrokerBody
    rw [hR, h]
  · intro gr1 hne h
    unfold RunBrokerBody at h
    rw [hR] at h
    cases hl : Registry.lookup gr.gomibakos newGreq.Key with
    | none => exact absurd hl hne
    | some g =>
      rw [hl] at h
      simp only at h
      cases hf : fanOut newGreq g.channels gr.RLock with
      | ret v gr2 =>
        rw [hf] at h
        simp only [Outcome.ret.injEq, true_and] at h
        have := hfan _ _ _ hf
        rw [← h]
        simp [RUnlock, this, RLock]
      | panic msg gr2 => rw [hf] at h; simp at h
      | blocked gr2 => rw [hf] at h; simp at h

open GomibakoRepository in
/-- C10 at the failing input: the queue holds a request for "bin", which the
sweep has removed between ingestion and dequeue; one iteration of the broker
loop returns and takes the reader count from 0 to 1, so the read lock taken
at the top of the iteration is still held. -/
theorem C10_lock_leak_example :
    orphanRepo.readers = 0 ∧ orphanRepo.broker = [mkReq "bin" "x"] ∧
    (RunBrokerStep orphanRepo).isRet = true ∧
    (RunBrokerStep orphanRepo).state.readers = 1 := by
  refine ⟨by decide, by decide, by decide, by decide⟩

/-! ## C9 -/

namespace Main

theorem lookup_store_same (m : List (gomibakoKey × gomibako)) (k : gomibakoKey) (g : gomibako) :
    lookup (store m k g) k = some g := by
  simp [store, lookup]

open gomibakoRepository in
/-- C9 (amended): in the repository of main.go every `AddRequest` on an
existing inbox appends to the stored history and nothing is ever dropped:
after the requests `greqs` the history is the old one followed by `greqs`,
and the inspect handler renders all of it, newest first. -/
theorem C9_history_grows {β : Type} (view : gomibakoRequest → β) (greqs : List gomibakoRequest)
    (gr : gomibakoRepository) (key : gomibakoKey) (g : gomibako)
    (h : lookup gr.gomibakos key = some g) :
    lookup (record gr key greqs).gomibakos key
      = some { g with requests := g.requests ++ greqs } ∧
    inspect view (record gr key greqs) key
      = some ((g.requests ++ greqs).map view).reverse := by
  have main : ∀ (greqs : List gomibakoRequest) (gr : gomibakoRepository) (g : gomibako),
      lookup gr.gomibakos key = some g →
      lookup (record gr key greqs).gomibakos key
        = some { g with requests := g.requests ++ greqs } := by
    intro greqs
    induction greqs with
    | nil => intro gr g h; simpa [record] using h
    | cons r rs ih =>
      intro gr g h
      have h1 : lookup (AddRequest gr key r).2.gomibakos key
          = some { g with requests := g.requests ++ [r] } := by
        simp [AddRequest, h, lookup_store_same]
      have := ih _ _ h1
      simpa [record, List.append_assoc] using this
  have hm := main greqs gr g h
  refine ⟨hm, ?_⟩
  simp [inspect, Get, hm]

open gomibakoRepository in
/-- C9_history_grows at a concrete input: three requests recorded on a new
inbox. -/
theorem C9_history_grows_witness :
    lookup (record (AddGomibako newGomibakoRepository (.ok "bin")).2 "bin"
        [mkReq "a", mkReq "b", mkReq "c"]).gomibakos "bin"
      = some { key := "bin", requests := [] ++ [mkReq "a", mkReq "b", mkReq "c"] } ∧
    inspect (fun (r : gomibakoRequest) => r.body) (record (AddGomibako newGomibakoRepository (.ok "bin")).2 "bin"
        [mkReq "a", mkReq "b", mkReq "c"]) "bin"
      = some (([] ++ [mkReq "a", mkReq "b", mkReq "c"]).map (fun (r : gomibakoRequest) => r.body)).reverse :=
  C9_history_grows (fun (r : gomibakoRequest) => r.body) [mkReq "a", mkReq "b", mkReq "c"]
    (AddGomibako newGomibakoRepository (.ok "bin")).2 "bin" { key := "bin", requests := [] }
    (by decide)

open gomibakoRepository in
/-- C9 fails as stated: after eleven requests on one inbox of the repository
of main.go the stored history has eleven entries, the first request still
among them, and the inspect handler renders eleven. -/
theorem C9_eleven_requests_kept :
    (lookup (record (AddGomibako newGomibakoRepository (.ok "bin")).2 "bin"
        (["r0", "r1", "r2", "r3", "r4", "r5", "r6", "r7", "r8", "r9", "r10"].map
          mkReq)).gomibakos "bin").map (fun (g : gomibako) => g.requests.map (fun (r : gomibakoRequest) => r.body))
      = some ["r0", "r1", "r2", "r3", "r4", "r5", "r6", "r7", "r8", "r9", "r10"] ∧
    (inspect (fun (r : gomibakoRequest) => r.body) (record (AddGomibako newGomibakoRepository (.ok "bin")).2 "bin"
        (["r0", "r1", "r2", "r3", "r4", "r5", "r6", "r7", "r8", "r9", "r10"].map
          mkReq)) "bin").map List.length = some 11 := by
  constructor <;> decide

end Main


/-! ## The sweep -/

open GomibakoRepository in
theorem closeEach_ok (chs : List Chan) (gr : GomibakoRepository) (hnd : chs.Nodup)
    (hopen : ∀ c ∈ chs, c ∉ gr.closeLog) :
    closeEach chs gr = .ret () { gr with closeLog := gr.closeLog ++ chs } := by
  induction chs generalizing gr with
  | nil => simp [closeEach]
  | cons c chs ih =>
    have hc : c ∉ gr.closeLog := hopen c (List.mem_cons_self _ _)
    have hnd2 := List.nodup_cons.mp hnd
    have h2 := ih { gr with closeLog := gr.closeLog ++ [c] } hnd2.2 (by
      intro d hd hmem
      simp only [List.mem_append, List.mem_singleton] at hmem
      rcases hmem with h | h
      · exact hopen d (List.mem_cons_of_mem _ hd) h
      · subst h
        exact hnd2.1 hd)
    simp only [closeEach, closeCh, hc, if_false]
    rw [h2]
    simp [List.append_assoc]

theorem sweptFeedsOf_congr (now : Int) (m1 m2 : Registry) (ks : List GomibakoKey)
    (h : ∀ k ∈ ks, Registry.lookup m1 k = Registry.lookup m2 k) :
    sweptFeedsOf now m1 ks = sweptFeedsOf now m2 ks := by
  induction ks with
  | nil => rfl
  | cons k ks ih =>
    simp only [sweptFeedsOf]
    rw [h k (List.mem_cons_self _ _), ih (fun k2 hk2 => h k2 (List.mem_cons_of_mem _ hk2))]

theorem mem_sweptFeedsOf (now : Int) (m : Registry) (ks : List GomibakoKey) (c : Chan) :
    c ∈ sweptFeedsOf now m ks ↔
      ∃ k ∈ ks, ∃ g, Registry.lookup m k = some g ∧
        exceedsTTL (now - g.timestamp) = true ∧ c ∈ g.chs := by
  induction ks with
  | nil => simp [sweptFeedsOf]
  | cons k ks ih =>
    simp only [sweptFeedsOf, List.mem_append, ih, List.mem_cons, exists_eq_or_imp]
    apply or_congr_left
    cases hl : Registry.lookup m k with
    | none => simp
    | some g =>
      by_cases he : exceedsTTL (now - g.timestamp) = true
      · simp [he, List.mem_dedup]
      · simp [he]

open GomibakoRepository in
/-- Loop of the sweep: when the feeds it is about to close are pairwise
distinct and open, it returns; the inboxes older than the TTL among the
visited keys are gone, every other binding is as before, and the closed
feeds are appended to the close log. -/
theorem truncateLoop_spec (now : Int) (ks : List GomibakoKey) (ids : List String)
    (gr : GomibakoRepository) (hks : ks.Nodup)
    (hnd : (sweptFeedsOf now gr.gomibakos ks).Nodup)
    (hopen : ∀ c ∈ sweptFeedsOf now gr.gomibakos ks, c ∉ gr.closeLog) :
    ∃ ids1 gr1, truncateLoop now ks ids gr = .ret ids1 gr1 ∧
      gr1.closeLog = gr.closeLog ++ sweptFeedsOf now gr.gomibakos ks ∧
      (∀ k g, k ∈ ks → Registry.lookup gr.gomibakos k = some g →
        exceedsTTL (now - g.timestamp) = true → Registry.lookup gr1.gomibakos k = none) ∧
      (∀ k, (k ∈ ks → ∀ g, Registry.lookup gr.gomibakos k = some g →
        exceedsTTL (now - g.timestamp) = false) →
        Registry.lookup gr1.gomibakos k = Registry.lookup gr.gomibakos k) ∧
      gr1.broker = gr.broker ∧ gr1.readers = gr.readers ∧ gr1.nextCh = gr.nextCh ∧
      gr1.delivered = gr.delivered := by
  induction ks generalizing ids gr with
  | nil =>
    exact ⟨ids, gr, rfl, by simp [sweptFeedsOf], by simp, by simp, rfl, rfl, rfl, rfl⟩
  | cons k rest ih =>
    have hks2 := List.nodup_cons.mp hks
    cases hl : Registry.lookup gr.gomibakos k with
    | none =>
      have hF : sweptFeedsOf now gr.gomibakos (k :: rest) = sweptFeedsOf now gr.gomibakos rest := by
        simp [sweptFeedsOf, hl]
      rw [hF] at hnd hopen
      obtain ⟨ids1, gr1, hrun, hlog, hgone, hkept, hb, hr, hn, hd⟩ := ih ids gr hks2.2 hnd hopen
      refine ⟨ids1, gr1, ?_, ?_, ?_, ?_, hb, hr, hn, hd⟩
      · simp only [truncateLoop, hl]
        exact hrun
      · rw [hF]
        exact hlog
      · intro k2 g hk2 hg he
        rcases List.mem_cons.mp hk2 with h | h
        · subst h
          rw [hl] at hg
          exact absurd hg (by simp)
        · exact hgone k2 g h hg he
      · intro k2 h2
        exact hkept k2 (fun hm => h2 (List.mem_cons_of_mem _ hm))
    | some g =>
      by_cases he : exceedsTTL (now - g.timestamp) = true
      · have hF : sweptFeedsOf now gr.gomibakos (k :: rest)
            = g.chs.dedup ++ sweptFeedsOf now gr.gomibakos rest := by
          simp [sweptFeedsOf, hl, he]
        rw [hF] at hnd hopen
        have hnd3 := List.nodup_append.mp hnd
        have hclose := closeEach_ok g.chs.dedup gr hnd3.1
          (fun c hc => hopen c (List.mem_append_left _ hc))
        have hlk : ∀ k2 ∈ rest,
            Registry.lookup (Registry.remove
              (Registry.store gr.gomibakos k { g with chs := [] }) k) k2
              = Registry.lookup gr.gomibakos k2 := by
          intro k2 hk2
          have hne : k2 ≠ k := fun e => hks2.1 (e ▸ hk2)
          rw [Registry.lookup_remove_ne _ _ _ hne, Registry.lookup_store_ne _ _ _ _ hne]
        have hcongr := sweptFeedsOf_congr now _ _ rest hlk
        obtain ⟨ids1, gr1, hrun, hlog, hgone, hkept, hb, hr, hn, hd⟩ :=
          ih ids
            { gr with
              closeLog := gr.closeLog ++ g.chs.dedup,
              gomibakos := Registry.remove
                (Registry.store gr.gomibakos k { g with chs := [] }) k }
            hks2.2
            (by rw [hcongr]; exact hnd3.2.1)
            (by
              rw [hcongr]
              intro c hc hmem
              simp only [List.mem_append] at hmem
              rcases hmem with h | h
              · exact hopen c (List.mem_append_right _ hc) h
              · exact hnd3.2.2 h hc)
        refine ⟨ids1, gr1, ?_, ?_, ?_, ?_, hb, hr, hn, hd⟩
        · simp only [truncateLoop, hl, he, if_true, releaseChAll, hclose]
          exact hrun
        · rw [hlog, hF, hcongr]
          simp [List.append_assoc]
        · intro k2 g2 hk2 hg2 he2
          rcases List.mem_cons.mp hk2 with h | h
          · subst h
            have := hkept k2 (fun hm => absurd hm hks2.1)
            rw [this]
            exact Registry.lookup_remove_self _ _
          · refine hgone k2 g2 h ?_ he2
            simp only
            rw [hlk k2 h]
            exact hg2
        · intro k2 h2
          have hne : k2 ≠ k := by
            intro e
            subst e
            have := h2 (List.mem_cons_self _ _) g hl
            rw [he] at this
            exact absurd this (by simp)
          have h3 := hkept k2 (by
            intro hm g2 hg2
            refine h2 (List.mem_cons_of_mem _ hm) g2 ?_
            simp only at hg2
            rw [hlk k2 hm] at hg2
            exact hg2)
          rw [h3]
          simp only
          rw [Registry.lookup_remove_ne _ _ _ hne, Registry.lookup_store_ne _ _ _ _ hne]
      · have hF : sweptFeedsOf now gr.gomibakos (k :: rest)
            = sweptFeedsOf now gr.gomibakos rest := by
          simp [sweptFeedsOf, hl, he]
        rw [hF] at hnd hopen
        obtain ⟨ids1, gr1, hrun, hlog, hgone, hkept, hb, hr, hn, hd⟩ :=
          ih (ids ++ [k]) gr hks2.2 hnd hopen
        refine ⟨ids1, gr1, ?_, ?_, ?_, ?_, hb, hr, hn, hd⟩
        · simp only [truncateLoop, hl, he]
          exact hrun
        · rw [hF]
          exact hlog
        · intro k2 g2 hk2 hg2 he2
          rcases List.mem_cons.mp hk2 with h | h
          · subst h
            rw [hl] at hg2
            cases hg2
            exact absurd he2 he
          · exact hgone k2 g2 h hg2 he2
        · intro k2 h2
          exact hkept k2 (fun hm => h2 (List.mem_cons_of_mem _ hm))

open GomibakoRepository in
/-- The sweep as a whole, under the same condition on the feeds it closes. -/
theorem Truncate_spec (gr : GomibakoRepository) (now : Int)
    (hnd : (sweptFeeds now gr).Nodup) (hopen : ∀ c ∈ sweptFeeds now gr, c ∉ gr.closeLog) :
    ∃ ids gr1, Truncate gr now = .ret ids gr1 ∧
      gr1.closeLog = gr.closeLog ++ sweptFeeds now gr ∧
      (∀ k g, Registry.lookup gr.gomibakos k = some g →
        exceedsTTL (now - g.timestamp) = true → Registry.lookup gr1.gomibakos k = none) ∧
      (∀ k g, Registry.lookup gr.gomibakos k = some g →
        exceedsTTL (now - g.timestamp) = false → Registry.lookup gr1.gomibakos k = some g) ∧
      (∀ k, Registry.lookup gr.gomibakos k = none → Registry.lookup gr1.gomibakos k = none) ∧
      gr1.broker = gr.broker ∧ gr1.readers = gr.readers ∧ gr1.nextCh = gr.nextCh ∧
      gr1.delivered = gr.delivered := by
  obtain ⟨ids1, gr1, hrun, hlog, hgone, hkept, hb, hr, hn, hd⟩ :=
    truncateLoop_spec now (Registry.keys gr.gomibakos) [] gr (Registry.keys_nodup _) hnd hopen
  refine ⟨ids1, gr1, hrun, hlog, ?_, ?_, ?_, hb, hr, hn, hd⟩
  · intro k g hg he
    exact hgone k g ((Registry.mem_keys _ _).mpr ⟨g, hg⟩) hg he
  · intro k g hg he
    rw [hkept k (fun _ g2 hg2 => by rw [hg] at hg2; cases hg2; exact he)]
    exact hg
  · intro k hk
    rw [hkept k (fun _ g2 hg2 => by rw [hk] at hg2; cases hg2)]
    exact hk


theorem expiredFeedsOpen_iff (now : Int) (gr : GomibakoRepository) :
    ExpiredFeedsOpen now gr ↔ ∀ c ∈ sweptFeeds now gr, c ∉ gr.closeLog := by
  unfold ExpiredFeedsOpen sweptFeeds
  constructor
  · intro h c hc
    obtain ⟨k, _, g, hg, he, hm⟩ := (mem_sweptFeedsOf _ _ _ _).mp hc
    exact h k g hg he c hm
  · intro h k g hg he c hm
    exact h c ((mem_sweptFeedsOf _ _ _ _).mpr
      ⟨k, (Registry.mem_keys _ _).mpr ⟨g, hg⟩, g, hg, he, hm⟩)

theorem sweptFeedsOf_nodup (now : Int) (gr : GomibakoRepository) (ks : List GomibakoKey)
    (hks : ks.Nodup) (h : ExpiredFeedsApart now gr) :
    (sweptFeedsOf now gr.gomibakos ks).Nodup := by
  induction ks with
  | nil => simp [sweptFeedsOf]
  | cons k rest ih =>
    have hks2 := List.nodup_cons.mp hks
    simp only [sweptFeedsOf]
    refine List.nodup_append.mpr ⟨?_, ih hks2.2, ?_⟩
    · cases hl : Registry.lookup gr.gomibakos k with
      | none => simp
      | some g =>
        by_cases he : exceedsTTL (now - g.timestamp) = true
        · simp [he, List.nodup_dedup]
        · simp [he]
    · intro c hc1 hc2
      obtain ⟨k2, hk2, g2, hg2, he2, hm2⟩ := (mem_sweptFeedsOf _ _ _ _).mp hc2
      have hne : k ≠ k2 := fun e => hks2.1 (e ▸ hk2)
      cases hl : Registry.lookup gr.gomibakos k with
      | none => simp [hl] at hc1
      | some g =>
        by_cases he : exceedsTTL (now - g.timestamp) = true
        · simp only [hl, he, if_true, List.mem_dedup] at hc1
          exact h k k2 g g2 hne hl hg2 he he2 c hc1 hm2
        · simp [hl, he] at hc1

theorem apart_of_sweptFeedsOf_nodup (now : Int) (m : Registry) (ks : List GomibakoKey)
    (hnd : (sweptFeedsOf now m ks).Nodup) :
    ∀ k1 ∈ ks, ∀ k2 ∈ ks, ∀ g1 g2, k1 ≠ k2 → Registry.lookup m k1 = some g1 →
      Registry.lookup m k2 = some g2 → exceedsTTL (now - g1.timestamp) = true →
      exceedsTTL (now - g2.timestamp) = true → ∀ c ∈ g1.chs, c ∉ g2.chs := by
  induction ks with
  | nil => intro k1 hk1; simp at hk1
  | cons k rest ih =>
    simp only [sweptFeedsOf] at hnd
    have hnd2 := List.nodup_append.mp hnd
    have hhead : ∀ g, Registry.lookup m k = some g → exceedsTTL (now - g.timestamp) = true →
        ∀ c ∈ g.chs, c ∈ (match Registry.lookup m k with
          | some g => if exceedsTTL (now - g.timestamp) then g.chs.dedup else []
          | none => []) := by
      intro g hg he c hc
      simp [hg, he, List.mem_dedup, hc]
    intro k1 hk1 k2 hk2 g1 g2 hne hg1 hg2 he1 he2 c hc1 hc2
    rcases List.mem_cons.mp hk1 with h1 | h1 <;> rcases List.mem_cons.mp hk2 with h2 | h2
    · exact hne (h1.trans h2.symm)
    · subst h1
      exact hnd2.2.2 (hhead g1 hg1 he1 c hc1)
        ((mem_sweptFeedsOf _ _ _ _).mpr ⟨k2, h2, g2, hg2, he2, hc2⟩)
    · subst h2
      exact hnd2.2.2 (hhead g2 hg2 he2 c hc2)
        ((mem_sweptFeedsOf _ _ _ _).mpr ⟨k1, h1, g1, hg1, he1, hc1⟩)
    · exact ih hnd2.2.1 k1 h1 k2 h2 g1 g2 hne hg1 hg2 he1 he2 c hc1 hc2

theorem expiredFeedsApart_iff (now : Int) (gr : GomibakoRepository) :
    ExpiredFeedsApart now gr ↔ (sweptFeeds now gr).Nodup := by
  constructor
  · intro h
    exact sweptFeedsOf_nodup now gr _ (Registry.keys_nodup _) h
  · intro h k1 k2 g1 g2 hne hg1 hg2 he1 he2 c hc1 hc2
    exact apart_of_sweptFeedsOf_nodup now gr.gomibakos _ h
      k1 ((Registry.mem_keys _ _).mpr ⟨g1, hg1⟩) k2 ((Registry.mem_keys _ _).mpr ⟨g2, hg2⟩)
      g1 g2 hne hg1 hg2 he1 he2 c hc1 hc2

theorem exceedsTTL_eq_true (d : Int) : exceedsTTL d = true ↔ d > ttlInHours * Hour := by
  simp [exceedsTTL]

theorem exceedsTTL_eq_false (d : Int) : exceedsTTL d = false ↔ d ≤ ttlInHours * Hour := by
  simp [exceedsTTL]

/-! ## C3 -/

open GomibakoRepository in
/-- C3 (amended): in every state in which no feed registered on an inbox
older than 168 hours has been closed already and no feed is registered on
two such inboxes, `Truncate` at clock value `now` returns, and afterwards the
registry holds exactly the inboxes of the prior state whose age is at most
168 hours, each unchanged; every inbox older than 168 hours is absent and
every feed that was registered on it is closed; an inbox aged exactly 168
hours is kept. -/
theorem C3_truncate (gr : GomibakoRepository) (now : Int)
    (hopen : ExpiredFeedsOpen now gr) (hapart : ExpiredFeedsApart now gr) :
    ∃ ids gr1, Truncate gr now = .ret ids gr1 ∧
      (∀ k g, Registry.lookup gr.gomibakos k = some g →
        now - g.timestamp ≤ ttlInHours * Hour → Registry.lookup gr1.gomibakos k = some g) ∧
      (∀ k g, Registry.lookup gr.gomibakos k = some g →
        now - g.timestamp > ttlInHours * Hour →
        Registry.lookup gr1.gomibakos k = none ∧ ∀ c ∈ g.chs, c ∈ gr1.closeLog) ∧
      (∀ k, Registry.lookup gr.gomibakos k = none → Registry.lookup gr1.gomibakos k = none) ∧
      (∀ k g, Registry.lookup gr.gomibakos k = some g →
        now - g.timestamp = ttlInHours * Hour → Registry.lookup gr1.gomibakos k = some g) := by
  obtain ⟨ids, gr1, hrun, hlog, hgone, hkept, hnone, _, _, _, _⟩ :=
    Truncate_spec gr now ((expiredFeedsApart_iff now gr).mp hapart)
      ((expiredFeedsOpen_iff now gr).mp hopen)
  refine ⟨ids, gr1, hrun, ?_, ?_, hnone, ?_⟩
  · intro k g hg hage
    exact hkept k g hg ((exceedsTTL_eq_false _).mpr hage)
  · intro k g hg hage
    have he := (exceedsTTL_eq_true _).mpr hage
    refine ⟨hgone k g hg he, ?_⟩
    intro c hc
    rw [hlog]
    refine List.mem_append_right _ ((mem_sweptFeedsOf _ _ _ _).mpr ?_)
    exact ⟨k, (Registry.mem_keys _ _).mpr ⟨g, hg⟩, g, hg, he, hc⟩
  · intro k g hg hage
    exact hkept k g hg ((exceedsTTL_eq_false _).mpr (le_of_eq hage))

open GomibakoRepository in
/-- C3_truncate at a concrete input: swept one nanosecond after "old" turned
168 hours, "old" goes and its feed 0 is closed, "edge" (exactly 168 hours
old) and "new" stay. -/
theorem C3_truncate_witness :
    ExpiredFeedsOpen pastTTL sweepRepo ∧ ExpiredFeedsApart pastTTL sweepRepo ∧
    ∃ ids gr1, Truncate sweepRepo pastTTL = .ret ids gr1 ∧
      (∀ k g, Registry.lookup sweepRepo.gomibakos k = some g →
        pastTTL - g.timestamp ≤ ttlInHours * Hour →
        Registry.lookup gr1.gomibakos k = some g) ∧
      (∀ k g, Registry.lookup sweepRepo.gomibakos k = some g →
        pastTTL - g.timestamp > ttlInHours * Hour →
        Registry.lookup gr1.gomibakos k = none ∧ ∀ c ∈ g.chs, c ∈ gr1.closeLog) ∧
      (∀ k, Registry.lookup sweepRepo.gomibakos k = none →
        Registry.lookup gr1.gomibakos k = none) ∧
      (∀ k g, Registry.lookup sweepRepo.gomibakos k = some g →
        pastTTL - g.timestamp = ttlInHours * Hour →
        Registry.lookup gr1.gomibakos k = some g) :=
  ⟨(expiredFeedsOpen_iff _ _).mpr (by decide), (expiredFeedsApart_iff _ _).mpr (by decide),
    C3_truncate sweepRepo pastTTL ((expiredFeedsOpen_iff _ _).mpr (by decide))
      ((expiredFeedsApart_iff _ _).mpr (by decide))⟩

open GomibakoRepository in
/-- C3 fails as stated: feed 0 is registered on "a" and already closed (it
was released through the key "b"); the sweep one nanosecond after "a" turned
168 hours panics in `close`, and "a", older than 168 hours, is still in the
registry. -/
theorem C3_sweep_panics_on_closed_feed :
    (Truncate staleFeedRepo pastTTL).isPanic = true ∧
    (Registry.lookup (Truncate staleFeedRepo pastTTL).state.gomibakos "a").map
        (fun (g : Gomibako) => decide (pastTTL - g.timestamp > ttlInHours * Hour))
      = some true := by
  constructor <;> decide


/-! ## C5 -/

open GomibakoRepository in
theorem Release_absent (gr : GomibakoRepository) (k : GomibakoKey) (ch : Chan)
    (h : Registry.lookup gr.gomibakos k = none) :
    Release gr k ch = .ret (some errNotFound) gr := by
  have hR : gr.RLock.gomibakos = gr.gomibakos := rfl
  unfold Release
  rw [hR, RLock_RUnlock, h]

open GomibakoRepository in
theorem Release_registered_open (gr : GomibakoRepository) (k : GomibakoKey) (g : Gomibako)
    (ch : Chan) (h : Registry.lookup gr.gomibakos k = some g) (hc : ch ∉ gr.closeLog) :
    Release gr k ch = .ret none
      { gr with
        gomibakos := Registry.store gr.gomibakos k (g.releaseCh ch),
        closeLog := gr.closeLog ++ [ch] } := by
  have hR : gr.RLock.gomibakos = gr.gomibakos := rfl
  have hL : gr.RLock.closeLog = gr.closeLog := rfl
  unfold Release
  rw [hR, h]
  simp only [closeCh, hL, hc, if_false]
  cases gr
  simp [RLock, RUnlock]

open GomibakoRepository in
/-- C5 (amended): inbox `k` is older than the TTL, feed `ch` is registered on
it, no feed of an inbox older than the TTL is closed yet and none is
registered on two such inboxes.  Then in both orders of `Release(k, ch)` and
`Truncate()` neither call panics and `ch`, open before, is closed exactly
once; `Release` returns nil when it runs first and "no gomibako found" when
it runs after the sweep. -/
theorem C5_release_and_truncate (gr : GomibakoRepository) (k : GomibakoKey) (g : Gomibako)
    (ch : Chan) (now : Int)
    (hk : Registry.lookup gr.gomibakos k = some g)
    (hage : now - g.timestamp > ttlInHours * Hour) (hch : ch ∈ g.chs)
    (hopen : ExpiredFeedsOpen now gr) (hapart : ExpiredFeedsApart now gr) :
    (∃ gr1 ids gr2, Release gr k ch = .ret none gr1 ∧ Truncate gr1 now = .ret ids gr2 ∧
      gr.closeLog.count ch = 0 ∧ gr2.closeLog.count ch = 1) ∧
    (∃ ids gr1, Truncate gr now = .ret ids gr1 ∧
      Release gr1 k ch = .ret (some errNotFound) gr1 ∧
      gr.closeLog.count ch = 0 ∧ gr1.closeLog.count ch = 1) := by
  have hexp : exceedsTTL (now - g.timestamp) = true := (exceedsTTL_eq_true _).mpr hage
  have hc : ch ∉ gr.closeLog := hopen k g hk hexp ch hch
  have hc0 : gr.closeLog.count ch = 0 := List.count_eq_zero.mpr hc
  constructor
  · have hrel := Release_registered_open gr k g ch hk hc
    have hsub : ∀ k2 g2,
        Registry.lookup (Registry.store gr.gomibakos k (g.releaseCh ch)) k2 = some g2 →
        ∃ g0, Registry.lookup gr.gomibakos k2 = some g0 ∧ g2.timestamp = g0.timestamp ∧
          ∀ c ∈ g2.chs, c ∈ g0.chs ∧ (k2 = k → c ≠ ch) := by
      intro k2 g2 h2
      by_cases hkk : k2 = k
      · subst hkk
        rw [Registry.lookup_store_self] at h2
        cases h2
        refine ⟨g, hk, rfl, ?_⟩
        intro c hc2
        simp only [Gomibako.releaseCh, List.mem_filter, decide_eq_true_eq] at hc2
        exact ⟨hc2.1, fun _ => hc2.2⟩
      · rw [Registry.lookup_store_ne _ _ _ _ hkk] at h2
        exact ⟨g2, h2, rfl, fun c hc2 => ⟨hc2, fun e => absurd e hkk⟩⟩
    have hnotin : ∀ k2 g2,
        Registry.lookup (Registry.store gr.gomibakos k (g.releaseCh ch)) k2 = some g2 →
        exceedsTTL (now - g2.timestamp) = true → ch ∉ g2.chs := by
      intro k2 g2 h2 he2 hmem
      obtain ⟨g0, hg0, ht, hcs⟩ := hsub k2 g2 h2
      by_cases hkk : k2 = k
      · exact (hcs ch hmem).2 hkk rfl
      · rw [ht] at he2
        exact hapart k k2 g g0 (fun e => hkk e.symm) hk hg0 hexp he2 ch hch (hcs ch hmem).1
    have hopen1 : ExpiredFeedsOpen now
        { gr with
          gomibakos := Registry.store gr.gomibakos k (g.releaseCh ch),
          closeLog := gr.closeLog ++ [ch] } := by
      intro k2 g2 h2 he2 c hc2 hmem
      obtain ⟨g0, hg0, ht, hcs⟩ := hsub k2 g2 h2
      simp only [List.mem_append, List.mem_singleton] at hmem
      rcases hmem with hm | hm
      · rw [ht] at he2
        exact hopen k2 g0 hg0 he2 c (hcs c hc2).1 hm
      · subst hm
        exact hnotin k2 g2 h2 he2 hc2
    have hapart1 : ExpiredFeedsApart now
        { gr with
          gomibakos := Registry.store gr.gomibakos k (g.releaseCh ch),
          closeLog := gr.closeLog ++ [ch] } := by
      intro k1 k2 g1 g2 hne h1 h2 he1 he2 c hc1 hc2
      obtain ⟨a1, ha1, ht1, hcs1⟩ := hsub k1 g1 h1
      obtain ⟨a2, ha2, ht2, hcs2⟩ := hsub k2 g2 h2
      rw [ht1] at he1
      rw [ht2] at he2
      exact hapart k1 k2 a1 a2 hne ha1 ha2 he1 he2 c (hcs1 c hc1).1 (hcs2 c hc2).1
    obtain ⟨ids, gr2, hrun, hlog, _⟩ :=
      Truncate_spec _ now ((expiredFeedsApart_iff _ _).mp hapart1)
        ((expiredFeedsOpen_iff _ _).mp hopen1)
    refine ⟨_, ids, gr2, hrel, hrun, hc0, ?_⟩
    have hnot : ch ∉ sweptFeeds now
        { gr with
          gomibakos := Registry.store gr.gomibakos k (g.releaseCh ch),
          closeLog := gr.closeLog ++ [ch] } := by
      intro hmem
      obtain ⟨k2, _, g2, h2, he2, hm2⟩ := (mem_sweptFeedsOf _ _ _ _).mp hmem
      exact hnotin k2 g2 h2 he2 hm2
    rw [hlog]
    simp only [List.count_append, hc0, List.count_eq_zero.mpr hnot]
    simp
  · have hnd := (expiredFeedsApart_iff _ _).mp hapart
    obtain ⟨ids, gr1, hrun, hlog, hgone, _⟩ :=
      Truncate_spec gr now hnd ((expiredFeedsOpen_iff _ _).mp hopen)
    refine ⟨ids, gr1, hrun, Release_absent gr1 k ch (hgone k g hk hexp), hc0, ?_⟩
    have hin : ch ∈ sweptFeeds now gr :=
      (mem_sweptFeedsOf _ _ _ _).mpr ⟨k, (Registry.mem_keys _ _).mpr ⟨g, hk⟩, g, hk, hexp, hch⟩
    rw [hlog, List.count_append, hc0, List.count_eq_one_of_mem hnd hin]

open GomibakoRepository in
/-- C5_release_and_truncate at a concrete input: "bin", created at 0, holds
feed 0 and is swept one nanosecond after it turned 168 hours. -/
theorem C5_release_and_truncate_witness :
    (∃ gr1 ids gr2, Release busyRepo "bin" 0 = .ret none gr1 ∧
      Truncate gr1 pastTTL = .ret ids gr2 ∧
      busyRepo.closeLog.count 0 = 0 ∧ gr2.closeLog.count 0 = 1) ∧
    (∃ ids gr1, Truncate busyRepo pastTTL = .ret ids gr1 ∧
      Release gr1 "bin" 0 = .ret (some errNotFound) gr1 ∧
      busyRepo.closeLog.count 0 = 0 ∧ gr1.closeLog.count 0 = 1) :=
  C5_release_and_truncate busyRepo "bin"
    { Key := "bin", timestamp := 0, reqs := [mkReq "bin" "x"], chs := [0] } 0 pastTTL
    (by decide) (by decide) (by decide)
    ((expiredFeedsOpen_iff _ _).mpr (by decide)) ((expiredFeedsApart_iff _ _).mpr (by decide))

open GomibakoRepository in
/-- C5 fails as stated: "bin" is older than the TTL and feed 0 is registered
on it; when the sweep runs first, `Release("bin", 0)` returns the error "no
gomibako found", not nil. -/
theorem C5_release_after_sweep_not_found :
    (Truncate busyRepo pastTTL).isRet = true ∧
    Release (Truncate busyRepo pastTTL).state "bin" 0
      = .ret (some errNotFound) (Truncate busyRepo pastTTL).state := by
  constructor <;> decide


/-! ## The invariant of the feeds -/

theorem Registry.lookup_store_cases (m : Registry) (k k2 : GomibakoKey) (g g2 : Gomibako)
    (h : Registry.lookup (Registry.store m k g) k2 = some g2) :
    (k2 = k ∧ g2 = g) ∨ (k2 ≠ k ∧ Registry.lookup m k2 = some g2) := by
  by_cases hk : k2 = k
  · subst hk
    rw [Registry.lookup_store_self] at h
    exact Or.inl ⟨rfl, (Option.some.inj h).symm⟩
  · rw [Registry.lookup_store_ne _ _ _ _ hk] at h
    exact Or.inr ⟨hk, h⟩

/-- Rebinding `k` to an inbox whose feeds were all registered on `k` before
keeps the invariant. -/
theorem InvOn.store_sub {m : Registry} {cl : List Chan} {n : Chan} (h : InvOn m cl n)
    (k : GomibakoKey) (g1 : Gomibako)
    (hsub : ∀ c ∈ g1.chs, ∃ g, Registry.lookup m k = some g ∧ c ∈ g.chs) :
    InvOn (Registry.store m k g1) cl n := by
  have old : ∀ k2 g2, Registry.lookup (Registry.store m k g1) k2 = some g2 →
      ∀ c ∈ g2.chs, ∃ g0, Registry.lookup m k2 = some g0 ∧ c ∈ g0.chs := by
    intro k2 g2 h2 c hc
    rcases Registry.lookup_store_cases _ _ _ _ _ h2 with ⟨e1, e2⟩ | ⟨_, e2⟩
    · subst e1 e2
      exact hsub c hc
    · exact ⟨g2, e2, hc⟩
  refine ⟨?_, ?_, ?_, h.closedOnce, h.closedMade⟩
  · intro k2 g2 h2 c hc
    obtain ⟨g0, hg0, hc0⟩ := old k2 g2 h2 c hc
    exact h.feedsOpen k2 g0 hg0 c hc0
  · intro k2 k3 g2 g3 hne h2 h3 c hc2 hc3
    obtain ⟨a2, ha2, hca2⟩ := old k2 g2 h2 c hc2
    obtain ⟨a3, ha3, hca3⟩ := old k3 g3 h3 c hc3
    exact h.feedsApart k2 k3 a2 a3 hne ha2 ha3 c hca2 hca3
  · intro k2 g2 h2 c hc
    obtain ⟨g0, hg0, hc0⟩ := old k2 g2 h2 c hc
    exact h.feedsMade k2 g0 hg0 c hc0

theorem Gomibako.mem_addCh (g : Gomibako) (ch c : Chan) :
    c ∈ (g.addCh ch).chs ↔ c ∈ g.chs ∨ c = ch := by
  unfold Gomibako.addCh
  by_cases h : ch ∈ g.chs
  · simp only [h, if_true]
    constructor
    · exact Or.inl
    · rintro (h1 | h1)
      · exact h1
      · subst h1
        exact h
  · simp [h]

theorem Gomibako.mem_releaseCh (g : Gomibako) (ch c : Chan) :
    c ∈ (g.releaseCh ch).chs ↔ c ∈ g.chs ∧ c ≠ ch := by
  simp [Gomibako.releaseCh]

/-- Registering the channel that `make` hands out keeps the invariant. -/
theorem InvOn.subscribe {m : Registry} {cl : List Chan} {n : Chan} (h : InvOn m cl n)
    (k : GomibakoKey) (g : Gomibako) (hk : Registry.lookup m k = some g) :
    InvOn (Registry.store m k (g.addCh n)) cl (n + 1) := by
  have old : ∀ k2 g2, Registry.lookup (Registry.store m k (g.addCh n)) k2 = some g2 →
      ∀ c ∈ g2.chs, (k2 = k ∧ c = n) ∨ (∃ g0, Registry.lookup m k2 = some g0 ∧ c ∈ g0.chs) := by
    intro k2 g2 h2 c hc
    rcases Registry.lookup_store_cases _ _ _ _ _ h2 with ⟨e1, e2⟩ | ⟨_, e2⟩
    · subst e1 e2
      rcases (Gomibako.mem_addCh _ _ _).mp hc with h1 | h1
      · exact Or.inr ⟨g, hk, h1⟩
      · exact Or.inl ⟨rfl, h1⟩
    · exact Or.inr ⟨g2, e2, hc⟩
  refine ⟨?_, ?_, ?_, h.closedOnce, fun c hc => Nat.lt_succ_of_lt (h.closedMade c hc)⟩
  · intro k2 g2 h2 c hc hcl
    rcases old k2 g2 h2 c hc with ⟨_, e⟩ | ⟨g0, hg0, hc0⟩
    · subst e
      exact absurd (h.closedMade c hcl) (Nat.lt_irrefl _)
    · exact h.feedsOpen k2 g0 hg0 c hc0 hcl
  · intro k2 k3 g2 g3 hne h2 h3 c hc2 hc3
    rcases old k2 g2 h2 c hc2 with ⟨e2, e⟩ | ⟨a2, ha2, hca2⟩ <;>
      rcases old k3 g3 h3 c hc3 with ⟨e3, e4⟩ | ⟨a3, ha3, hca3⟩
    · exact hne (e2.trans e3.symm)
    · subst e
      exact absurd (h.feedsMade k3 a3 ha3 c hca3) (Nat.lt_irrefl _)
    · subst e4
      exact absurd (h.feedsMade k2 a2 ha2 c hca2) (Nat.lt_irrefl _)
    · exact h.feedsApart k2 k3 a2 a3 hne ha2 ha3 c hca2 hca3
  · intro k2 g2 h2 c hc
    rcases old k2 g2 h2 c hc with ⟨_, e⟩ | ⟨g0, hg0, hc0⟩
    · subst e
      exact Nat.lt_succ_self _
    · exact Nat.lt_succ_of_lt (h.feedsMade k2 g0 hg0 c hc0)

/-- Removing a feed from the inbox it is registered on and closing it keeps
the invariant. -/
theorem InvOn.release {m : Registry} {cl : List Chan} {n : Chan} (h : InvOn m cl n)
    (k : GomibakoKey) (g : Gomibako) (ch : Chan) (hk : Registry.lookup m k = some g)
    (hch : ch ∈ g.chs) :
    InvOn (Registry.store m k (g.releaseCh ch)) (cl ++ [ch]) n := by
  have old : ∀ k2 g2, Registry.lookup (Registry.store m k (g.releaseCh ch)) k2 = some g2 →
      ∀ c ∈ g2.chs, c ≠ ch ∧ ∃ g0, Registry.lookup m k2 = some g0 ∧ c ∈ g0.chs := by
    intro k2 g2 h2 c hc
    rcases Registry.lookup_store_cases _ _ _ _ _ h2 with ⟨e1, e2⟩ | ⟨hne, e2⟩
    · subst e1 e2
      have := (Gomibako.mem_releaseCh _ _ _).mp hc
      exact ⟨this.2, g, hk, this.1⟩
    · refine ⟨?_, g2, e2, hc⟩
      intro e
      subst e
      exact h.feedsApart k k2 g g2 (fun e => hne e.symm) hk e2 c hch hc
  have hopen : ch ∉ cl := h.feedsOpen k g hk ch hch
  refine ⟨?_, ?_, ?_, ?_, ?_⟩
  · intro k2 g2 h2 c hc hcl
    obtain ⟨hne, g0, hg0, hc0⟩ := old k2 g2 h2 c hc
    simp only [List.mem_append, List.mem_singleton] at hcl
    rcases hcl with h1 | h1
    · exact h.feedsOpen k2 g0 hg0 c hc0 h1
    · exact hne h1
  · intro k2 k3 g2 g3 hne h2 h3 c hc2 hc3
    obtain ⟨_, a2, ha2, hca2⟩ := old k2 g2 h2 c hc2
    obtain ⟨_, a3, ha3, hca3⟩ := old k3 g3 h3 c hc3
    exact h.feedsApart k2 k3 a2 a3 hne ha2 ha3 c hca2 hca3
  · intro k2 g2 h2 c hc
    obtain ⟨_, g0, hg0, hc0⟩ := old k2 g2 h2 c hc
    exact h.feedsMade k2 g0 hg0 c hc0
  · refine List.nodup_append.mpr ⟨h.closedOnce, List.nodup_singleton _, ?_⟩
    intro c hc1 hc2
    simp only [List.mem_singleton] at hc2
    subst hc2
    exact hopen hc1
  · intro c hc
    simp only [List.mem_append, List.mem_singleton] at hc
    rcases hc with h1 | h1
    · exact h.closedMade c h1
    · subst h1
      exact h.feedsMade k g hk c hch


open GomibakoRepository in
theorem fanOut_ret (r : GomibakoRequest) (chs : List Chan) (gr gr1 : GomibakoRepository)
    (h : fanOut r chs gr = .ret () gr1) :
    gr1 = { gr with delivered := gr.delivered ++ chs.map (fun c => (c, r)) } := by
  induction chs generalizing gr with
  | nil =>
    simp only [fanOut, Outcome.ret.injEq, true_and] at h
    simp [← h]
  | cons c chs ih =>
    unfold fanOut send at h
    by_cases hc : c ∈ gr.closeLog
    · simp [hc] at h
    · simp only [hc, if_false] at h
      rw [ih _ h]
      simp [List.append_assoc]

open GomibakoRepository in
theorem fanOut_open (r : GomibakoRequest) (chs : List Chan) (gr : GomibakoRepository)
    (h : ∀ c ∈ chs, c ∉ gr.closeLog) :
    fanOut r chs gr
      = .ret () { gr with delivered := gr.delivered ++ chs.map (fun c => (c, r)) } := by
  induction chs generalizing gr with
  | nil => simp [fanOut]
  | cons c chs ih =>
    have hc : c ∉ gr.closeLog := h c (List.mem_cons_self _ _)
    unfold fanOut send
    simp only [hc, if_false]
    refine (ih _ ?_).trans ?_
    · exact fun d hd => h d (List.mem_cons_of_mem _ hd)
    · simp [List.append_assoc]

open GomibakoRepository in
theorem Truncate_inv (gr : GomibakoRepository) (now : Int) (hI : Inv gr) :
    ∃ ids gr1, Truncate gr now = .ret ids gr1 ∧ Inv gr1 := by
  have hopen : ExpiredFeedsOpen now gr := fun k g hg _ c hc => hI.feedsOpen k g hg c hc
  have hapart : ExpiredFeedsApart now gr :=
    fun k1 k2 g1 g2 hne h1 h2 _ _ c hc => hI.feedsApart k1 k2 g1 g2 hne h1 h2 c hc
  have hnd := (expiredFeedsApart_iff now gr).mp hapart
  obtain ⟨ids, gr1, hrun, hlog, hgone, hkept, hnone, _, _, hn, _⟩ :=
    Truncate_spec gr now hnd ((expiredFeedsOpen_iff now gr).mp hopen)
  have sub : ∀ k g, Registry.lookup gr1.gomibakos k = some g →
      Registry.lookup gr.gomibakos k = some g ∧ exceedsTTL (now - g.timestamp) = false := by
    intro k g h1
    cases hl : Registry.lookup gr.gomibakos k with
    | none =>
      rw [hnone k hl] at h1
      cases h1
    | some g0 =>
      cases he : exceedsTTL (now - g0.timestamp) with
      | true =>
        rw [hgone k g0 hl he] at h1
        cases h1
      | false =>
        rw [hkept k g0 hl he] at h1
        cases h1
        exact ⟨rfl, he⟩
  have swept : ∀ c ∈ sweptFeeds now gr, ∃ k g, Registry.lookup gr.gomibakos k = some g ∧
      exceedsTTL (now - g.timestamp) = true ∧ c ∈ g.chs := by
    intro c hc
    obtain ⟨k, _, g, hg, he, hm⟩ := (mem_sweptFeedsOf _ _ _ _).mp hc
    exact ⟨k, g, hg, he, hm⟩
  refine ⟨ids, gr1, hrun, ?_⟩
  unfold Inv
  rw [hlog, hn]
  refine ⟨?_, ?_, ?_, ?_, ?_⟩
  · intro k g h1 c hc hcl
    obtain ⟨hg, he⟩ := sub k g h1
    simp only [List.mem_append] at hcl
    rcases hcl with h2 | h2
    · exact hI.feedsOpen k g hg c hc h2
    · obtain ⟨k2, g2, hg2, he2, hm2⟩ := swept c h2
      have hne : k ≠ k2 := by
        intro e
        subst e
        rw [hg] at hg2
        cases hg2
        rw [he] at he2
        cases he2
      exact hI.feedsApart k k2 g g2 hne hg hg2 c hc hm2
  · intro k1 k2 g1 g2 hne h1 h2 c hc1 hc2
    exact hI.feedsApart k1 k2 g1 g2 hne (sub k1 g1 h1).1 (sub k2 g2 h2).1 c hc1 hc2
  · intro k g h1 c hc
    exact hI.feedsMade k g (sub k g h1).1 c hc
  · refine List.nodup_append.mpr ⟨hI.closedOnce, hnd, ?_⟩
    intro c hc1 hc2
    obtain ⟨k2, g2, hg2, _, hm2⟩ := swept c hc2
    exact hI.feedsOpen k2 g2 hg2 c hm2 hc1
  · intro c hc
    simp only [List.mem_append] at hc
    rcases hc with h2 | h2
    · exact hI.closedMade c h2
    · obtain ⟨k2, g2, hg2, _, hm2⟩ := swept c h2
      exact hI.feedsMade k2 g2 hg2 c hm2

theorem Inv_new : Inv GomibakoRepository.NewGomibakoRepository := by
  refine ⟨?_, ?_, ?_, ?_, ?_⟩ <;>
    simp [GomibakoRepository.NewGomibakoRepository, Registry.lookup]

/-! ## The steps of a call, run back to back, make the call -/

theorem crun_cons_some {s s1 : Sys} {l : Label} (ls : List Label) (h : cstep s l = some s1) :
    crun s (l :: ls) = crun s1 ls := by
  simp only [crun, h]

theorem crun_cons_none {s : Sys} {l : Label} (ls : List Label) (h : cstep s l = none) :
    crun s (l :: ls) = crun s ls := by
  simp only [crun, h]

theorem eraseIdx_append_last {α : Type} (l : List α) (a : α) :
    (l ++ [a]).eraseIdx l.length = l := by
  induction l with
  | nil => rfl
  | cons x l ih => simpa [List.eraseIdx] using ih

theorem crun_crashed (ls : List Label) (s : Sys) (msg : String) (h : s.crashed = some msg) :
    crun s ls = s := by
  induction ls with
  | nil => rfl
  | cons l ls ih =>
    have h1 : cstep s l = none := by simp [cstep, h]
    rw [crun_cons_none ls h1, ih]

open GomibakoRepository in
/-- The two steps of `Release`, with no step of another goroutine between
them, end as the call `Release` does. -/
theorem release_steps_make_Release (s : Sys) (key : GomibakoKey) (ch : Chan)
    (hc : s.crashed = none) (hw : s.writer = none) (hnot : ch ∉ s.closing) :
    (crun s [.release key ch, .releaseEnd ch]).gr = (Release s.gr key ch).state ∧
    (crun s [.release key ch, .releaseEnd ch]).crashed = (Release s.gr key ch).panicMsg ∧
    (crun s [.release key ch, .releaseEnd ch]).closing = s.closing := by
  have hR : s.gr.RLock.gomibakos = s.gr.gomibakos := rfl
  cases hl : Registry.lookup s.gr.gomibakos key with
  | none =>
    have h1 : cstep s (.release key ch) = some { s with gr := s.gr.RLock.RUnlock } := by
      simp [cstep, hc, Sys.release, hw, hR, hl]
    have h2 : cstep { s with gr := s.gr.RLock.RUnlock } (.releaseEnd ch) = none := by
      simp [cstep, hc, Sys.releaseEnd, hnot]
    rw [crun_cons_some _ h1, crun_cons_none _ h2, Release_absent s.gr key ch hl]
    exact ⟨RLock_RUnlock _, hc, rfl⟩
  | some g =>
    have h1 : cstep s (.release key ch) = some { s with
        gr := { s.gr.RLock with
          gomibakos := Registry.store s.gr.gomibakos key (g.releaseCh ch) },
        closing := s.closing ++ [ch] } := by
      simp [cstep, hc, Sys.release, hw, hR, hl]
    have herase : (s.closing ++ [ch]).erase ch = s.closing := by
      rw [List.erase_append_right _ hnot]
      simp
    rw [crun_cons_some _ h1]
    by_cases hcl : ch ∈ s.gr.closeLog
    · have hcl2 : ch ∈ s.gr.RLock.closeLog := hcl
      have h2 : cstep { s with
            gr := { s.gr.RLock with
              gomibakos := Registry.store s.gr.gomibakos key (g.releaseCh ch) },
            closing := s.closing ++ [ch] } (.releaseEnd ch)
          = some { s with
              gr := ({ s.gr.RLock with
                gomibakos := Registry.store s.gr.gomibakos key (g.releaseCh ch) }
                  : GomibakoRepository).RUnlock,
              closing := s.closing,
              crashed := some "close of closed channel" } := by
        simp [cstep, hc, Sys.releaseEnd, closeCh, hcl, hcl2, herase, RLock]
      have h3 : Release s.gr key ch = .panic "close of closed channel"
          ({ s.gr.RLock with
            gomibakos := Registry.store s.gr.gomibakos key (g.releaseCh ch) }
              : GomibakoRepository).RUnlock := by
        simp [Release, hR, hl, closeCh, hcl, hcl2, RLock]
      rw [crun_cons_some _ h2, h3]
      exact ⟨rfl, rfl, rfl⟩
    · have hcl2 : ch ∉ s.gr.RLock.closeLog := hcl
      have h2 : cstep { s with
            gr := { s.gr.RLock with
              gomibakos := Registry.store s.gr.gomibakos key (g.releaseCh ch) },
            closing := s.closing ++ [ch] } (.releaseEnd ch)
          = some { s with
              gr := ({ s.gr.RLock with
                gomibakos := Registry.store s.gr.gomibakos key (g.releaseCh ch),
                closeLog := s.gr.closeLog ++ [ch] } : GomibakoRepository).RUnlock,
              closing := s.closing } := by
        simp [cstep, hc, Sys.releaseEnd, closeCh, hcl, hcl2, herase, RLock]
      have h3 : Release s.gr key ch = .ret none
          ({ s.gr.RLock with
            gomibakos := Registry.store s.gr.gomibakos key (g.releaseCh ch),
            closeLog := s.gr.closeLog ++ [ch] } : GomibakoRepository).RUnlock := by
        simp [Release, hR, hl, closeCh, hcl, hcl2, RLock]
      rw [crun_cons_some _ h2, h3]
      exact ⟨rfl, hc, rfl⟩

open GomibakoRepository in
/-- The two steps of `GetWithCh`, with no step of another goroutine between
them, end in the state the call `GetWithCh` ends in. -/
theorem getWithCh_steps_make_GetWithCh (s : Sys) (key : GomibakoKey)
    (hc : s.crashed = none) (hw : s.writer = none) :
    (crun s [.getBegin key, .getEnd s.subscribing.length]).gr = (GetWithCh s.gr key).state ∧
    (crun s [.getBegin key, .getEnd s.subscribing.length]).subscribing = s.subscribing := by
  have hR : s.gr.RLock.gomibakos = s.gr.gomibakos := rfl
  cases hl : Registry.lookup s.gr.gomibakos key with
  | none =>
    have h1 : cstep s (.getBegin key) = some s := by
      simp [cstep, hc, Sys.getBegin, hw, Get, hR, hl, RLock_RUnlock]
      cases s
      simp_all
    have h2 : cstep s (.getEnd s.subscribing.length) = none := by
      simp [cstep, hc, Sys.getEnd]
    have h3 : GetWithCh s.gr key = .ret (.error errNotFound) s.gr := by
      simp [GetWithCh, Get, hR, hl, RLock_RUnlock]
    rw [crun_cons_some _ h1, crun_cons_none _ h2, h3]
    exact ⟨rfl, rfl⟩
  | some g =>
    have h1 : cstep s (.getBegin key)
        = some { s with subscribing := s.subscribing ++ [(key, true)] } := by
      simp [cstep, hc, Sys.getBegin, hw, Get, hR, hl, RLock_RUnlock]
    have h2 : cstep { s with subscribing := s.subscribing ++ [(key, true)] }
          (.getEnd s.subscribing.length)
        = some { s with
            gr := { s.gr with
              nextCh := s.gr.nextCh + 1,
              gomibakos := Registry.store s.gr.gomibakos key (g.addCh s.gr.nextCh) },
            subscribing := s.subscribing } := by
      simp [cstep, hc, Sys.getEnd, hl, eraseIdx_append_last]
    have h3 : GetWithCh s.gr key = .ret (.ok (g.addCh s.gr.nextCh, s.gr.nextCh))
        { s.gr with
          nextCh := s.gr.nextCh + 1,
          gomibakos := Registry.store s.gr.gomibakos key (g.addCh s.gr.nextCh) } := by
      simp [GetWithCh, Get, hR, hl, RLock_RUnlock]
    rw [crun_cons_some _ h1, crun_cons_some _ h2, h3]
    exact ⟨rfl, rfl⟩

open GomibakoRepository in
/-- The sends of one iteration, run back to back, end as the loop `fanOut`
does, followed by `RUnlock`. -/
theorem sends_make_fanOut (r : GomibakoRequest) (chs : List Chan) (s : Sys)
    (hc : s.crashed = none) (hpc : s.pc = .sending r chs) :
    (crun s (List.replicate (chs.length + 1) .broker)).crashed
      = (fanOut r chs s.gr).panicMsg ∧
    (crun s (List.replicate (chs.length + 1) .broker)).gr
      = (match fanOut r chs s.gr with
        | .ret _ gr1 => gr1.RUnlock
        | other => other.state) ∧
    ((fanOut r chs s.gr).panicMsg = none →
      (crun s (List.replicate (chs.length + 1) .broker)).pc = .idle) := by
  induction chs generalizing s with
  | nil =>
    have h1 : cstep s .broker = some { s with gr := s.gr.RUnlock, pc := .idle } := by
      simp [cstep, hc, Sys.broker, hpc]
    have hrep : List.replicate ([] : List Chan).length.succ Label.broker = [.broker] := rfl
    rw [hrep, crun_cons_some _ h1]
    exact ⟨hc, rfl, fun _ => rfl⟩
  | cons c cs ih =>
    have hrep : List.replicate ((c :: cs).length + 1) Label.broker
        = .broker :: List.replicate (cs.length + 1) .broker := rfl
    rw [hrep]
    by_cases hcl : c ∈ s.gr.closeLog
    · have h1 : cstep s .broker
          = some { s with gr := s.gr, crashed := some "send on closed channel" } := by
        simp [cstep, hc, Sys.broker, hpc, send, hcl]
      have h2 := crun_crashed (List.replicate (cs.length + 1) .broker)
        { s with gr := s.gr, crashed := some "send on closed channel" }
        "send on closed channel" rfl
      have h3 : fanOut r (c :: cs) s.gr = .panic "send on closed channel" s.gr := by
        simp [fanOut, send, hcl]
      rw [crun_cons_some _ h1, h2, h3]
      exact ⟨rfl, rfl, fun h => by simp [Outcome.panicMsg] at h⟩
    · have h1 : cstep s .broker
          = some { s with
              gr := { s.gr with delivered := s.gr.delivered ++ [(c, r)] },
              pc := .sending r cs } := by
        simp [cstep, hc, Sys.broker, hpc, send, hcl]
      have h3 : fanOut r (c :: cs) s.gr
          = fanOut r cs { s.gr with delivered := s.gr.delivered ++ [(c, r)] } := by
        simp [fanOut, send, hcl]
      rw [crun_cons_some _ h1, h3]
      exact ih { s with
          gr := { s.gr with delivered := s.gr.delivered ++ [(c, r)] },
          pc := .sending r cs } hc rfl

open GomibakoRepository in
/-- The broker steps of one iteration, with no step of another goroutine
between them, end as the iteration `RunBrokerStep` does: same state of the
repository, same panic if any, and the broker back at its receive. -/
theorem broker_steps_make_iteration (s : Sys) (hc : s.crashed = none) (hw : s.writer = none)
    (hpc : s.pc = .idle) :
    (crun s (List.replicate (iterationSteps s.gr) .broker)).gr = (RunBrokerStep s.gr).state ∧
    (crun s (List.replicate (iterationSteps s.gr) .broker)).crashed
      = (RunBrokerStep s.gr).panicMsg ∧
    ((RunBrokerStep s.gr).panicMsg = none →
      (crun s (List.replicate (iterationSteps s.gr) .broker)).pc = .idle) := by
  cases hb : s.gr.broker with
  | nil =>
    have h0 : iterationSteps s.gr = 0 := by simp [iterationSteps, hb]
    have h3 : RunBrokerStep s.gr = .blocked s.gr := by simp [RunBrokerStep, hb]
    rw [h0, h3]
    exact ⟨rfl, hc, fun _ => hpc⟩
  | cons r q =>
    have h1 : cstep s .broker
        = some { s with gr := { s.gr with broker := q }, pc := .holding r } := by
      simp [cstep, hc, Sys.broker, hpc, hb]
    have hR : ({ s.gr with broker := q } : GomibakoRepository).RLock.gomibakos
        = s.gr.gomibakos := rfl
    cases hl : Registry.lookup s.gr.gomibakos r.Key with
    | none =>
      have h0 : iterationSteps s.gr = 2 := by simp [iterationSteps, hb, hl]
      have h2 : cstep { s with gr := { s.gr with broker := q }, pc := .holding r } .broker
          = some { s with
              gr := ({ s.gr with broker := q } : GomibakoRepository).RLock, pc := .idle } := by
        simp [cstep, hc, Sys.broker, hw, hR, hl]
      have h3 : RunBrokerStep s.gr
          = .ret () ({ s.gr with broker := q } : GomibakoRepository).RLock := by
        simp [RunBrokerStep, hb, RunBrokerBody, hR, hl]
      have hrep : List.replicate 2 Label.broker = [.broker, .broker] := rfl
      rw [h0, hrep, crun_cons_some _ h1, crun_cons_some _ h2, h3]
      exact ⟨rfl, hc, fun _ => rfl⟩
    | some g =>
      have h0 : iterationSteps s.gr = g.channels.length + 3 := by
        simp [iterationSteps, hb, hl]
      have h2 : cstep { s with gr := { s.gr with broker := q }, pc := .holding r } .broker
          = some { s with
              gr := ({ s.gr with broker := q } : GomibakoRepository).RLock,
              pc := .sending r g.channels } := by
        simp [cstep, hc, Sys.broker, hw, hR, hl]
      have hrep : List.replicate (g.channels.length + 3) Label.broker
          = .broker :: .broker :: List.replicate (g.channels.length + 1) .broker := rfl
      obtain ⟨h4, h5, h6⟩ := sends_make_fanOut r g.channels
        { s with
          gr := ({ s.gr with broker := q } : GomibakoRepository).RLock,
          pc := .sending r g.channels } hc rfl
      rw [h0, hrep, crun_cons_some _ h1, crun_cons_some _ h2]
      have h7 : RunBrokerStep s.gr
          = (match fanOut r g.channels ({ s.gr with broker := q } : GomibakoRepository).RLock with
            | .ret _ gr1 => .ret () gr1.RUnlock
            | .panic msg gr1 => .panic msg gr1
            | .blocked gr1 => .blocked gr1) := by
        simp [RunBrokerStep, hb, RunBrokerBody, hR, hl]
      rw [h7]
      cases hf : fanOut r g.channels ({ s.gr with broker := q } : GomibakoRepository).RLock with
      | ret v gr1 =>
        rw [hf] at h4 h5 h6
        exact ⟨h5, h4, fun _ => h6 rfl⟩
      | panic msg gr1 =>
        rw [hf] at h4 h5 h6
        exact ⟨h5, h4, fun h => by simp [Outcome.panicMsg] at h⟩
      | blocked gr1 =>
        rw [hf] at h4 h5 h6
        exact ⟨h5, h4, fun _ => h6 rfl⟩

/-! ## The invariant under interleaving -/

theorem PendingOn.keep_store {m : Registry} {cl : List Chan} {n : Chan} {closing : List Chan}
    (h : PendingOn m cl n closing) (k : GomibakoKey) (g1 : Gomibako)
    (hsub : ∀ c ∈ g1.chs, ∃ g, Registry.lookup m k = some g ∧ c ∈ g.chs) :
    PendingOn (Registry.store m k g1) cl n closing := by
  refine ⟨h.feeds.store_sub k g1 hsub, h.closingOpen, h.closingMade, ?_, h.closingOnce⟩
  intro c hc k2 g2 h2 hmem
  rcases Registry.lookup_store_cases _ _ _ _ _ h2 with ⟨e1, e2⟩ | ⟨_, e2⟩
  · subst e1 e2
    obtain ⟨g, hg, hcg⟩ := hsub c hmem
    exact h.closingGone c hc k2 g hg hcg
  · exact h.closingGone c hc k2 g2 e2 hmem

theorem PendingOn.keep_subscribe {m : Registry} {cl : List Chan} {n : Chan} {closing : List Chan}
    (h : PendingOn m cl n closing) (k : GomibakoKey) (g : Gomibako)
    (hk : Registry.lookup m k = some g) :
    PendingOn (Registry.store m k (g.addCh n)) cl (n + 1) closing := by
  refine ⟨h.feeds.subscribe k g hk, h.closingOpen,
    fun c hc => Nat.lt_succ_of_lt (h.closingMade c hc), ?_, h.closingOnce⟩
  intro c hc k2 g2 h2 hmem
  rcases Registry.lookup_store_cases _ _ _ _ _ h2 with ⟨e1, e2⟩ | ⟨_, e2⟩
  · subst e1 e2
    rcases (Gomibako.mem_addCh _ _ _).mp hmem with h3 | h3
    · exact h.closingGone c hc k2 g hk h3
    · subst h3
      exact absurd (h.closingMade c hc) (Nat.lt_irrefl _)
  · exact h.closingGone c hc k2 g2 e2 hmem

theorem PendingOn.next {m : Registry} {cl : List Chan} {n : Chan} {closing : List Chan}
    (h : PendingOn m cl n closing) : PendingOn m cl (n + 1) closing :=
  ⟨⟨h.feeds.feedsOpen, h.feeds.feedsApart,
      fun k g hg c hc => Nat.lt_succ_of_lt (h.feeds.feedsMade k g hg c hc),
      h.feeds.closedOnce, fun c hc => Nat.lt_succ_of_lt (h.feeds.closedMade c hc)⟩,
    h.closingOpen, fun c hc => Nat.lt_succ_of_lt (h.closingMade c hc), h.closingGone,
    h.closingOnce⟩

/-- First step of a matched `Release`: the feed moves from the feed set of
its inbox to the channels about to be closed. -/
theorem PendingOn.keep_release {m : Registry} {cl : List Chan} {n : Chan} {closing : List Chan}
    (h : PendingOn m cl n closing) (k : GomibakoKey) (g : Gomibako) (ch : Chan)
    (hk : Registry.lookup m k = some g) (hch : ch ∈ g.chs) :
    PendingOn (Registry.store m k (g.releaseCh ch)) cl n (closing ++ [ch]) := by
  have hsub : ∀ c ∈ (g.releaseCh ch).chs, ∃ g0, Registry.lookup m k = some g0 ∧ c ∈ g0.chs :=
    fun c hc => ⟨g, hk, ((Gomibako.mem_releaseCh _ _ _).mp hc).1⟩
  have hnot : ch ∉ closing := fun hc => h.closingGone ch hc k g hk hch
  refine ⟨h.feeds.store_sub k _ hsub, ?_, ?_, ?_, ?_⟩
  · intro c hc
    simp only [List.mem_append, List.mem_singleton] at hc
    rcases hc with h1 | h1
    · exact h.closingOpen c h1
    · subst h1
      exact h.feeds.feedsOpen k g hk c hch
  · intro c hc
    simp only [List.mem_append, List.mem_singleton] at hc
    rcases hc with h1 | h1
    · exact h.closingMade c h1
    · subst h1
      exact h.feeds.feedsMade k g hk c hch
  · intro c hc k2 g2 h2 hmem
    simp only [List.mem_append, List.mem_singleton] at hc
    rcases Registry.lookup_store_cases _ _ _ _ _ h2 with ⟨e1, e2⟩ | ⟨hne, e2⟩
    · subst e1 e2
      have h3 := (Gomibako.mem_releaseCh _ _ _).mp hmem
      rcases hc with h1 | h1
      · exact h.closingGone c h1 k2 g hk h3.1
      · exact h3.2 h1
    · rcases hc with h1 | h1
      · exact h.closingGone c h1 k2 g2 e2 hmem
      · subst h1
        exact h.feeds.feedsApart k k2 g g2 (fun e => hne e.symm) hk e2 c hch hmem
  · refine List.nodup_append.mpr ⟨h.closingOnce, List.nodup_singleton _, ?_⟩
    intro c hc1 hc2
    simp only [List.mem_singleton] at hc2
    subst hc2
    exact hnot hc1

/-- Second step of a `Release`: the channel is closed. -/
theorem PendingOn.close {m : Registry} {cl : List Chan} {n : Chan} {closing : List Chan}
    (h : PendingOn m cl n closing) (ch : Chan) (hch : ch ∈ closing) :
    PendingOn m (cl ++ [ch]) n (closing.erase ch) := by
  have hsubset : ∀ c ∈ closing.erase ch, c ∈ closing ∧ c ≠ ch := by
    intro c hc
    exact ⟨List.mem_of_mem_erase hc, fun e => by
      subst e
      exact (List.Nodup.not_mem_erase h.closingOnce) hc⟩
  refine ⟨⟨?_, h.feeds.feedsApart, h.feeds.feedsMade, ?_, ?_⟩, ?_, ?_, ?_, ?_⟩
  · intro k g hg c hc hcl
    simp only [List.mem_append, List.mem_singleton] at hcl
    rcases hcl with h1 | h1
    · exact h.feeds.feedsOpen k g hg c hc h1
    · subst h1
      exact h.closingGone c hch k g hg hc
  · refine List.nodup_append.mpr ⟨h.feeds.closedOnce, List.nodup_singleton _, ?_⟩
    intro c hc1 hc2
    simp only [List.mem_singleton] at hc2
    subst hc2
    exact h.closingOpen c hch hc1
  · intro c hc
    simp only [List.mem_append, List.mem_singleton] at hc
    rcases hc with h1 | h1
    · exact h.feeds.closedMade c h1
    · subst h1
      exact h.closingMade c hch
  · intro c hc hcl
    obtain ⟨h1, h2⟩ := hsubset c hc
    simp only [List.mem_append, List.mem_singleton] at hcl
    rcases hcl with h3 | h3
    · exact h.closingOpen c h1 h3
    · exact h2 h3
  · intro c hc
    exact h.closingMade c (hsubset c hc).1
  · intro c hc
    exact h.closingGone c (hsubset c hc).1
  · exact h.closingOnce.erase ch

open GomibakoRepository in
/-- The sweep keeps the invariant and does not panic. -/
theorem PendingOn.truncate (gr : GomibakoRepository) (closing : List Chan) (now : Int)
    (h : PendingOn gr.gomibakos gr.closeLog gr.nextCh closing) :
    ∃ ids gr1, Truncate gr now = .ret ids gr1 ∧
      PendingOn gr1.gomibakos gr1.closeLog gr1.nextCh closing ∧ gr1.readers = gr.readers := by
  have hI : Inv gr := h.feeds
  have hopen : ExpiredFeedsOpen now gr := fun k g hg _ c hc => hI.feedsOpen k g hg c hc
  have hapart : ExpiredFeedsApart now gr :=
    fun k1 k2 g1 g2 hne h1 h2 _ _ c hc => hI.feedsApart k1 k2 g1 g2 hne h1 h2 c hc
  obtain ⟨ids, gr1, hrun, hlog, hgone, hkept, hnone, _, hr, hn, _⟩ :=
    Truncate_spec gr now ((expiredFeedsApart_iff now gr).mp hapart)
      ((expiredFeedsOpen_iff now gr).mp hopen)
  obtain ⟨ids2, gr2, hrun2, hI2⟩ := Truncate_inv gr now hI
  rw [hrun] at hrun2
  simp only [Outcome.ret.injEq] at hrun2
  obtain ⟨_, e2⟩ := hrun2
  subst e2
  have sub : ∀ k g, Registry.lookup gr1.gomibakos k = some g →
      Registry.lookup gr.gomibakos k = some g := by
    intro k g h1
    cases hl : Registry.lookup gr.gomibakos k with
    | none =>
      rw [hnone k hl] at h1
      cases h1
    | some g0 =>
      cases he : exceedsTTL (now - g0.timestamp) with
      | true =>
        rw [hgone k g0 hl he] at h1
        cases h1
      | false =>
        rw [hkept k g0 hl he] at h1
        cases h1
        rfl
  refine ⟨ids, gr1, hrun, ⟨hI2, ?_, ?_, ?_, h.closingOnce⟩, hr⟩
  · intro c hc hcl
    rw [hlog] at hcl
    simp only [List.mem_append] at hcl
    rcases hcl with h1 | h1
    · exact h.closingOpen c hc h1
    · obtain ⟨k, _, g, hg, _, hm⟩ := (mem_sweptFeedsOf _ _ _ _).mp h1
      exact h.closingGone c hc k g hg hm
  · intro c hc
    rw [hn]
    exact h.closingMade c hc
  · intro c hc k g hg
    exact h.closingGone c hc k g (sub k g hg)

theorem cstep_not_crashed {s s1 : Sys} {l : Label} (h : cstep s l = some s1) :
    s.crashed = none := by
  cases hc : s.crashed with
  | none => rfl
  | some msg => simp [cstep, hc] at h

open GomibakoRepository in
theorem AddRequest_cases (gr : GomibakoRepository) (greq : GomibakoRequest) :
    (Registry.lookup gr.gomibakos greq.Key = none ∧
      AddRequest gr greq = .ret (some errNotFound) gr) ∨
    (∃ g, Registry.lookup gr.gomibakos greq.Key = some g ∧
      gr.broker.length < brokerCap ∧
      AddRequest gr greq = .ret none { gr with
        gomibakos := Registry.store gr.gomibakos greq.Key (g.addRequest greq),
        broker := gr.broker ++ [greq] }) ∨
    (∃ g, Registry.lookup gr.gomibakos greq.Key = some g ∧
      ¬ gr.broker.length < brokerCap ∧
      AddRequest gr greq = .blocked { gr with
        gomibakos := Registry.store gr.gomibakos greq.Key (g.addRequest greq) }) := by
  unfold AddRequest
  cases hl : Registry.lookup gr.gomibakos greq.Key with
  | none => exact Or.inl ⟨rfl, rfl⟩
  | some g =>
    by_cases hq : gr.broker.length < brokerCap
    · exact Or.inr (Or.inl ⟨g, rfl, hq, by simp [hq]⟩)
    · exact Or.inr (Or.inr ⟨g, rfl, hq, by simp [hq]⟩)

/-- One matched step keeps the invariant of the feeds. -/
theorem cstep_inv (s s1 : Sys) (l : Label) (hI : SysInv s) (hstep : cstep s l = some s1)
    (hm : l.matched s = true) : SysInv s1 := by
  have hc := cstep_not_crashed hstep
  obtain ⟨hP, _⟩ := hI
  simp only [cstep, hc] at hstep
  cases l with
  | addGomibako rand now =>
    simp only [Sys.addGomibako] at hstep
    split at hstep
    · simp only [Option.some.injEq] at hstep
      subst hstep
      refine ⟨?_, Or.inl hc⟩
      cases rand with
      | error e => exact hP
      | ok str =>
        exact hP.keep_store str (newGomibako str now) (by intro c hc; simp [newGomibako] at hc)
    · simp at hstep
  | addRequest greq =>
    simp only [Sys.addRequest] at hstep
    split at hstep
    · rcases AddRequest_cases s.gr greq with ⟨_, h1⟩ | ⟨g, hg, _, h1⟩ | ⟨g, hg, _, h1⟩
      · rw [h1] at hstep
        simp only [Option.some.injEq] at hstep
        subst hstep
        exact ⟨hP, Or.inl hc⟩
      · rw [h1] at hstep
        simp only [Option.some.injEq] at hstep
        subst hstep
        refine ⟨hP.keep_store greq.Key (g.addRequest greq) ?_, Or.inl hc⟩
        intro c hcm
        rw [Gomibako.addRequest_chs] at hcm
        exact ⟨g, hg, hcm⟩
      · rw [h1] at hstep
        simp only [Option.some.injEq] at hstep
        subst hstep
        refine ⟨hP.keep_store greq.Key (g.addRequest greq) ?_, Or.inl hc⟩
        intro c hcm
        rw [Gomibako.addRequest_chs] at hcm
        exact ⟨g, hg, hcm⟩
    · simp at hstep
  | sendDone =>
    simp only [Sys.sendDone] at hstep
    split at hstep
    · simp at hstep
    · split at hstep
      · simp only [Option.some.injEq] at hstep
        subst hstep
        exact ⟨hP, Or.inl hc⟩
      · simp at hstep
  | getBegin key =>
    have hR : s.gr.RLock.gomibakos = s.gr.gomibakos := rfl
    simp only [Sys.getBegin, GomibakoRepository.Get, hR,
      GomibakoRepository.RLock_RUnlock] at hstep
    split at hstep
    · cases hl : Registry.lookup s.gr.gomibakos key with
      | none =>
        rw [hl] at hstep
        simp only [Option.some.injEq] at hstep
        subst hstep
        exact ⟨hP, Or.inl hc⟩
      | some g =>
        rw [hl] at hstep
        simp only [Option.some.injEq] at hstep
        subst hstep
        exact ⟨hP, Or.inl hc⟩
    · simp at hstep
  | getEnd i =>
    simp only [Sys.getEnd] at hstep
    cases he : s.subscribing[i]? with
    | none =>
      rw [he] at hstep
      simp at hstep
    | some e =>
      obtain ⟨key, live⟩ := e
      rw [he] at hstep
      simp only [Option.some.injEq] at hstep
      subst hstep
      refine ⟨?_, Or.inl hc⟩
      cases live with
      | false => exact hP.next
      | true =>
        cases hl : Registry.lookup s.gr.gomibakos key with
        | none => exact hP.next
        | some g => exact hP.keep_subscribe key g hl
  | release key ch =>
    have hR : s.gr.RLock.gomibakos = s.gr.gomibakos := rfl
    simp only [Sys.release, hR, GomibakoRepository.RLock_RUnlock] at hstep
    split at hstep
    · cases hl : Registry.lookup s.gr.gomibakos key with
      | none =>
        rw [hl] at hstep
        simp only [Option.some.injEq] at hstep
        subst hstep
        exact ⟨hP, Or.inl hc⟩
      | some g =>
        rw [hl] at hstep
        simp only [Option.some.injEq] at hstep
        subst hstep
        have hch : ch ∈ g.chs := by
          simpa [Label.matched, hl] using hm
        exact ⟨hP.keep_release key g ch hl hch, Or.inl hc⟩
    · simp at hstep
  | releaseEnd ch =>
    simp only [Sys.releaseEnd] at hstep
    split at hstep
    · rename_i hin
      have hopen : ch ∉ s.gr.closeLog := hP.closingOpen ch hin
      simp only [GomibakoRepository.closeCh, hopen, if_false, Option.some.injEq] at hstep
      subst hstep
      exact ⟨hP.close ch hin, Or.inl hc⟩
    · simp at hstep
  | truncate now =>
    simp only [Sys.truncate] at hstep
    split at hstep
    · obtain ⟨ids, gr1, hrun, hP1, _⟩ := PendingOn.truncate s.gr s.closing now hP
      rw [hrun] at hstep
      simp only [Option.some.injEq] at hstep
      subst hstep
      exact ⟨hP1, Or.inl hc⟩
    · simp at hstep
  | broker =>
    simp only [Sys.broker] at hstep
    cases hpc : s.pc with
    | idle =>
      rw [hpc] at hstep
      simp only at hstep
      cases hb : s.gr.broker with
      | nil =>
        rw [hb] at hstep
        simp at hstep
      | cons r q =>
        rw [hb] at hstep
        simp only [Option.some.injEq] at hstep
        subst hstep
        exact ⟨hP, Or.inl hc⟩
    | holding r =>
      rw [hpc] at hstep
      have hR : s.gr.RLock.gomibakos = s.gr.gomibakos := rfl
      simp only [hR] at hstep
      split at hstep
      · cases hl : Registry.lookup s.gr.gomibakos r.Key with
        | none =>
          rw [hl] at hstep
          simp only [Option.some.injEq] at hstep
          subst hstep
          exact ⟨hP, Or.inl hc⟩
        | some g =>
          rw [hl] at hstep
          simp only [Option.some.injEq] at hstep
          subst hstep
          exact ⟨hP, Or.inl hc⟩
      · simp at hstep
    | sending r chs =>
      rw [hpc] at hstep
      cases chs with
      | nil =>
        simp only [Option.some.injEq] at hstep
        subst hstep
        exact ⟨hP, Or.inl hc⟩
      | cons c cs =>
        simp only [GomibakoRepository.send] at hstep
        by_cases hcl : c ∈ s.gr.closeLog
        · simp only [hcl, if_true, Option.some.injEq] at hstep
          subst hstep
          exact ⟨hP, Or.inr rfl⟩
        · simp only [hcl, if_false, Option.some.injEq] at hstep
          subst hstep
          exact ⟨hP, Or.inl hc⟩

theorem BrokerPC.remaining_of_locks {pc : BrokerPC} (h : pc.locks = 0) :
    pc.remaining = [] := by
  cases pc <;> simp_all [BrokerPC.locks, BrokerPC.remaining]

/-- One matched step that is apart from the broker keeps the invariant of the
broker: no panic. -/
theorem cstep_calm (s s1 : Sys) (l : Label) (hI : SysInv s) (hC : SysCalm s)
    (hstep : cstep s l = some s1) (hm : l.matched s = true) (ha : l.apart s = true) :
    SysCalm s1 := by
  have hc := cstep_not_crashed hstep
  obtain ⟨hP, _⟩ := hI
  obtain ⟨hK, _⟩ := hC
  simp only [cstep, hc] at hstep
  cases l with
  | addGomibako rand now =>
    simp only [Sys.addGomibako] at hstep
    split at hstep
    · simp only [Option.some.injEq] at hstep
      subst hstep
      cases rand with
      | error e => exact ⟨hK, hc⟩
      | ok str => exact ⟨hK, hc⟩
    · simp at hstep
  | addRequest greq =>
    simp only [Sys.addRequest] at hstep
    split at hstep
    · rcases AddRequest_cases s.gr greq with ⟨_, h1⟩ | ⟨g, _, _, h1⟩ | ⟨g, _, _, h1⟩ <;>
      · rw [h1] at hstep
        simp only [Option.some.injEq] at hstep
        subst hstep
        exact ⟨hK, hc⟩
    · simp at hstep
  | sendDone =>
    simp only [Sys.sendDone] at hstep
    split at hstep
    · simp at hstep
    · split at hstep
      · simp only [Option.some.injEq] at hstep
        subst hstep
        exact ⟨hK, hc⟩
      · simp at hstep
  | getBegin key =>
    have hR : s.gr.RLock.gomibakos = s.gr.gomibakos := rfl
    simp only [Sys.getBegin, GomibakoRepository.Get, hR,
      GomibakoRepository.RLock_RUnlock] at hstep
    split at hstep
    · cases hl : Registry.lookup s.gr.gomibakos key with
      | none =>
        rw [hl] at hstep
        simp only [Option.some.injEq] at hstep
        subst hstep
        exact ⟨hK, hc⟩
      | some g =>
        rw [hl] at hstep
        simp only [Option.some.injEq] at hstep
        subst hstep
        exact ⟨hK, hc⟩
    · simp at hstep
  | getEnd i =>
    simp only [Sys.getEnd] at hstep
    cases he : s.subscribing[i]? with
    | none =>
      rw [he] at hstep
      simp at hstep
    | some e =>
      obtain ⟨key, live⟩ := e
      rw [he] at hstep
      simp only [Option.some.injEq] at hstep
      subst hstep
      exact ⟨hK, hc⟩
  | release key ch =>
    have hR : s.gr.RLock.gomibakos = s.gr.gomibakos := rfl
    simp only [Sys.release, hR, GomibakoRepository.RLock_RUnlock] at hstep
    split at hstep
    · cases hl : Registry.lookup s.gr.gomibakos key with
      | none =>
        rw [hl] at hstep
        simp only [Option.some.injEq] at hstep
        subst hstep
        exact ⟨hK, hc⟩
      | some g =>
        rw [hl] at hstep
        simp only [Option.some.injEq] at hstep
        subst hstep
        have hap : ch ∉ s.pc.remaining := by
          simpa [Label.apart] using ha
        refine ⟨⟨hK.remainingOpen, ?_, ?_⟩, hc⟩
        · intro c hcr hcl
          simp only [List.mem_append, List.mem_singleton] at hcl
          rcases hcl with h1 | h1
          · exact hK.remainingKept c hcr h1
          · subst h1
            exact hap hcr
        · have := hK.readersHeld
          show (s.closing ++ [ch]).length + s.pc.locks ≤ s.gr.readers + 1
          simp only [List.length_append, List.length_singleton]
          omega
    · simp at hstep
  | releaseEnd ch =>
    simp only [Sys.releaseEnd] at hstep
    split at hstep
    · rename_i hin
      have hopen : ch ∉ s.gr.closeLog := hP.closingOpen ch hin
      simp only [GomibakoRepository.closeCh, hopen, if_false, Option.some.injEq] at hstep
      subst hstep
      refine ⟨⟨?_, ?_, ?_⟩, hc⟩
      · intro c hcr hcl
        have hcl2 : c ∈ s.gr.closeLog ++ [ch] := hcl
        simp only [List.mem_append, List.mem_singleton] at hcl2
        rcases hcl2 with h1 | h1
        · exact hK.remainingOpen c hcr h1
        · subst h1
          exact hK.remainingKept c hcr hin
      · intro c hcr hcl
        exact hK.remainingKept c hcr (List.mem_of_mem_erase hcl)
      · have h1 := hK.readersHeld
        have h2 : (s.closing.erase ch).length = s.closing.length - 1 :=
          List.length_erase_of_mem hin
        have h3 : 0 < s.closing.length := List.length_pos_of_mem hin
        show (s.closing.erase ch).length + s.pc.locks ≤ s.gr.readers - 1
        omega
    · simp at hstep
  | truncate now =>
    simp only [Sys.truncate] at hstep
    split at hstep
    · rename_i hw
      obtain ⟨ids, gr1, hrun, _, hr⟩ := PendingOn.truncate s.gr s.closing now hP
      rw [hrun] at hstep
      simp only [Option.some.injEq] at hstep
      subst hstep
      have h1 := hK.readersHeld
      have hl0 : s.pc.locks = 0 := by omega
      have hrem := BrokerPC.remaining_of_locks hl0
      refine ⟨⟨?_, ?_, ?_⟩, hc⟩
      · intro c hcr
        rw [hrem] at hcr
        simp at hcr
      · exact hK.remainingKept
      · show s.closing.length + s.pc.locks ≤ gr1.readers
        omega
    · simp at hstep
  | broker =>
    simp only [Sys.broker] at hstep
    cases hpc : s.pc with
    | idle =>
      rw [hpc] at hstep hK
      simp only at hstep
      cases hb : s.gr.broker with
      | nil =>
        rw [hb] at hstep
        simp at hstep
      | cons r q =>
        rw [hb] at hstep
        simp only [Option.some.injEq] at hstep
        subst hstep
        exact ⟨⟨fun c h => by simp [BrokerPC.remaining] at h,
          fun c h => by simp [BrokerPC.remaining] at h, hK.readersHeld⟩, hc⟩
    | holding r =>
      rw [hpc] at hstep hK
      have hR : s.gr.RLock.gomibakos = s.gr.gomibakos := rfl
      simp only [hR] at hstep
      split at hstep
      · cases hl : Registry.lookup s.gr.gomibakos r.Key with
        | none =>
          rw [hl] at hstep
          simp only [Option.some.injEq] at hstep
          subst hstep
          refine ⟨⟨fun c h => by simp [BrokerPC.remaining] at h,
            fun c h => by simp [BrokerPC.remaining] at h, ?_⟩, hc⟩
          have := hK.readersHeld
          show s.closing.length + BrokerPC.idle.locks ≤ s.gr.readers + 1
          simp only [BrokerPC.locks] at this ⊢
          omega
        | some g =>
          rw [hl] at hstep
          simp only [Option.some.injEq] at hstep
          subst hstep
          have hmem : ∀ c ∈ g.channels, c ∈ g.chs := by
            intro c hcm
            rw [Gomibako.channels_eq, List.mem_dedup] at hcm
            exact hcm
          refine ⟨⟨?_, ?_, ?_⟩, hc⟩
          · intro c hcr
            exact hP.feeds.feedsOpen r.Key g hl c (hmem c hcr)
          · intro c hcr hcl
            exact hP.closingGone c hcl r.Key g hl (hmem c hcr)
          · have := hK.readersHeld
            show s.closing.length + (BrokerPC.sending r g.channels).locks ≤ s.gr.readers + 1
            simp only [BrokerPC.locks] at this ⊢
            omega
      · simp at hstep
    | sending r chs =>
      rw [hpc] at hstep hK
      cases chs with
      | nil =>
        simp only [Option.some.injEq] at hstep
        subst hstep
        refine ⟨⟨fun c h => by simp [BrokerPC.remaining] at h,
          fun c h => by simp [BrokerPC.remaining] at h, ?_⟩, hc⟩
        have := hK.readersHeld
        show s.closing.length + BrokerPC.idle.locks ≤ s.gr.readers - 1
        simp only [BrokerPC.locks] at this ⊢
        omega
      | cons c cs =>
        have hcl : c ∉ s.gr.closeLog :=
          hK.remainingOpen c (by simp [BrokerPC.remaining])
        simp only [GomibakoRepository.send, hcl, if_false, Option.some.injEq] at hstep
        subst hstep
        refine ⟨⟨?_, ?_, hK.readersHeld⟩, hc⟩
        · intro d hd
          exact hK.remainingOpen d (by
            simp only [BrokerPC.remaining] at hd ⊢
            exact List.mem_cons_of_mem _ hd)
        · intro d hd
          exact hK.remainingKept d (by
            simp only [BrokerPC.remaining] at hd ⊢
            exact List.mem_cons_of_mem _ hd)

/-- Every schedule with matched `Release` calls keeps the invariant of the
feeds. -/
theorem crun_inv (ls : List Label) (s : Sys) (hI : SysInv s) (hm : matchedRun s ls = true) :
    SysInv (crun s ls) := by
  induction ls generalizing s with
  | nil => exact hI
  | cons l ls ih =>
    simp only [crun]
    simp only [matchedRun] at hm
    cases hstep : cstep s l with
    | none =>
      rw [hstep] at hm
      exact ih s hI hm
    | some s1 =>
      rw [hstep] at hm
      simp only [Bool.and_eq_true] at hm
      exact ih s1 (cstep_inv s s1 l hI hstep hm.1) hm.2

/-- Every schedule whose `Release` calls are matched and apart from the
broker keeps the invariant of the broker. -/
theorem crun_calm (ls : List Label) (s : Sys) (hI : SysInv s) (hC : SysCalm s)
    (hm : matchedRun s ls = true) (ha : apartRun s ls = true) :
    SysCalm (crun s ls) := by
  induction ls generalizing s with
  | nil => exact hC
  | cons l ls ih =>
    simp only [crun]
    simp only [matchedRun] at hm
    simp only [apartRun] at ha
    cases hstep : cstep s l with
    | none =>
      rw [hstep] at hm ha
      exact ih s hI hC hm ha
    | some s1 =>
      rw [hstep] at hm ha
      simp only [Bool.and_eq_true] at hm ha
      exact ih s1 (cstep_inv s s1 l hI hstep hm.1)
        (cstep_calm s s1 l hI hC hstep hm.1 ha.1) hm.2 ha.2

theorem SysInv_init : SysInv Sys.init := by
  refine ⟨⟨Inv_new, ?_, ?_, ?_, ?_⟩, Or.inl rfl⟩ <;> simp [Sys.init]

theorem SysCalm_init : SysCalm Sys.init := by
  refine ⟨⟨?_, ?_, ?_⟩, rfl⟩ <;>
    simp [Sys.init, BrokerPC.remaining, BrokerPC.locks,
      GomibakoRepository.NewGomibakoRepository]

/-! ## C4 -/

/-- C4 (amended): in every state reached from the empty repository by any
interleaving of the steps of `AddGomibako`, `AddRequest`, `GetWithCh`,
`Truncate`, the broker and `Release` calls whose key is unknown or whose
feed is registered on the inbox of that key when `Release` removes it: no
`close` has panicked (the only panic possible is a send on a closed
channel), no channel has been closed twice, and no closed channel is a
member of the feed set of an inbox in the registry.  When, besides, no
`Release` names a channel that the broker has yet to send to, no call has
panicked at all: no request was sent to a closed feed. -/
theorem C4_matched_releases_close_once (ls : List Label)
    (hm : matchedRun Sys.init ls = true) :
    ((crun Sys.init ls).crashed = none ∨
      (crun Sys.init ls).crashed = some "send on closed channel") ∧
    (crun Sys.init ls).gr.closeLog.Nodup ∧
    (∀ k g c, Registry.lookup (crun Sys.init ls).gr.gomibakos k = some g →
      c ∈ (crun Sys.init ls).gr.closeLog → c ∉ g.chs) ∧
    (apartRun Sys.init ls = true → (crun Sys.init ls).crashed = none) := by
  have hI := crun_inv ls Sys.init SysInv_init hm
  refine ⟨hI.2, hI.1.feeds.closedOnce,
    fun k g c hg hc hmem => hI.1.feeds.feedsOpen k g hg c hmem hc, ?_⟩
  intro ha
  exact (crun_calm ls Sys.init SysInv_init SysCalm_init hm ha).2

/-- C4_matched_releases_close_once at a concrete schedule with three
subscriptions, three deliveries, two releases and a sweep, every `Release`
matched and apart from the broker: channels 0, 1 and 2 are closed once each
and nothing panics. -/
theorem C4_matched_releases_close_once_witness :
    matchedRun Sys.init tidyRun = true ∧ apartRun Sys.init tidyRun = true ∧
    (crun Sys.init tidyRun).gr.closeLog = [0, 1, 2] ∧
    ((crun Sys.init tidyRun).crashed = none ∨
      (crun Sys.init tidyRun).crashed = some "send on closed channel") ∧
    (crun Sys.init tidyRun).gr.closeLog.Nodup ∧
    (∀ k g c, Registry.lookup (crun Sys.init tidyRun).gr.gomibakos k = some g →
      c ∈ (crun Sys.init tidyRun).gr.closeLog → c ∉ g.chs) ∧
    (apartRun Sys.init tidyRun = true → (crun Sys.init tidyRun).crashed = none) :=
  ⟨by decide, by decide, by decide, C4_matched_releases_close_once tidyRun (by decide)⟩

/-- C4 fails as stated: after `GetWithCh("a")` has returned feed 0,
`Release("b", 0)` returns nil and closes the feed, which stays in the feed
set of "a"; the next broker delivery for "a" panics sending on it, and a
second `Release("a", 0)` from that state panics closing it.  A matched
`Release` is not enough for the sends either: in `raceRun` the broker has
read the feed set of "a", `Release("a", 0)` then removes and closes feed 0,
and the broker's send panics. -/
theorem C4_release_through_other_key :
    (exec GomibakoRepository.NewGomibakoRepository staleFeedRun).isRet = true ∧
    0 ∈ staleFeedRepo.closeLog ∧
    (Registry.lookup staleFeedRepo.gomibakos "a").map (fun (g : Gomibako) => g.chs) = some [0] ∧
    exec staleFeedRepo [.addRequest (mkReq "a" "x"), .broker]
      = .panic "send on closed channel"
          (exec staleFeedRepo [.addRequest (mkReq "a" "x"), .broker]).state ∧
    (GomibakoRepository.Release staleFeedRepo "a" 0).isPanic = true ∧
    matchedRun Sys.init raceRun = true ∧
    (crun Sys.init raceRun).crashed = some "send on closed channel" := by
  refine ⟨by decide, by decide, by decide, by decide, by decide, by decide, by decide⟩


/-! ## Deliveries to one feed -/

theorem deliveriesOn_append (gr : GomibakoRepository) (ch : Chan)
    (more : List (Chan × GomibakoRequest)) :
    GomibakoRepository.deliveriesOn { gr with delivered := gr.delivered ++ more } ch
      = GomibakoRepository.deliveriesOn gr ch
        ++ (more.filter (fun p => decide (p.1 = ch))).map Prod.snd := by
  simp [GomibakoRepository.deliveriesOn]

theorem fanOut_deliveries_on (r : GomibakoRequest) (ch : Chan) (chs : List Chan)
    (hnd : chs.Nodup) :
    ((chs.map (fun c => (c, r))).filter (fun p => decide (p.1 = ch))).map Prod.snd
      = if ch ∈ chs then [r] else [] := by
  induction chs with
  | nil => simp
  | cons c chs ih =>
    have hnd2 := List.nodup_cons.mp hnd
    by_cases hc : c = ch
    · subst hc
      have hnot : c ∉ chs := hnd2.1
      have := ih hnd2.2
      simp only [hnot, if_false] at this
      simp [List.filter_cons, this]
    · have hc2 : ¬ ch = c := fun e => hc e.symm
      simp only [List.map_cons, List.filter_cons, hc, decide_False, Bool.false_eq_true,
        if_false, List.mem_cons, hc2, false_or]
      exact ih hnd2.2

theorem Registry.mem_of_lookup (m : Registry) (k : GomibakoKey) (g : Gomibako)
    (h : Registry.lookup m k = some g) : (k, g) ∈ m := by
  induction m with
  | nil => simp [Registry.lookup] at h
  | cons p m ih =>
    obtain ⟨k1, g1⟩ := p
    by_cases hk : k1 = k
    · subst hk
      simp only [Registry.lookup, if_true, Option.some.injEq] at h
      subst h
      exact List.mem_cons_self _ _
    · simp only [Registry.lookup, hk, if_false] at h
      exact List.mem_cons_of_mem _ (ih h)

/-- The next channel handle is registered nowhere when no binding of the map
holds it. -/
theorem fresh_of_bindings (gr : GomibakoRepository)
    (h : ∀ p ∈ gr.gomibakos, gr.nextCh ∉ p.2.chs) :
    ∀ k2 g2, Registry.lookup gr.gomibakos k2 = some g2 → gr.nextCh ∉ g2.chs :=
  fun k2 g2 h2 => h (k2, g2) (Registry.mem_of_lookup _ _ _ h2)

theorem FeedBound.mono {s : Sys} {k : GomibakoKey} {ch : Chan}
    {base pool : List GomibakoRequest} (h : FeedBound s k ch base pool)
    (more : List GomibakoRequest) : FeedBound s k ch base (pool ++ more) := by
  obtain ⟨new, hnew, hin⟩ := h.sent
  exact ⟨h.only, h.made, fun r hr => List.mem_append_left _ (h.pendingIn r hr),
    fun r rem hpc hc => ⟨(h.sendingIn r rem hpc hc).1,
      List.mem_append_left _ (h.sendingIn r rem hpc hc).2⟩,
    new, hnew, fun R hR => ⟨(hin R hR).1, List.mem_append_left _ (hin R hR).2⟩⟩

theorem Sys.mem_pending (s : Sys) (r : GomibakoRequest) :
    r ∈ s.pending ↔ r ∈ s.pc.unread ∨ r ∈ s.gr.broker ∨ s.writer = some r := by
  unfold Sys.pending
  cases hw : s.writer with
  | none => simp
  | some w =>
    simp only [Option.toList, List.mem_append, List.mem_singleton, Option.some.injEq, or_assoc]
    constructor
    · rintro (h | h | h)
      · exact Or.inl h
      · exact Or.inr (Or.inl h)
      · exact Or.inr (Or.inr h.symm)
    · rintro (h | h | h)
      · exact Or.inl h
      · exact Or.inr (Or.inl h)
      · exact Or.inr (Or.inr h.symm)

theorem deliveriesOn_send (gr : GomibakoRepository) (c ch : Chan) (r : GomibakoRequest) :
    GomibakoRepository.deliveriesOn { gr with delivered := gr.delivered ++ [(c, r)] } ch
      = GomibakoRepository.deliveriesOn gr ch ++ (if c = ch then [r] else []) := by
  rw [deliveriesOn_append]
  by_cases h : c = ch <;> simp [List.filter_cons, h]

/-- One step of an `AddRequest`, a `GetWithCh` or the broker keeps the bound
on what the feed `ch` is sent, the request it ingests added to the pool. -/
theorem cstep_bound (s s1 : Sys) (l : Label) (k : GomibakoKey) (ch : Chan)
    (base pool : List GomibakoRequest) (hB : FeedBound s k ch base pool)
    (hl : l.isFeedStep = true) (hstep : cstep s l = some s1) :
    FeedBound s1 k ch base (pool ++ ingestedBy s l) := by
  have hc := cstep_not_crashed hstep
  have hstep0 := hstep
  simp only [cstep, hc] at hstep
  cases l with
  | addGomibako rand now => simp [Label.isFeedStep] at hl
  | release key c => simp [Label.isFeedStep] at hl
  | releaseEnd c => simp [Label.isFeedStep] at hl
  | truncate now => simp [Label.isFeedStep] at hl
  | addRequest greq =>
    simp only [Sys.addRequest] at hstep
    split at hstep
    · rename_i hw
      rcases AddRequest_cases s.gr greq with ⟨hnone, h1⟩ | ⟨g, hg, _, h1⟩ | ⟨g, hg, _, h1⟩
      · rw [h1] at hstep
        simp only [Option.some.injEq] at hstep
        subst hstep
        exact hB.mono _
      · rw [h1] at hstep
        simp only [Option.some.injEq] at hstep
        subst hstep
        have hing : ingestedBy s (.addRequest greq) = [greq] := by
          simp only [ingestedBy, hstep0, hg]
        rw [hing]
        obtain ⟨new, hnew, hin⟩ := hB.sent
        refine ⟨?_, hB.made, ?_, ?_, new, hnew, ?_⟩
        · intro k2 g2 h2 hmem
          rcases Registry.lookup_store_cases _ _ _ _ _ h2 with ⟨e1, e2⟩ | ⟨_, e2⟩
          · subst e1 e2
            rw [Gomibako.addRequest_chs] at hmem
            exact hB.only _ g hg hmem
          · exact hB.only k2 g2 e2 hmem
        · intro r hr
          rw [Sys.mem_pending] at hr
          have hold := hB.pendingIn r
          rw [Sys.mem_pending] at hold
          rcases hr with h3 | h3 | h3
          · exact List.mem_append_left _ (hold (Or.inl h3))
          · have h4 : r ∈ s.gr.broker ++ [greq] := h3
            simp only [List.mem_append, List.mem_singleton] at h4
            rcases h4 with h5 | h5
            · exact List.mem_append_left _ (hold (Or.inr (Or.inl h5)))
            · subst h5
              simp
          · exact List.mem_append_left _ (hold (Or.inr (Or.inr h3)))
        · intro r rem hpc hcm
          exact ⟨(hB.sendingIn r rem hpc hcm).1,
            List.mem_append_left _ (hB.sendingIn r rem hpc hcm).2⟩
        · intro R hR
          exact ⟨(hin R hR).1, List.mem_append_left _ (hin R hR).2⟩
      · rw [h1] at hstep
        simp only [Option.some.injEq] at hstep
        subst hstep
        have hing : ingestedBy s (.addRequest greq) = [greq] := by
          simp only [ingestedBy, hstep0, hg]
        rw [hing]
        obtain ⟨new, hnew, hin⟩ := hB.sent
        refine ⟨?_, hB.made, ?_, ?_, new, hnew, ?_⟩
        · intro k2 g2 h2 hmem
          rcases Registry.lookup_store_cases _ _ _ _ _ h2 with ⟨e1, e2⟩ | ⟨_, e2⟩
          · subst e1 e2
            rw [Gomibako.addRequest_chs] at hmem
            exact hB.only _ g hg hmem
          · exact hB.only k2 g2 e2 hmem
        · intro r hr
          rw [Sys.mem_pending] at hr
          have hold := hB.pendingIn r
          rw [Sys.mem_pending] at hold
          rcases hr with h3 | h3 | h3
          · exact List.mem_append_left _ (hold (Or.inl h3))
          · exact List.mem_append_left _ (hold (Or.inr (Or.inl h3)))
          · have h4 : some greq = some r := h3
            simp only [Option.some.injEq] at h4
            subst h4
            simp
        · intro r rem hpc hcm
          exact ⟨(hB.sendingIn r rem hpc hcm).1,
            List.mem_append_left _ (hB.sendingIn r rem hpc hcm).2⟩
        · intro R hR
          exact ⟨(hin R hR).1, List.mem_append_left _ (hin R hR).2⟩
    · simp at hstep
  | sendDone =>
    simp only [Sys.sendDone] at hstep
    cases hw : s.writer with
    | none =>
      rw [hw] at hstep
      simp at hstep
    | some w =>
      rw [hw] at hstep
      simp only at hstep
      split at hstep
      · simp only [Option.some.injEq] at hstep
        subst hstep
        refine (show FeedBound _ k ch base pool from ?_).mono _
        obtain ⟨new, hnew, hin⟩ := hB.sent
        refine ⟨hB.only, hB.made, ?_, hB.sendingIn, new, hnew, hin⟩
        intro r hr
        rw [Sys.mem_pending] at hr
        have hold := hB.pendingIn r
        rw [Sys.mem_pending] at hold
        rcases hr with h3 | h3 | h3
        · exact hold (Or.inl h3)
        · have h4 : r ∈ s.gr.broker ++ [w] := h3
          simp only [List.mem_append, List.mem_singleton] at h4
          rcases h4 with h5 | h5
          · exact hold (Or.inr (Or.inl h5))
          · subst h5
            exact hold (Or.inr (Or.inr hw))
        · cases h3
      · simp at hstep
  | getBegin key =>
    have hR : s.gr.RLock.gomibakos = s.gr.gomibakos := rfl
    simp only [Sys.getBegin, GomibakoRepository.Get, hR,
      GomibakoRepository.RLock_RUnlock] at hstep
    split at hstep
    · cases hlk : Registry.lookup s.gr.gomibakos key with
      | none =>
        rw [hlk] at hstep
        simp only [Option.some.injEq] at hstep
        subst hstep
        exact hB.mono _
      | some g =>
        rw [hlk] at hstep
        simp only [Option.some.injEq] at hstep
        subst hstep
        refine (show FeedBound _ k ch base pool from ?_).mono _
        exact ⟨hB.only, hB.made, hB.pendingIn, hB.sendingIn, hB.sent⟩
    · simp at hstep
  | getEnd i =>
    simp only [Sys.getEnd] at hstep
    cases he : s.subscribing[i]? with
    | none =>
      rw [he] at hstep
      simp at hstep
    | some e =>
      obtain ⟨key, live⟩ := e
      rw [he] at hstep
      simp only [Option.some.injEq] at hstep
      subst hstep
      refine (show FeedBound _ k ch base pool from ?_).mono _
      refine ⟨?_, Nat.lt_succ_of_lt hB.made, hB.pendingIn, hB.sendingIn, hB.sent⟩
      intro k2 g2 h2 hmem
      cases live with
      | false => exact hB.only k2 g2 h2 hmem
      | true =>
        cases hlk : Registry.lookup s.gr.gomibakos key with
        | none =>
          have h3 : Registry.lookup s.gr.gomibakos k2 = some g2 := by
            simpa [hlk] using h2
          exact hB.only k2 g2 h3 hmem
        | some g =>
          have h3 : Registry.lookup
              (Registry.store s.gr.gomibakos key (g.addCh s.gr.nextCh)) k2 = some g2 := by
            simpa [hlk] using h2
          rcases Registry.lookup_store_cases _ _ _ _ _ h3 with ⟨e1, e2⟩ | ⟨_, e2⟩
          · subst e1 e2
            rcases (Gomibako.mem_addCh _ _ _).mp hmem with h4 | h4
            · exact hB.only _ g hlk h4
            · exact absurd hB.made (by rw [h4]; exact Nat.lt_irrefl _)
          · exact hB.only k2 g2 e2 hmem
  | broker =>
    simp only [Sys.broker] at hstep
    refine (show FeedBound _ k ch base pool from ?_).mono _
    cases hpc : s.pc with
    | idle =>
      rw [hpc] at hstep
      simp only at hstep
      cases hb : s.gr.broker with
      | nil =>
        rw [hb] at hstep
        simp at hstep
      | cons r q =>
        rw [hb] at hstep
        simp only [Option.some.injEq] at hstep
        subst hstep
        refine ⟨hB.only, hB.made, ?_, ?_, hB.sent⟩
        · intro r2 hr
          rw [Sys.mem_pending] at hr
          have hold := hB.pendingIn r2
          rw [Sys.mem_pending, hb] at hold
          rcases hr with h3 | h3 | h3
          · have h4 : r2 = r := by simpa [BrokerPC.unread] using h3
            subst h4
            exact hold (Or.inr (Or.inl (List.mem_cons_self _ _)))
          · exact hold (Or.inr (Or.inl (List.mem_cons_of_mem _ h3)))
          · exact hold (Or.inr (Or.inr h3))
        · intro r2 rem h5
          cases h5
    | holding r =>
      rw [hpc] at hstep
      have hR : s.gr.RLock.gomibakos = s.gr.gomibakos := rfl
      simp only [hR] at hstep
      have hrin : r ∈ pool := by
        refine hB.pendingIn r ?_
        rw [Sys.mem_pending, hpc]
        exact Or.inl (by simp [BrokerPC.unread])
      have hrest : ∀ r2, r2 ∈ s.gr.broker ∨ s.writer = some r2 → r2 ∈ pool := by
        intro r2 h3
        refine hB.pendingIn r2 ?_
        rw [Sys.mem_pending]
        exact Or.inr h3
      split at hstep
      · cases hlk : Registry.lookup s.gr.gomibakos r.Key with
        | none =>
          rw [hlk] at hstep
          simp only [Option.some.injEq] at hstep
          subst hstep
          refine ⟨hB.only, hB.made, ?_, ?_, hB.sent⟩
          · intro r2 hr
            rw [Sys.mem_pending] at hr
            rcases hr with h3 | h3 | h3
            · simp [BrokerPC.unread] at h3
            · exact hrest r2 (Or.inl h3)
            · exact hrest r2 (Or.inr h3)
          · intro r2 rem h5
            cases h5
        | some g =>
          rw [hlk] at hstep
          simp only [Option.some.injEq] at hstep
          subst hstep
          refine ⟨hB.only, hB.made, ?_, ?_, hB.sent⟩
          · intro r2 hr
            rw [Sys.mem_pending] at hr
            rcases hr with h3 | h3 | h3
            · simp [BrokerPC.unread] at h3
            · exact hrest r2 (Or.inl h3)
            · exact hrest r2 (Or.inr h3)
          · intro r2 rem h5 hcm
            simp only [BrokerPC.sending.injEq] at h5
            obtain ⟨e1, e2⟩ := h5
            subst e1 e2
            rw [Gomibako.channels_eq, List.mem_dedup] at hcm
            exact ⟨hB.only _ g hlk hcm, hrin⟩
      · simp at hstep
    | sending r chs =>
      rw [hpc] at hstep
      have hpend : ∀ (t : Sys), t.pc.unread = [] → t.gr.broker = s.gr.broker →
          t.writer = s.writer → ∀ r2 ∈ t.pending, r2 ∈ pool := by
        intro t h1 h2 h3 r2 hr
        rw [Sys.mem_pending, h1, h2, h3] at hr
        refine hB.pendingIn r2 ?_
        rw [Sys.mem_pending]
        rcases hr with h4 | h4 | h4
        · simp at h4
        · exact Or.inr (Or.inl h4)
        · exact Or.inr (Or.inr h4)
      cases chs with
      | nil =>
        simp only [Option.some.injEq] at hstep
        subst hstep
        refine ⟨hB.only, hB.made, hpend _ rfl rfl rfl, ?_, hB.sent⟩
        intro r2 rem h5
        cases h5
      | cons c cs =>
        simp only [GomibakoRepository.send] at hstep
        by_cases hcl : c ∈ s.gr.closeLog
        · simp only [hcl, if_true, Option.some.injEq] at hstep
          subst hstep
          refine ⟨hB.only, hB.made, hpend _ rfl rfl rfl, ?_, hB.sent⟩
          intro r2 rem h5 hcm
          simp only [BrokerPC.sending.injEq] at h5
          obtain ⟨e1, e2⟩ := h5
          subst e1 e2
          exact hB.sendingIn _ _ hpc hcm
        · simp only [hcl, if_false, Option.some.injEq] at hstep
          subst hstep
          obtain ⟨new, hnew, hin⟩ := hB.sent
          refine ⟨hB.only, hB.made, hpend _ rfl rfl rfl, ?_, ?_⟩
          · intro r2 rem h5 hcm
            simp only [BrokerPC.sending.injEq] at h5
            obtain ⟨e1, e2⟩ := h5
            subst e1 e2
            exact hB.sendingIn _ (c :: _) hpc (List.mem_cons_of_mem _ hcm)
          · by_cases hcc : c = ch
            · refine ⟨new ++ [r], ?_, ?_⟩
              · show GomibakoRepository.deliveriesOn
                    { s.gr with delivered := s.gr.delivered ++ [(c, r)] } ch = _
                rw [deliveriesOn_send, hnew]
                simp [hcc]
              · intro R hR
                simp only [List.mem_append, List.mem_singleton] at hR
                rcases hR with h6 | h6
                · exact hin R h6
                · subst h6
                  exact hB.sendingIn R (c :: cs) hpc (by rw [hcc]; exact List.mem_cons_self _ _)
            · refine ⟨new, ?_, hin⟩
              show GomibakoRepository.deliveriesOn
                  { s.gr with delivered := s.gr.delivered ++ [(c, r)] } ch = _
              rw [deliveriesOn_send, hnew]
              simp [hcc]

/-- A schedule of `AddRequest`, `GetWithCh` and broker steps keeps the bound
on what the feed `ch` is sent, the requests it ingests added to the pool. -/
theorem crun_bound (ls : List Label) (s : Sys) (k : GomibakoKey) (ch : Chan)
    (base pool : List GomibakoRequest) (hB : FeedBound s k ch base pool)
    (hls : ∀ l ∈ ls, l.isFeedStep = true) :
    FeedBound (crun s ls) k ch base (pool ++ ingested s ls) := by
  induction ls generalizing s pool with
  | nil => simpa [crun, ingested] using hB
  | cons l ls ih =>
    simp only [crun, ingested]
    cases hstep : cstep s l with
    | none =>
      exact ih s pool hB (fun l2 h2 => hls l2 (List.mem_cons_of_mem _ h2))
    | some s1 =>
      have h1 := cstep_bound s s1 l k ch base pool hB (hls l (List.mem_cons_self _ _)) hstep
      have h2 := ih s1 _ h1 (fun l2 h2 => hls l2 (List.mem_cons_of_mem _ h2))
      simpa [List.append_assoc] using h2

/-- The next channel is new when no binding of the map holds it, the broker
is not about to send to it and it is not in the close log. -/
theorem nextChNew_of_bindings (s : Sys)
    (h1 : ∀ p ∈ s.gr.gomibakos, s.gr.nextCh ∉ p.2.chs)
    (h2 : s.gr.nextCh ∉ s.pc.remaining) (h3 : s.gr.nextCh ∉ s.gr.closeLog) :
    s.NextChNew :=
  ⟨fresh_of_bindings s.gr h1, h2, h3⟩

/-- Second step of `GetWithCh` with a new channel: the bound holds to start
with, nothing sent beyond what the channel had and the pool the pending
requests. -/
theorem getEnd_bound (s0 s1 : Sys) (i : Nat) (k : GomibakoKey) (live : Bool)
    (hentry : s0.subscribing[i]? = some (k, live))
    (hstep : cstep s0 (.getEnd i) = some s1) (hnew : s0.NextChNew) :
    FeedBound s1 k s0.gr.nextCh (s0.gr.deliveriesOn s0.gr.nextCh) s0.pending ∧
    s1.gr.delivered = s0.gr.delivered := by
  have hc := cstep_not_crashed hstep
  simp only [cstep, hc, Sys.getEnd, hentry, Option.some.injEq] at hstep
  subst hstep
  obtain ⟨hreg, hrem, _⟩ := hnew
  refine ⟨⟨?_, Nat.lt_succ_self _, fun r hr => hr, ?_, [], by simp [GomibakoRepository.deliveriesOn],
    by simp⟩, rfl⟩
  · intro k2 g2 h2 hmem
    cases live with
    | false => exact absurd hmem (hreg k2 g2 h2)
    | true =>
      cases hlk : Registry.lookup s0.gr.gomibakos k with
      | none =>
        have h3 : Registry.lookup s0.gr.gomibakos k2 = some g2 := by
          simpa [hlk] using h2
        exact absurd hmem (hreg k2 g2 h3)
      | some g =>
        have h3 : Registry.lookup
            (Registry.store s0.gr.gomibakos k (g.addCh s0.gr.nextCh)) k2 = some g2 := by
          simpa [hlk] using h2
        rcases Registry.lookup_store_cases _ _ _ _ _ h3 with ⟨e1, _⟩ | ⟨_, e2⟩
        · exact e1
        · exact absurd hmem (hreg k2 g2 e2)
  · intro r rem hpc hcm
    have h4 : s0.pc = .sending r rem := hpc
    rw [h4] at hrem
    exact absurd hcm hrem

theorem forKey_append (k : GomibakoKey) (xs ys : List GomibakoRequest) :
    forKey k (xs ++ ys) = forKey k xs ++ forKey k ys := by
  simp [forKey]

theorem forKey_single_eq (k : GomibakoKey) (r : GomibakoRequest) (h : r.Key = k) :
    forKey k [r] = [r] := by
  simp [forKey, h]

theorem forKey_single_ne (k : GomibakoKey) (r : GomibakoRequest) (h : r.Key ≠ k) :
    forKey k [r] = [] := by
  simp [forKey, h]

theorem Sys.owed_eq (s : Sys) (k : GomibakoKey) (ch : Chan) :
    s.owed k ch =
      (match s.pc with
        | .sending newGreq chs => if ch ∈ chs then [newGreq] else []
        | _ => []) ++
      (forKey k s.pc.unread ++ forKey k s.gr.broker ++ forKey k s.writer.toList) := by
  simp [Sys.owed, Sys.pending, forKey_append]

/-- One step of an `AddRequest` or of the broker, seen from the feed `ch` of
inbox `k` while no feed is closed: the step keeps that condition, and the
requests sent to `ch` followed by those it is still owed grow by exactly
the request for `k` the step ingests. -/
theorem cstep_flow (s s1 : Sys) (l : Label) (k : GomibakoKey) (ch : Chan)
    (hF : FeedFlow s k ch) (hl : l.isIngestOrDeliver = true)
    (hstep : cstep s l = some s1) :
    FeedFlow s1 k ch ∧
    s1.gr.deliveriesOn ch ++ s1.owed k ch
      = s.gr.deliveriesOn ch ++ s.owed k ch ++ forKey k (ingestedBy s l) := by
  have hc := cstep_not_crashed hstep
  have hstep0 := hstep
  obtain ⟨⟨gk, hgk, hchk⟩, honly, ⟨hopen, hremopen, _⟩, hsend⟩ := hF
  simp only [cstep, hc] at hstep
  cases l with
  | addGomibako rand now => simp [Label.isIngestOrDeliver] at hl
  | getBegin key => simp [Label.isIngestOrDeliver] at hl
  | getEnd i => simp [Label.isIngestOrDeliver] at hl
  | release key c => simp [Label.isIngestOrDeliver] at hl
  | releaseEnd c => simp [Label.isIngestOrDeliver] at hl
  | truncate now => simp [Label.isIngestOrDeliver] at hl
  | addRequest greq =>
    simp only [Sys.addRequest] at hstep
    split at hstep
    · rename_i hw
      have hflow : ∀ (g : Gomibako) (t : Sys),
          Registry.lookup s.gr.gomibakos greq.Key = some g →
          t.gr.gomibakos = Registry.store s.gr.gomibakos greq.Key (g.addRequest greq) →
          t.gr.closeLog = s.gr.closeLog → t.pc = s.pc → t.crashed = none →
          FeedFlow t k ch := by
        intro g t hg hm hcl hpc hcr
        refine ⟨?_, ?_, ⟨?_, ?_, hcr⟩, ?_⟩
        · by_cases hkk : k = greq.Key
          · subst hkk
            rw [hgk] at hg
            cases hg
            exact ⟨_, by rw [hm]; exact Registry.lookup_store_self _ _ _,
              by rw [Gomibako.addRequest_chs]; exact hchk⟩
          · exact ⟨gk, by rw [hm, Registry.lookup_store_ne _ _ _ _ hkk]; exact hgk, hchk⟩
        · intro k2 g2 h2 hmem
          rw [hm] at h2
          rcases Registry.lookup_store_cases _ _ _ _ _ h2 with ⟨e1, e2⟩ | ⟨_, e2⟩
          · subst e1 e2
            rw [Gomibako.addRequest_chs] at hmem
            exact honly _ g hg hmem
          · exact honly k2 g2 e2 hmem
        · intro k2 g2 h2 c hcm
          rw [hm] at h2
          rw [hcl]
          rcases Registry.lookup_store_cases _ _ _ _ _ h2 with ⟨e1, e2⟩ | ⟨_, e2⟩
          · subst e1 e2
            rw [Gomibako.addRequest_chs] at hcm
            exact hopen _ g hg c hcm
          · exact hopen k2 g2 e2 c hcm
        · intro c hcm
          rw [hpc] at hcm
          rw [hcl]
          exact hremopen c hcm
        · intro r rem h5 hcm
          rw [hpc] at h5
          exact hsend r rem h5 hcm
      rcases AddRequest_cases s.gr greq with ⟨hnone, h1⟩ | ⟨g, hg, _, h1⟩ | ⟨g, hg, _, h1⟩
      · rw [h1] at hstep
        simp only [Option.some.injEq] at hstep
        subst hstep
        have hing : ingestedBy s (.addRequest greq) = [] := by
          simp only [ingestedBy, hstep0, hnone]
        rw [hing]
        exact ⟨⟨⟨gk, hgk, hchk⟩, honly, ⟨hopen, hremopen, hc⟩, hsend⟩, by simp [forKey]⟩
      · rw [h1] at hstep
        simp only [Option.some.injEq] at hstep
        subst hstep
        have hing : ingestedBy s (.addRequest greq) = [greq] := by
          simp only [ingestedBy, hstep0, hg]
        rw [hing]
        refine ⟨hflow g _ hg rfl rfl rfl hc, ?_⟩
        rw [Sys.owed_eq, Sys.owed_eq]
        simp only [hw.1, Option.toList, forKey_append, GomibakoRepository.deliveriesOn]
        simp [forKey, List.append_assoc]
      · rw [h1] at hstep
        simp only [Option.some.injEq] at hstep
        subst hstep
        have hing : ingestedBy s (.addRequest greq) = [greq] := by
          simp only [ingestedBy, hstep0, hg]
        rw [hing]
        refine ⟨hflow g _ hg rfl rfl rfl hc, ?_⟩
        rw [Sys.owed_eq, Sys.owed_eq]
        simp only [hw.1, Option.toList, forKey_append, GomibakoRepository.deliveriesOn]
        simp [forKey, List.append_assoc]
    · simp at hstep
  | sendDone =>
    simp only [Sys.sendDone] at hstep
    cases hw : s.writer with
    | none =>
      rw [hw] at hstep
      simp at hstep
    | some w =>
      rw [hw] at hstep
      simp only at hstep
      split at hstep
      · simp only [Option.some.injEq] at hstep
        subst hstep
        refine ⟨⟨⟨gk, hgk, hchk⟩, honly, ⟨hopen, hremopen, hc⟩, hsend⟩, ?_⟩
        rw [Sys.owed_eq, Sys.owed_eq]
        simp only [hw, Option.toList, forKey_append, GomibakoRepository.deliveriesOn,
          ingestedBy]
        simp [forKey, List.append_assoc]
      · simp at hstep
  | broker =>
    simp only [Sys.broker] at hstep
    have hing : ingestedBy s .broker = [] := rfl
    rw [hing]
    cases hpc : s.pc with
    | idle =>
      rw [hpc] at hstep
      simp only at hstep
      cases hb : s.gr.broker with
      | nil =>
        rw [hb] at hstep
        simp at hstep
      | cons r q =>
        rw [hb] at hstep
        simp only [Option.some.injEq] at hstep
        subst hstep
        refine ⟨⟨⟨gk, hgk, hchk⟩, honly, ⟨hopen, ?_, hc⟩, ?_⟩, ?_⟩
        · intro c hcm
          simp [BrokerPC.remaining] at hcm
        · intro r2 rem h5
          cases h5
        · rw [Sys.owed_eq, Sys.owed_eq]
          simp only [hpc, hb, BrokerPC.unread, GomibakoRepository.deliveriesOn]
          simp [forKey, List.filter_cons]
          split <;> simp
    | holding r =>
      rw [hpc] at hstep
      have hR : s.gr.RLock.gomibakos = s.gr.gomibakos := rfl
      simp only [hR] at hstep
      split at hstep
      · rename_i hw
        cases hlk : Registry.lookup s.gr.gomibakos r.Key with
        | none =>
          rw [hlk] at hstep
          simp only [Option.some.injEq] at hstep
          subst hstep
          have hne : r.Key ≠ k := by
            intro e
            rw [e, hgk] at hlk
            cases hlk
          refine ⟨⟨⟨gk, hgk, hchk⟩, honly, ⟨hopen, ?_, hc⟩, ?_⟩, ?_⟩
          · intro c hcm
            simp [BrokerPC.remaining] at hcm
          · intro r2 rem h5
            cases h5
          · rw [Sys.owed_eq, Sys.owed_eq]
            simp only [hpc, BrokerPC.unread, GomibakoRepository.deliveriesOn,
              GomibakoRepository.RLock, forKey_single_ne k r hne]
            simp [forKey]
        | some g =>
          rw [hlk] at hstep
          simp only [Option.some.injEq] at hstep
          subst hstep
          have hmem : ∀ c, c ∈ g.channels ↔ c ∈ g.chs := by
            intro c
            rw [Gomibako.channels_eq, List.mem_dedup]
          refine ⟨⟨⟨gk, hgk, hchk⟩, honly, ⟨hopen, ?_, hc⟩, ?_⟩, ?_⟩
          · intro c hcm
            exact hopen r.Key g hlk c ((hmem c).mp hcm)
          · intro r2 rem h5 hcm
            simp only [BrokerPC.sending.injEq] at h5
            obtain ⟨e1, e2⟩ := h5
            subst e1 e2
            refine ⟨honly _ g hlk ((hmem ch).mp hcm), ?_⟩
            rw [Gomibako.channels_eq]
            exact List.nodup_dedup _
          · rw [Sys.owed_eq, Sys.owed_eq]
            by_cases hkk : r.Key = k
            · have hgg : g = gk := by
                rw [hkk, hgk] at hlk
                exact (Option.some.inj hlk).symm
              have hin : ch ∈ g.channels := (hmem ch).mpr (hgg ▸ hchk)
              simp only [hpc, BrokerPC.unread, GomibakoRepository.deliveriesOn,
                GomibakoRepository.RLock, forKey_single_eq k r hkk, hin, if_true]
              simp [forKey]
            · have hnotin : ch ∉ g.channels := fun h6 => hkk (honly _ g hlk ((hmem ch).mp h6))
              simp only [hpc, BrokerPC.unread, GomibakoRepository.deliveriesOn,
                GomibakoRepository.RLock, forKey_single_ne k r hkk, hnotin, if_false]
              simp [forKey]
      · simp at hstep
    | sending r chs =>
      rw [hpc] at hstep
      cases chs with
      | nil =>
        simp only [Option.some.injEq] at hstep
        subst hstep
        refine ⟨⟨⟨gk, hgk, hchk⟩, honly, ⟨hopen, ?_, hc⟩, ?_⟩, ?_⟩
        · intro c hcm
          simp [BrokerPC.remaining] at hcm
        · intro r2 rem h5
          cases h5
        · rw [Sys.owed_eq, Sys.owed_eq]
          simp only [hpc, BrokerPC.unread, GomibakoRepository.deliveriesOn,
            GomibakoRepository.RUnlock]
          simp [forKey]
      | cons c cs =>
        have hcl : c ∉ s.gr.closeLog := hremopen c (by rw [hpc]; simp [BrokerPC.remaining])
        simp only [GomibakoRepository.send, hcl, if_false, Option.some.injEq] at hstep
        subst hstep
        have hold := hsend r (c :: cs) hpc
        refine ⟨⟨⟨gk, hgk, hchk⟩, honly, ⟨hopen, ?_, hc⟩, ?_⟩, ?_⟩
        · intro d hd
          exact hremopen d (by
            rw [hpc]
            exact List.mem_cons_of_mem _ hd)
        · intro r2 rem h5 hcm
          simp only [BrokerPC.sending.injEq] at h5
          obtain ⟨e1, e2⟩ := h5
          subst e1 e2
          have h7 := hold (List.mem_cons_of_mem _ hcm)
          exact ⟨h7.1, (List.nodup_cons.mp h7.2).2⟩
        · rw [Sys.owed_eq, Sys.owed_eq]
          show GomibakoRepository.deliveriesOn
              { s.gr with delivered := s.gr.delivered ++ [(c, r)] } ch ++ _ = _
          rw [deliveriesOn_send]
          by_cases hcc : c = ch
          · have h7 := hold (by rw [hcc]; exact List.mem_cons_self _ _)
            have hnot : ch ∉ cs := by
              rw [hcc] at h7
              exact (List.nodup_cons.mp h7.2).1
            simp only [hpc, hcc, if_true, hnot, if_false, List.mem_cons, true_or,
              BrokerPC.unread]
            simp [forKey]
          · have hcc2 : ¬ ch = c := fun e => hcc e.symm
            simp only [hpc, hcc, if_false, List.mem_cons, hcc2, false_or, BrokerPC.unread]
            simp [forKey]

/-- The broker can take its next step while no feed is closed, unless it
waits at the receive on an empty queue or for the read lock behind an
`AddRequest` that waits to send. -/
theorem broker_enabled (s : Sys) (k : GomibakoKey) (ch : Chan) (hF : FeedFlow s k ch) :
    (cstep s .broker).isSome = true ∨ (s.pc = .idle ∧ s.gr.broker = []) ∨
    (∃ r, s.pc = .holding r ∧ s.writer ≠ none) := by
  obtain ⟨_, _, ⟨_, hremopen, hc⟩, _⟩ := hF
  simp only [cstep, hc, Sys.broker]
  cases hpc : s.pc with
  | idle =>
    cases hb : s.gr.broker with
    | nil => exact Or.inr (Or.inl ⟨rfl, rfl⟩)
    | cons r q => exact Or.inl (by simp)
  | holding r =>
    by_cases hw : s.writer = none
    · refine Or.inl ?_
      simp only [hw, if_true]
      cases Registry.lookup s.gr.RLock.gomibakos r.Key <;> simp
    · exact Or.inr (Or.inr ⟨r, rfl, hw⟩)
  | sending r chs =>
    refine Or.inl ?_
    cases chs with
    | nil => simp
    | cons c cs =>
      have hcl : c ∉ s.gr.closeLog := hremopen c (by rw [hpc]; simp [BrokerPC.remaining])
      simp [GomibakoRepository.send, hcl]

/-- A schedule of `AddRequest` and broker steps, seen from the feed `ch` of
inbox `k` while no feed is closed. -/
theorem crun_flow (ls : List Label) (s : Sys) (k : GomibakoKey) (ch : Chan)
    (hF : FeedFlow s k ch) (hls : ∀ l ∈ ls, l.isIngestOrDeliver = true) :
    FeedFlow (crun s ls) k ch ∧
    (crun s ls).gr.deliveriesOn ch ++ (crun s ls).owed k ch
      = s.gr.deliveriesOn ch ++ s.owed k ch ++ forKey k (ingested s ls) := by
  induction ls generalizing s with
  | nil => exact ⟨hF, by simp [crun, ingested, forKey]⟩
  | cons l ls ih =>
    simp only [crun, ingested]
    cases hstep : cstep s l with
    | none => exact ih s hF (fun l2 h2 => hls l2 (List.mem_cons_of_mem _ h2))
    | some s1 =>
      obtain ⟨hF1, heq1⟩ := cstep_flow s s1 l k ch hF (hls l (List.mem_cons_self _ _)) hstep
      obtain ⟨hF2, heq2⟩ := ih s1 hF1 (fun l2 h2 => hls l2 (List.mem_cons_of_mem _ h2))
      refine ⟨hF2, ?_⟩
      simp only
      rw [heq2, heq1, forKey_append]
      simp [List.append_assoc]

/-- No registered feed and no channel the broker is about to send to is
closed when no binding of the map holds a closed channel and the broker's
channels are open. -/
theorem feedsLive_of_bindings (s : Sys)
    (h1 : ∀ p ∈ s.gr.gomibakos, ∀ c ∈ p.2.chs, c ∉ s.gr.closeLog)
    (h2 : ∀ c ∈ s.pc.remaining, c ∉ s.gr.closeLog) (h3 : s.crashed = none) :
    s.FeedsLive :=
  ⟨fun k g hg => h1 (k, g) (Registry.mem_of_lookup _ _ _ hg), h2, h3⟩

/-- Second step of `GetWithCh` on an inbox that is still registered, with a
new channel and no feed closed: the new feed receives from here on. -/
theorem getEnd_flow (s0 s1 : Sys) (i : Nat) (k : GomibakoKey) (g : Gomibako)
    (hentry : s0.subscribing[i]? = some (k, true))
    (hinbox : Registry.lookup s0.gr.gomibakos k = some g)
    (hstep : cstep s0 (.getEnd i) = some s1) (hlive : s0.FeedsLive) (hnew : s0.NextChNew) :
    FeedFlow s1 k s0.gr.nextCh ∧
    s1.gr.deliveriesOn s0.gr.nextCh = s0.gr.deliveriesOn s0.gr.nextCh ∧
    s1.owed k s0.gr.nextCh = forKey k s0.pending := by
  have hc := cstep_not_crashed hstep
  simp only [cstep, hc, Sys.getEnd, hentry, hinbox, Option.some.injEq] at hstep
  subst hstep
  obtain ⟨hreg, hrem, hnotclosed⟩ := hnew
  obtain ⟨hopen, hremopen, _⟩ := hlive
  refine ⟨⟨?_, ?_, ⟨?_, hremopen, rfl⟩, ?_⟩, rfl, ?_⟩
  · exact ⟨_, Registry.lookup_store_self _ _ _, (Gomibako.mem_addCh _ _ _).mpr (Or.inr rfl)⟩
  · intro k2 g2 h2 hmem
    rcases Registry.lookup_store_cases _ _ _ _ _ h2 with ⟨e1, _⟩ | ⟨_, e2⟩
    · exact e1
    · exact absurd hmem (hreg k2 g2 e2)
  · intro k2 g2 h2 c hcm
    rcases Registry.lookup_store_cases _ _ _ _ _ h2 with ⟨e1, e2⟩ | ⟨_, e2⟩
    · subst e1 e2
      rcases (Gomibako.mem_addCh _ _ _).mp hcm with h3 | h3
      · exact hopen _ g hinbox c h3
      · subst h3
        exact hnotclosed
    · exact hopen k2 g2 e2 c hcm
  · intro r rem hpc hcm
    have h4 : s0.pc = .sending r rem := hpc
    rw [h4] at hrem
    exact absurd hcm hrem
  · rw [Sys.owed_eq]
    have h5 : (match s0.pc with
        | .sending newGreq chs => if s0.gr.nextCh ∈ chs then [newGreq] else []
        | _ => []) = [] := by
      cases hpc : s0.pc with
      | idle => rfl
      | holding r => rfl
      | sending r chs =>
        rw [hpc] at hrem
        simp only [BrokerPC.remaining] at hrem
        simp [hrem]
    show (match s0.pc with
        | .sending newGreq chs => if s0.gr.nextCh ∈ chs then [newGreq] else []
        | _ => []) ++ _ = _
    rw [h5]
    simp [Sys.pending, forKey_append]

theorem Sys.owed_of_drained (s : Sys) (k : GomibakoKey) (ch : Chan) (h : s.drained) :
    s.owed k ch = [] := by
  obtain ⟨h1, h2, h3⟩ := h
  rw [Sys.owed_eq, h1, h2, h3]
  simp [BrokerPC.unread, forKey]

/-! ## C7 -/

/-- C7 (amended): in a state in which no feed registered on an inbox and no
channel the broker is about to send to is closed, a `GetWithCh(k)` call
registers the feed `ch`, a new channel, on the inbox of `k`; the steps of
`AddRequest` calls on any inboxes and of the broker follow in any
interleaving, every send being received.  Then no step panics; the requests
sent to `ch` since it was registered, followed by those it is still owed,
are the requests for `k` that were pending when `ch` was registered followed
by the requests ingested into `k` afterwards, in the order of ingestion;
once the broker has drained the queue they have all been sent to `ch`, each
once and in that order, and no request of another inbox; and no feed and no
holder of the lock refuses the broker's next step, unless the broker waits
on an empty queue or for the read lock behind an `AddRequest` that holds the
write lock while it waits to send. -/
theorem C7_feed_receives_ingested (s0 s1 : Sys) (i : Nat) (k : GomibakoKey) (g : Gomibako)
    (ls : List Label)
    (hentry : s0.subscribing[i]? = some (k, true))
    (hinbox : Registry.lookup s0.gr.gomibakos k = some g)
    (hstep : cstep s0 (.getEnd i) = some s1) (hlive : s0.FeedsLive) (hnew : s0.NextChNew)
    (hls : ∀ l ∈ ls, l.isIngestOrDeliver = true) :
    (crun s1 ls).crashed = none ∧
    ((crun s1 ls).gr.deliveriesOn s0.gr.nextCh ++ (crun s1 ls).owed k s0.gr.nextCh
      = s0.gr.deliveriesOn s0.gr.nextCh ++ forKey k s0.pending
        ++ forKey k (ingested s1 ls)) ∧
    ((crun s1 ls).drained →
      (crun s1 ls).gr.deliveriesOn s0.gr.nextCh
        = s0.gr.deliveriesOn s0.gr.nextCh ++ forKey k s0.pending
          ++ forKey k (ingested s1 ls)) ∧
    ((cstep (crun s1 ls) .broker).isSome = true ∨
      ((crun s1 ls).pc = .idle ∧ (crun s1 ls).gr.broker = []) ∨
      (∃ r, (crun s1 ls).pc = .holding r ∧ (crun s1 ls).writer ≠ none)) := by
  obtain ⟨hF, hd, ho⟩ := getEnd_flow s0 s1 i k g hentry hinbox hstep hlive hnew
  obtain ⟨hF2, heq⟩ := crun_flow ls s1 k s0.gr.nextCh hF hls
  rw [hd, ho] at heq
  refine ⟨hF2.live.2.2, heq, ?_, broker_enabled _ k _ hF2⟩
  intro hdr
  rw [Sys.owed_of_drained _ k _ hdr, List.append_nil] at heq
  exact heq

/-- C7_feed_receives_ingested at a concrete schedule: feed 2 is registered on
"bin", next to feed 0, while "w" waits in the queue; "x" and "z" are
ingested into "bin" and "y" into "other"; once the queue is drained feed 2
has been sent "w", "x" and "z", in that order. -/
theorem C7_feed_receives_ingested_witness :
    (crun feedSysFeed feedRun).drained ∧
    (crun feedSysFeed feedRun).gr.deliveriesOn 2
      = [mkReq "bin" "w", mkReq "bin" "x", mkReq "bin" "z"] ∧
    (crun feedSysFeed feedRun).gr.deliveriesOn 1 = [mkReq "other" "y"] ∧
    (crun feedSysFeed feedRun).crashed = none ∧
    ((crun feedSysFeed feedRun).gr.deliveriesOn feedSys.gr.nextCh
        ++ (crun feedSysFeed feedRun).owed "bin" feedSys.gr.nextCh
      = feedSys.gr.deliveriesOn feedSys.gr.nextCh ++ forKey "bin" feedSys.pending
        ++ forKey "bin" (ingested feedSysFeed feedRun)) ∧
    ((crun feedSysFeed feedRun).drained →
      (crun feedSysFeed feedRun).gr.deliveriesOn feedSys.gr.nextCh
        = feedSys.gr.deliveriesOn feedSys.gr.nextCh ++ forKey "bin" feedSys.pending
          ++ forKey "bin" (ingested feedSysFeed feedRun)) ∧
    ((cstep (crun feedSysFeed feedRun) .broker).isSome = true ∨
      ((crun feedSysFeed feedRun).pc = .idle ∧ (crun feedSysFeed feedRun).gr.broker = []) ∨
      (∃ r, (crun feedSysFeed feedRun).pc = .holding r ∧
        (crun feedSysFeed feedRun).writer ≠ none)) :=
  ⟨⟨by decide, by decide, by decide⟩, by decide, by decide,
    C7_feed_receives_ingested feedSys feedSysFeed 0 "bin"
      { Key := "bin", timestamp := 0, reqs := [mkReq "bin" "w"], chs := [0] } feedRun
      (by decide) (by decide) (by decide)
      (feedsLive_of_bindings feedSys (by decide) (by decide) (by decide))
      (nextChNew_of_bindings feedSys (by decide) (by decide) (by decide))
      (by decide)⟩

open GomibakoRepository in
/-- C7 fails as stated: feed 0 is registered on "a" and closed
(`staleFeedRepo`); `GetWithCh("a")` returns feed 1, neither released nor
expired afterwards; `AddRequest` of "x" on "a" returns nil; the broker
receives "x", the range over the feed set reaches feed 0 first and the send
panics.  The queue is empty and feed 1 has not been sent "x". -/
theorem C7_closed_feed_stops_delivery :
    GetWithCh staleFeedRepo "a"
      = .ret (.ok ({ Key := "a", timestamp := 0, reqs := [], chs := [0, 1] }, 1))
          (GetWithCh staleFeedRepo "a").state ∧
    AddRequest (GetWithCh staleFeedRepo "a").state (mkReq "a" "x")
      = .ret none (AddRequest (GetWithCh staleFeedRepo "a").state (mkReq "a" "x")).state ∧
    RunBrokerStep (AddRequest (GetWithCh staleFeedRepo "a").state (mkReq "a" "x")).state
      = .panic "send on closed channel"
          (RunBrokerStep
            (AddRequest (GetWithCh staleFeedRepo "a").state (mkReq "a" "x")).state).state ∧
    (RunBrokerStep
      (AddRequest (GetWithCh staleFeedRepo "a").state (mkReq "a" "x")).state).state.broker
      = [] ∧
    deliveriesOn (RunBrokerStep
      (AddRequest (GetWithCh staleFeedRepo "a").state (mkReq "a" "x")).state).state 1
      = [] := by
  refine ⟨rfl, by decide, by decide, by decide, by decide⟩

/-! ## C6 -/

/-- C6 (amended): a `GetWithCh(k)` call registers the feed `ch`, a new
channel, in its second step; the steps of `AddRequest` calls, `GetWithCh`
calls and the broker follow in any interleaving.  `GetWithCh` itself sends
nothing, the stored history is not replayed, and every request sent to `ch`
is a request for `k` that was pending when `ch` was registered (waiting in
the broker queue, received by the broker with its feed-set lookup still to
come, or with an `AddRequest` waiting to send) or that was ingested
afterwards. -/
theorem C6_feed_gets_pending_or_later (s0 s1 : Sys) (i : Nat) (k : GomibakoKey) (live : Bool)
    (ls : List Label)
    (hentry : s0.subscribing[i]? = some (k, live))
    (hstep : cstep s0 (.getEnd i) = some s1) (hnew : s0.NextChNew)
    (hls : ∀ l ∈ ls, l.isFeedStep = true) :
    s1.gr.delivered = s0.gr.delivered ∧
    ∃ new, (crun s1 ls).gr.deliveriesOn s0.gr.nextCh
        = s0.gr.deliveriesOn s0.gr.nextCh ++ new ∧
      ∀ R ∈ new, R.Key = k ∧ (R ∈ s0.pending ∨ R ∈ ingested s1 ls) := by
  obtain ⟨hB, hdel⟩ := getEnd_bound s0 s1 i k live hentry hstep hnew
  obtain ⟨new, hnew2, hin⟩ := (crun_bound ls s1 k _ _ _ hB hls).sent
  refine ⟨hdel, new, hnew2, ?_⟩
  intro R hR
  obtain ⟨h1, h2⟩ := hin R hR
  exact ⟨h1, List.mem_append.mp h2⟩

/-- C6_feed_gets_pending_or_later at a concrete schedule: feed 0 is
registered on "bin" while the broker holds "w" and "v" waits in the queue;
the feed is sent "w", "v" and the later "x". -/
theorem C6_feed_gets_pending_or_later_witness :
    lateSys.pending = [mkReq "bin" "w", mkReq "bin" "v"] ∧
    (crun lateSysFeed lateRun).gr.deliveriesOn 0
      = [mkReq "bin" "w", mkReq "bin" "v", mkReq "bin" "x"] ∧
    lateSysFeed.gr.delivered = lateSys.gr.delivered ∧
    ∃ new, (crun lateSysFeed lateRun).gr.deliveriesOn lateSys.gr.nextCh
        = lateSys.gr.deliveriesOn lateSys.gr.nextCh ++ new ∧
      ∀ R ∈ new, R.Key = "bin" ∧ (R ∈ lateSys.pending ∨ R ∈ ingested lateSysFeed lateRun) :=
  ⟨by decide, by decide,
    C6_feed_gets_pending_or_later lateSys lateSysFeed 0 "bin" true lateRun (by decide)
      (by decide) (nextChNew_of_bindings lateSys (by decide) (by decide) (by decide))
      (by decide)⟩

open GomibakoRepository in
/-- C6 fails as stated: `AddRequest` of "x" on "bin" returns nil, then
`GetWithCh("bin")` creates feed 0, and the next broker step delivers "x" to
feed 0.  The same happens when the broker has already received "x" from the
queue and not yet taken the read lock when `GetWithCh` runs (`heldSys`): the
queue is empty, and feed 0 is sent "x". -/
theorem C6_queued_request_reaches_new_feed :
    AddRequest emptyBin (mkReq "bin" "x")
      = .ret none (AddRequest emptyBin (mkReq "bin" "x")).state ∧
    GetWithCh (AddRequest emptyBin (mkReq "bin" "x")).state "bin"
      = .ret (.ok ({ Key := "bin", timestamp := 0, reqs := [mkReq "bin" "x"], chs := [0] }, 0))
          busyRepo ∧
    deliveriesOn busyRepo 0 = [] ∧
    (RunBrokerStep busyRepo).isRet = true ∧
    deliveriesOn (RunBrokerStep busyRepo).state 0 = [mkReq "bin" "x"] ∧
    heldSys.gr.broker = [] ∧ heldSys.pc = .holding (mkReq "bin" "x") ∧
    deliveriesOn (crun heldSys [.getBegin "bin", .getEnd 0, .broker, .broker, .broker]).gr 0
      = [mkReq "bin" "x"] := by
  refine ⟨by decide, rfl, by decide, by decide, by decide, by decide, by decide, by decide⟩

end GomibakoLib
